import Mathlib

/-!
Verification development for the `khvm_graph` term-graph core
(`src/khvm_graph/src/main.rs`): a shallow embedding of the surface term
type, the node-graph data model, graph construction (`create_term`),
display-name assignment (`build_names_go`) and readback (`readback`),
together with theorems about the claims of the specification.

Rust's `Rc`-based node identity is embedded as an arena: every `VarNode`,
`LamNode` and `DupNode` lives in a `Store` list and is addressed by its
index; `Rc::as_ptr`-derived uids become `UId` values tagged with the node
class (distinct allocations always have distinct uids, as in Rust).
Interior mutability (`RefCell`) becomes explicit state passing.
-/

/-- Surface / display names.  In kindelia a `Name` is a packed `u120`;
`Name.nil` embeds `Name::NONE`, `Name.user` the names appearing in source
programs, `Name.xn n` the display name `"x{n}"` produced by readback and
`Name.wut` the sentinel `"___"`. -/
inductive Name where
  | nil
  | user (n : Nat)
  | xn (n : Nat)
  | wut
deriving DecidableEq, Repr

/-- Binary operators (kindelia `Oper`); carried through the graph,
never interpreted by this core. -/
inductive Oper where
  | add | sub | mul | div | mod | and | or | xor
  | shl | shr | ltn | lte | eql | gte | gtn | neq
deriving DecidableEq, Repr

/-- Surface terms (kindelia `Term`), the input/output of the core. -/
inductive Term where
  | var (name : Name)
  | dup (nam0 nam1 : Name) (expr body : Term)
  | lam (name : Name) (body : Term)
  | app (func argm : Term)
  | ctr (name : Name) (args : List Term)
  | fnc (name : Name) (args : List Term)
  | num (value : Nat)
  | op2 (oper : Oper) (val0 val1 : Term)

/-- Duplication labels (`type Label = u64`). -/
abbrev Label := Nat

/-- `DpxNode`: a projection occurrence; `dup` is the arena index of the
back-referenced `DupNode`. -/
structure DpxNode where
  label : Label
  side : Bool
  dup : Nat
deriving DecidableEq, Repr

/-- Graph term nodes (`TermNode`).  `var` and `lam` carry arena indices of
the referenced `VarNode` / `LamNode`; `sup` inlines the `SupNode` pair. -/
inductive TermNode where
  | var (var : Nat)
  | dpx (dpx : DpxNode)
  | sup (label : Label) (left right : Option TermNode)
  | lam (lam : Nat)
  | app (f arg : TermNode)
  | ctr (name : Name) (args : List TermNode)
  | fnc (name : Name) (args : List TermNode)
  | num (value : Nat)
  | op2 (op : Oper) (arg0 arg1 : TermNode)

/-- `VarNode`: one occurrence site of a lambda-bound variable, with a
back-reference to its lambda. -/
structure VarNode where
  lam : Nat
deriving DecidableEq, Repr

/-- `LamNode`: owns its body; `var` is the optional variable node. -/
structure LamNode where
  var : Option Nat
  body : TermNode

/-- `DupNode`: owns the duplicated expression plus the two optional
projection slots. -/
structure DupNode where
  left : Option DpxNode
  right : Option DpxNode
  expr : TermNode

/-- The arena of allocated nodes (Rust's heap of `Rc` allocations). -/
structure Store where
  vars : List VarNode
  lams : List LamNode
  dups : List DupNode

/-- Stable node identities, as produced by `get_uid` on the shared
(`Rc`-allocated) nodes whose uid the code actually uses: variable nodes
and duplication nodes. -/
inductive UId where
  | varU (i : Nat)
  | dupU (i : Nat)
deriving DecidableEq, Repr

/-- Runtime errors surfaced by the core.  `unboundVar` embeds
`RuntimeError::UnboundVar`; `malformedGraph` is the error the spec
requires for an ill-shared superposition; `outOfFuel` is the embedding's
marker for a graph traversal that exceeds its recursion budget (the Rust
recursion has no such budget and would simply not terminate). -/
inductive RtErr where
  | unboundVar (name : Name)
  | malformedGraph
  | outOfFuel
deriving DecidableEq, Repr

/-- The per-name binding-stack table `vars_map: NameMap<Vec<TermNode>>`.
The head of each list is the top of the corresponding stack. -/
abbrev VarsMap := Name → List TermNode

/-- Construction-time state: the node arena plus the binding-stack table
(Rust mutates both in place). -/
structure CSt where
  store : Store
  varsMap : VarsMap

/-- The empty initial state of `create_term`. -/
def initCSt : CSt := ⟨⟨[], [], []⟩, fun _ => []⟩

/-- `placeholder()`: the sentinel body a `LamNode` is allocated with
(`U120::MAX`). -/
def placeholder : TermNode := .num (2 ^ 120 - 1)

/-- Allocate a `VarNode`; its uid is its index in the arena. -/
def allocVar (v : VarNode) (st : CSt) : Nat × CSt :=
  (st.store.vars.length, { st with store := { st.store with vars := st.store.vars ++ [v] } })

/-- Allocate a `LamNode`. -/
def allocLam (l : LamNode) (st : CSt) : Nat × CSt :=
  (st.store.lams.length, { st with store := { st.store with lams := st.store.lams ++ [l] } })

/-- Allocate a `DupNode`. -/
def allocDup (d : DupNode) (st : CSt) : Nat × CSt :=
  (st.store.dups.length, { st with store := { st.store with dups := st.store.dups ++ [d] } })

/-- Read a `LamNode` (Rust dereferences an always-valid `Rc`; out-of-range
indices, unrepresentable in Rust, yield a junk default). -/
def lamGet (s : Store) (i : Nat) : LamNode :=
  s.lams.getD i ⟨none, placeholder⟩

/-- Read a `DupNode`. -/
def dupGet (s : Store) (i : Nat) : DupNode :=
  s.dups.getD i ⟨none, none, placeholder⟩

/-- Overwrite the lambda node `i` (the `RefCell` mutations of
construction's two-phase patch protocol). -/
def setLam (i : Nat) (l : LamNode) (st : CSt) : CSt :=
  { st with store := { st.store with lams := st.store.lams.set i l } }

/-- Overwrite the duplication node `i`. -/
def setDup (i : Nat) (d : DupNode) (st : CSt) : CSt :=
  { st with store := { st.store with dups := st.store.dups.set i d } }

/-- Push a term onto `name`'s binding stack
(`vars_map.entry(name).or_default().push(term)`). -/
def stackPush (name : Name) (t : TermNode) (st : CSt) : CSt :=
  { st with varsMap := fun k => if k = name then t :: st.varsMap k else st.varsMap k }

/-- `consume`: pop the top pending occurrence-producer for `name`;
`none` when the stack is absent or empty. -/
def consume (name : Name) (st : CSt) : Option (TermNode × CSt) :=
  match st.varsMap name with
  | [] => none
  | t :: rest =>
    some (t, { st with varsMap := fun k => if k = name then rest else st.varsMap k })

/-- `bind_var`: if `name` is not `NONE`, allocate a `VarNode`
back-referencing lambda `lamId`, link it on the lambda's `var` slot, and
push the `Var` occurrence term for `name`. -/
def bindVar (name : Name) (lamId : Nat) (st : CSt) : CSt :=
  if name = Name.nil then st
  else
    let (v, st1) := allocVar ⟨lamId⟩ st
    let st2 := setLam lamId { lamGet st1.store lamId with var := some v } st1
    stackPush name (.var v) st2

/-- `bind_dp`: if `name` is not `NONE`, build a `DpxNode`
back-referencing duplication `dupId`, install it on the corresponding
side slot, and push the `Dpx` occurrence term for `name`. -/
def bindDp (name : Name) (label : Label) (side : Bool) (dupId : Nat) (st : CSt) : CSt :=
  if name = Name.nil then st
  else
    let dpxNode : DpxNode := ⟨label, side, dupId⟩
    let d := dupGet st.store dupId
    let d' := if !side then { d with left := some dpxNode } else { d with right := some dpxNode }
    let st2 := setDup dupId d' st
    stackPush name (.dpx dpxNode) st2

mutual

/-- `create_term_go`: recursive descent translating a surface term into
the node graph.  Note on labels: Rust re-initialises the `labels` counter
(`let mut labels = 1`) on every call of `create_term_go`, and the `Dup`
arm is the only caller of `fresh_label`, at most once per invocation —
so the label handed to every duplication node is the constant `1`. -/
def createTermGo (t : Term) (st : CSt) : Except RtErr (TermNode × CSt) :=
  match t with
  | .var name =>
    match consume name st with
    | some (tm, st') => .ok (tm, st')
    | none => .error (.unboundVar name)
  | .dup nam0 nam1 expr body =>
    let label : Label := 1
    match createTermGo expr st with
    | .error e => .error e
    | .ok (e, st1) =>
      let (d, st2) := allocDup ⟨none, none, e⟩ st1
      let st3 := bindDp nam0 label false d st2
      let st4 := bindDp nam1 label true d st3
      createTermGo body st4
  | .lam name body =>
    let (l, st1) := allocLam ⟨none, placeholder⟩ st
    let st2 := bindVar name l st1
    match createTermGo body st2 with
    | .error e => .error e
    | .ok (b, st3) => .ok (.lam l, setLam l { lamGet st3.store l with body := b } st3)
  | .app func argm =>
    match createTermGo func st with
    | .error e => .error e
    | .ok (f, st1) =>
      match createTermGo argm st1 with
      | .error e => .error e
      | .ok (a, st2) => .ok (.app f a, st2)
  | .ctr name args =>
    match createTermGoList args st with
    | .error e => .error e
    | .ok (gargs, st1) => .ok (.ctr name gargs, st1)
  | .fnc name args =>
    match createTermGoList args st with
    | .error e => .error e
    | .ok (gargs, st1) => .ok (.fnc name gargs, st1)
  | .num value => .ok (.num value, st)
  | .op2 oper val0 val1 =>
    match createTermGo val0 st with
    | .error e => .error e
    | .ok (a0, st1) =>
      match createTermGo val1 st1 with
      | .error e => .error e
      | .ok (a1, st2) => .ok (.op2 oper a0 a1, st2)

/-- Argument-list traversal of `create_term_go` (the `args.iter().map`
collection in the `Ctr`/`Fun` arms). -/
def createTermGoList (ts : List Term) (st : CSt) : Except RtErr (List TermNode × CSt) :=
  match ts with
  | [] => .ok ([], st)
  | t :: rest =>
    match createTermGo t st with
    | .error e => .error e
    | .ok (g, st1) =>
      match createTermGoList rest st1 with
      | .error e => .error e
      | .ok (gs, st2) => .ok (g :: gs, st2)

end

/-- `create_term`: run the constructor from the empty binding table and
return the root together with the final arena (in Rust the arena is the
implicit `Rc` heap). -/
def createTerm (t : Term) : Except RtErr (TermNode × Store) :=
  match createTermGo t initCSt with
  | .ok (r, st) => .ok (r, st.store)
  | .error e => .error e

/-- The Namer's memo table `names: HashMap<usize, usize>`, kept as an
association list in insertion order so that `len()` (the next dense id)
is the list length. -/
structure NamesMap where
  entries : List (UId × Nat)
deriving DecidableEq, Repr

/-- Lookup (`names.get(&uid)`). -/
def lookupUId (entries : List (UId × Nat)) (u : UId) : Option Nat :=
  match entries with
  | [] => none
  | (k, v) :: rest => if k = u then some v else lookupUId rest u

/-- Insert a key known to be absent, with value `names.len()`. -/
def NamesMap.insertFresh (m : NamesMap) (u : UId) : NamesMap :=
  ⟨m.entries ++ [(u, m.entries.length)]⟩

/-- `names.entry(uid).or_insert(next)`: insert only when absent. -/
def NamesMap.orInsert (m : NamesMap) (u : UId) : NamesMap :=
  match lookupUId m.entries u with
  | some _ => m
  | none => m.insertFresh u

/-- State of `build_names_go`: the arena (read through shared borrows)
and the memo table (mutated in place). -/
structure BSt where
  store : Store
  names : NamesMap

/-- Traversal of a node's argument list (`for arg in args`) by a node
visitor `f`, threading the state. -/
def namesFold (f : TermNode → BSt → Option BSt) : List TermNode → BSt → Option BSt
  | [], st => some st
  | n :: rest, st =>
    match f n st with
    | none => none
    | some st1 => namesFold f rest st1

/-- `build_names_go`: deterministic first-visit id assignment.  The
`fuel` argument bounds the recursion depth (graph recursion is not
structural); `none` means the budget ran out, which cannot happen to the
Rust original on the graphs where it terminates. -/
def buildNamesGo (fuel : Nat) (node : TermNode) (st : BSt) : Option BSt :=
  match fuel with
  | 0 => none
  | fuel + 1 =>
    match node with
    | .var _ => some st
    | .dpx dpx =>
      let uid := UId.dupU dpx.dup
      match lookupUId st.names.entries uid with
      | some _ => some st
      | none =>
        let st1 := { st with names := st.names.insertFresh uid }
        buildNamesGo fuel (dupGet st.store dpx.dup).expr st1
    | .sup _ left right =>
      match left with
      | none =>
        match right with
        | none => some st
        | some r => buildNamesGo fuel r st
      | some l =>
        match buildNamesGo fuel l st with
        | none => none
        | some st1 =>
          match right with
          | none => some st1
          | some r => buildNamesGo fuel r st1
    | .lam l =>
      let lamN := lamGet st.store l
      match lamN.var with
      | some v =>
        let st1 := { st with names := st.names.orInsert (UId.varU v) }
        buildNamesGo fuel lamN.body st1
      | none => some st
    | .app f arg =>
      match buildNamesGo fuel f st with
      | none => none
      | some st1 => buildNamesGo fuel arg st1
    | .ctr _ args => namesFold (buildNamesGo fuel) args st
    | .fnc _ args => namesFold (buildNamesGo fuel) args st
    | .num _ => some st
    | .op2 _ arg0 arg1 =>
      match buildNamesGo fuel arg0 st with
      | none => none
      | some st1 => buildNamesGo fuel arg1 st1

/-- `DupPaths`: per-label stacks of previously-entered sides
(`HashMap<Label, Vec<bool>>`), kept as an association list; the head of
each stored list is the top of that label's stack. -/
structure DupPaths where
  table : List (Label × List Bool)
deriving DecidableEq, Repr

/-- Lookup a label's stack entry (`self.stacks.get(&label)`; the Rust field `stacks` is called `table` here because `stacks` is reserved in this environment). -/
def lookupStack (table : List (Label × List Bool)) (label : Label) : Option (List Bool) :=
  match table with
  | [] => none
  | (k, v) :: rest => if k = label then some v else lookupStack rest label

/-- The stack stored for `label`, an absent entry reading as empty. -/
def DupPaths.get (p : DupPaths) (label : Label) : List Bool :=
  (lookupStack p.table label).getD []

/-- Replace the entry for `label` in place, appending it if absent (the
effect of `entry(label).or_insert_with(Vec::new)` followed by a
mutation). -/
def setStack (table : List (Label × List Bool)) (label : Label) (s : List Bool) :
    List (Label × List Bool) :=
  match table with
  | [] => [(label, s)]
  | (k, v) :: rest => if k = label then (k, s) :: rest else (k, v) :: setStack rest label s

/-- `DupPaths::push`. -/
def DupPaths.push (p : DupPaths) (label : Label) (value : Bool) : DupPaths :=
  ⟨setStack p.table label (value :: p.get label)⟩

/-- `DupPaths::pop`: drop the top of `label`'s stack (materialising an
empty entry when absent, as `entry().or_insert_with` does). -/
def DupPaths.pop (p : DupPaths) (label : Label) : DupPaths :=
  ⟨setStack p.table label (p.get label).tail⟩

/-- Reader state: the arena (reachable for mutation through the nodes'
`RefCell`s, though `readback_go` only ever reads it) and the
duplication-path stacks (mutated in place). -/
structure RSt where
  store : Store
  paths : DupPaths

/-- The display name for the uid `u`: `"x{n}"` for its assigned id `n`,
or the `"___"` sentinel when the Namer assigned none. -/
def displayName (names : NamesMap) (u : UId) : Name :=
  match lookupUId names.entries u with
  | some n => Name.xn n
  | none => Name.wut

/-- Argument-list traversal of `readback_go` by a node reader `f`. -/
def readFold (f : TermNode → RSt → Except RtErr (Term × RSt)) :
    List TermNode → RSt → Except RtErr (List Term × RSt)
  | [], st => .ok ([], st)
  | n :: rest, st =>
    match f n st with
    | .error e => .error e
    | .ok (t, st1) =>
      match readFold f rest st1 with
      | .error e => .error e
      | .ok (ts, st2) => .ok (t :: ts, st2)

/-- `readback_go`: translate a node back into a surface term.  Faithful
to the source except for the `Sup` arm, whose body is `todo!()` in the
source and is modelled from the spec (see its comment).  `fuel` bounds
the graph recursion. -/
def readbackGo (fuel : Nat) (names : NamesMap) (node : TermNode) (st : RSt) :
    Except RtErr (Term × RSt) :=
  match fuel with
  | 0 => .error .outOfFuel
  | fuel + 1 =>
    match node with
    | .var v => .ok (.var (displayName names (UId.varU v)), st)
    | .dpx dpx =>
      let st1 := { st with paths := st.paths.push dpx.label dpx.side }
      match readbackGo fuel names (dupGet st.store dpx.dup).expr st1 with
      | .error e => .error e
      | .ok (expr, st2) => .ok (expr, { st2 with paths := st2.paths.pop dpx.label })
    | .sup label left right =>
      -- Modelled from the spec: this arm is `todo!()` in the source.
      -- §4.4: consult the top of the label's path stack to choose the
      -- left (side = false) or right (side = true) alternative; an empty
      -- stack is a malformed-graph error, never a guessed default side.
      match (st.paths.get label).head? with
      | none => .error .malformedGraph
      | some side =>
        match (if side then right else left) with
        | none => .error .malformedGraph
        | some alt => readbackGo fuel names alt st
    | .lam l =>
      let lamN := lamGet st.store l
      let name :=
        match lamN.var with
        | some v => displayName names (UId.varU v)
        | none => Name.nil
      match readbackGo fuel names lamN.body st with
      | .error e => .error e
      | .ok (body, st1) => .ok (.lam name body, st1)
    | .app f arg =>
      match readbackGo fuel names f st with
      | .error e => .error e
      | .ok (func, st1) =>
        match readbackGo fuel names arg st1 with
        | .error e => .error e
        | .ok (argm, st2) => .ok (.app func argm, st2)
    | .ctr name args =>
      match readFold (readbackGo fuel names) args st with
      | .error e => .error e
      | .ok (targs, st1) => .ok (.ctr name targs, st1)
    | .fnc name args =>
      match readFold (readbackGo fuel names) args st with
      | .error e => .error e
      | .ok (targs, st1) => .ok (.fnc name targs, st1)
    | .num value => .ok (.num value, st)
    | .op2 op arg0 arg1 =>
      match readbackGo fuel names arg0 st with
      | .error e => .error e
      | .ok (val0, st1) =>
        match readbackGo fuel names arg1 st1 with
        | .error e => .error e
        | .ok (val1, st2) => .ok (.op2 op val0 val1, st2)

/-- `readback`: build the Namer's table for the root, then read the graph
back starting from empty duplication paths, discarding the traversal
state. -/
def readback (fuel : Nat) (store : Store) (node : TermNode) : Except RtErr Term :=
  match buildNamesGo fuel node ⟨store, ⟨[]⟩⟩ with
  | none => .error .outOfFuel
  | some bst =>
    match readbackGo fuel bst.names node ⟨store, ⟨[]⟩⟩ with
    | .error e => .error e
    | .ok (t, _) => .ok t

/-- Build a term and read it straight back (the pipeline of `main`). -/
def roundtrip (fuel : Nat) (t : Term) : Except RtErr Term :=
  match createTerm t with
  | .error e => .error e
  | .ok (root, store) => readback fuel store root

mutual

/-- `true` iff the term contains no `Dup`. -/
def noDupC : Term → Bool
  | .var _ => true
  | .dup _ _ _ _ => false
  | .lam _ body => noDupC body
  | .app func argm => noDupC func && noDupC argm
  | .ctr _ args => noDupCList args
  | .fnc _ args => noDupCList args
  | .num _ => true
  | .op2 _ val0 val1 => noDupC val0 && noDupC val1

/-- List version of `noDupC`. -/
def noDupCList : List Term → Bool
  | [] => true
  | t :: rest => noDupC t && noDupCList rest

end

mutual

/-- `true` iff no binder of the term is the `NONE` sentinel. -/
def nilFreeB : Term → Bool
  | .var _ => true
  | .dup nam0 nam1 expr body =>
    !(nam0 = Name.nil) && !(nam1 = Name.nil) && nilFreeB expr && nilFreeB body
  | .lam name body => !(name = Name.nil) && nilFreeB body
  | .app func argm => nilFreeB func && nilFreeB argm
  | .ctr _ args => nilFreeBList args
  | .fnc _ args => nilFreeBList args
  | .num _ => true
  | .op2 _ val0 val1 => nilFreeB val0 && nilFreeB val1

/-- List version of `nilFreeB`. -/
def nilFreeBList : List Term → Bool
  | [] => true
  | t :: rest => nilFreeB t && nilFreeBList rest

end

mutual

/-- All binder names of the term (lambda and duplication binders), in
pre-order. -/
def lamNames : Term → List Name
  | .var _ => []
  | .dup nam0 nam1 expr body => nam0 :: nam1 :: (lamNames expr ++ lamNames body)
  | .lam name body => name :: lamNames body
  | .app func argm => lamNames func ++ lamNames argm
  | .ctr _ args => lamNamesList args
  | .fnc _ args => lamNamesList args
  | .num _ => []
  | .op2 _ val0 val1 => lamNames val0 ++ lamNames val1

/-- List version of `lamNames`. -/
def lamNamesList : List Term → List Name
  | [] => []
  | t :: rest => lamNames t ++ lamNamesList rest

end

mutual

/-- Conventional lexical scoping: every `Var` occurs inside the body of
an enclosing binder of its name (`ctx` lists the binders in scope,
innermost first). -/
def lexScoped (ctx : List Name) : Term → Bool
  | .var name => ctx.contains name
  | .dup nam0 nam1 expr body =>
    lexScoped ctx expr && lexScoped (nam1 :: nam0 :: ctx) body
  | .lam name body => lexScoped (name :: ctx) body
  | .app func argm => lexScoped ctx func && lexScoped ctx argm
  | .ctr _ args => lexScopedList ctx args
  | .fnc _ args => lexScopedList ctx args
  | .num _ => true
  | .op2 _ val0 val1 => lexScoped ctx val0 && lexScoped ctx val1

/-- List version of `lexScoped`. -/
def lexScopedList (ctx : List Name) : List Term → Bool
  | [] => true
  | t :: rest => lexScoped ctx t && lexScopedList ctx rest

end

mutual

/-- Size of a surface term (used as a recursion budget). -/
def sizeT : Term → Nat
  | .var _ => 1
  | .dup _ _ expr body => 1 + sizeT expr + sizeT body
  | .lam _ body => 1 + sizeT body
  | .app func argm => 1 + sizeT func + sizeT argm
  | .ctr _ args => 1 + sizeTList args
  | .fnc _ args => 1 + sizeTList args
  | .num _ => 1
  | .op2 _ val0 val1 => 1 + sizeT val0 + sizeT val1

/-- List version of `sizeT`. -/
def sizeTList : List Term → Nat
  | [] => 0
  | t :: rest => sizeT t + sizeTList rest

end

/-- Locally nameless comparison skeleton: surface terms mapped into this
type with binders made anonymous are equal exactly when they are equal up
to a consistent (capture-free) renaming of bound variables. -/
inductive DB where
  | bvar (i : Nat)
  | fvar (name : Name)
  | dupD (expr body : DB)
  | lamD (body : DB)
  | appD (func argm : DB)
  | ctrD (name : Name) (args : List DB)
  | fncD (name : Name) (args : List DB)
  | numD (value : Nat)
  | op2D (oper : Oper) (val0 val1 : DB)

/-- Index of the first occurrence of `x`. -/
def idxOf (x : Name) : List Name → Option Nat
  | [] => none
  | y :: rest => if y = x then some 0 else (idxOf x rest).map (· + 1)

mutual

/-- De Bruijn image of a term: bound occurrences become indices into
`ctx` (innermost binder first), free occurrences keep their name. -/
def toDB (ctx : List Name) : Term → DB
  | .var name =>
    match idxOf name ctx with
    | some i => .bvar i
    | none => .fvar name
  | .dup nam0 nam1 expr body =>
    .dupD (toDB ctx expr) (toDB (nam1 :: nam0 :: ctx) body)
  | .lam name body => .lamD (toDB (name :: ctx) body)
  | .app func argm => .appD (toDB ctx func) (toDB ctx argm)
  | .ctr name args => .ctrD name (toDBList ctx args)
  | .fnc name args => .fncD name (toDBList ctx args)
  | .num value => .numD value
  | .op2 oper val0 val1 => .op2D oper (toDB ctx val0) (toDB ctx val1)

/-- List version of `toDB`. -/
def toDBList (ctx : List Name) : List Term → List DB
  | [] => []
  | t :: rest => toDB ctx t :: toDBList ctx rest

end

/-- Bump the pending-binding count for a non-`NONE` binder name. -/
def scopePush (name : Name) (counts : Name → Nat) : Name → Nat :=
  if name = Name.nil then counts
  else fun k => if k = name then counts k + 1 else counts k

/-- Decrement the pending-binding count for a consumed name. -/
def scopeConsume (name : Name) (counts : Name → Nat) : Name → Nat :=
  fun k => if k = name then counts k - 1 else counts k

mutual

/-- Specification-side scope discipline, following the contract's words:
a `Var` must find a pending binding for its name (bindings are pushed by
lambda and duplication binders and consumed by occurrences; they are
*not* discarded when the binder's body ends, mirroring `create_term_go`,
which never pops at scope exit).  Tracks only the per-name count of
pending bindings; returns the first unbound name as the error. -/
def scopeCheck (counts : Name → Nat) : Term → Except Name (Name → Nat)
  | .var name =>
    if counts name = 0 then .error name else .ok (scopeConsume name counts)
  | .dup nam0 nam1 expr body =>
    match scopeCheck counts expr with
    | .error n => .error n
    | .ok c1 => scopeCheck (scopePush nam1 (scopePush nam0 c1)) body
  | .lam name body => scopeCheck (scopePush name counts) body
  | .app func argm =>
    match scopeCheck counts func with
    | .error n => .error n
    | .ok c1 => scopeCheck c1 argm
  | .ctr _ args => scopeCheckList counts args
  | .fnc _ args => scopeCheckList counts args
  | .num _ => .ok counts
  | .op2 _ val0 val1 =>
    match scopeCheck counts val0 with
    | .error n => .error n
    | .ok c1 => scopeCheck c1 val1

/-- List version of `scopeCheck`. -/
def scopeCheckList (counts : Name → Nat) : List Term → Except Name (Name → Nat)
  | [] => .ok counts
  | t :: rest =>
    match scopeCheck counts t with
    | .error n => .error n
    | .ok c1 => scopeCheckList c1 rest

end

/-- The pending-binding counts of a construction state. -/
def countsOf (st : CSt) : Name → Nat := fun n => (st.varsMap n).length

mutual

/-- Surface-level substitution of `u` for `x`, stopping at re-binders of
`x`; it is capture-avoiding whenever no binder of the target captures a
free name of `u` (the precondition of the Beta claim). -/
def substS (x : Name) (u : Term) : Term → Term
  | .var name => if name = x then u else .var name
  | .dup nam0 nam1 expr body =>
    .dup nam0 nam1 (substS x u expr)
      (if nam0 = x || nam1 = x then body else substS x u body)
  | .lam name body => .lam name (if name = x then body else substS x u body)
  | .app func argm => .app (substS x u func) (substS x u argm)
  | .ctr name args => .ctr name (substSList x u args)
  | .fnc name args => .fnc name (substSList x u args)
  | .num value => .num value
  | .op2 oper val0 val1 => .op2 oper (substS x u val0) (substS x u val1)

/-- List version of `substS`. -/
def substSList (x : Name) (u : Term) : List Term → List Term
  | [] => []
  | t :: rest => substS x u t :: substSList x u rest

end

/-- Overwrite lambda node `i` of a bare store. -/
def storeSetLam (i : Nat) (l : LamNode) (s : Store) : Store :=
  { s with lams := s.lams.set i l }

/-- Overwrite duplication node `i` of a bare store. -/
def storeSetDup (i : Nat) (d : DupNode) (s : Store) : Store :=
  { s with dups := s.dups.set i d }

/-- Traversal of a node list by a substituting visitor `f`. -/
def substFold (f : TermNode → Store → Option (TermNode × Store)) :
    List TermNode → Store → Option (List TermNode × Store)
  | [], s => some ([], s)
  | n :: rest, s =>
    match f n s with
    | none => none
    | some (n', s1) =>
      match substFold f rest s1 with
      | none => none
      | some (rest', s2) => some (n' :: rest', s2)

/-- Modelled from the spec: the rewiring step of the Beta rule.  `reduce`
is `todo!()` in the source; §4.5 says Beta rewires the bound variable's
single occurrence to point directly at the argument's subgraph.  This
model realises the rewiring as a traversal replacing the occurrence
`Var(v)` wherever it sits — including inside lambda bodies and
duplication expressions owned by the store — with the argument graph.
`fuel` bounds the graph recursion. -/
def substG (fuel : Nat) (v : Nat) (u : TermNode) (node : TermNode) (s : Store) :
    Option (TermNode × Store) :=
  match fuel with
  | 0 => none
  | fuel + 1 =>
    match node with
    | .var w => if w = v then some (u, s) else some (.var w, s)
    | .dpx dpx =>
      match substG fuel v u (dupGet s dpx.dup).expr s with
      | none => none
      | some (e', s1) =>
        some (.dpx dpx, storeSetDup dpx.dup { dupGet s1 dpx.dup with expr := e' } s1)
    | .sup label left right =>
      match left with
      | none =>
        match right with
        | none => some (.sup label none none, s)
        | some r =>
          match substG fuel v u r s with
          | none => none
          | some (r', s1) => some (.sup label none (some r'), s1)
      | some l =>
        match substG fuel v u l s with
        | none => none
        | some (l', s1) =>
          match right with
          | none => some (.sup label (some l') none, s1)
          | some r =>
            match substG fuel v u r s1 with
            | none => none
            | some (r', s2) => some (.sup label (some l') (some r'), s2)
    | .lam l =>
      match substG fuel v u (lamGet s l).body s with
      | none => none
      | some (b', s1) =>
        some (.lam l, storeSetLam l { lamGet s1 l with body := b' } s1)
    | .app f arg =>
      match substG fuel v u f s with
      | none => none
      | some (f', s1) =>
        match substG fuel v u arg s1 with
        | none => none
        | some (arg', s2) => some (.app f' arg', s2)
    | .ctr name args =>
      match substFold (substG fuel v u) args s with
      | none => none
      | some (args', s1) => some (.ctr name args', s1)
    | .fnc name args =>
      match substFold (substG fuel v u) args s with
      | none => none
      | some (args', s1) => some (.fnc name args', s1)
    | .num value => some (.num value, s)
    | .op2 op arg0 arg1 =>
      match substG fuel v u arg0 s with
      | none => none
      | some (a0, s1) =>
        match substG fuel v u arg1 s1 with
        | none => none
        | some (a1, s2) => some (.op2 op a0 a1, s2)

/-- Modelled from the spec: one firing of the Beta rule
`App(Lam(x, body), arg)` at the graph root — rewire the lambda's variable
occurrence (if the binder was ever referenced) to the argument subgraph
and reduce to the body.  `reduce` is `todo!()` in the source. -/
def reduceBetaStep (fuel : Nat) (node : TermNode) (s : Store) : Option (TermNode × Store) :=
  match node with
  | .app (.lam l) arg =>
    let lamN := lamGet s l
    match lamN.var with
    | some v => substG fuel v arg lamN.body s
    | none => some (lamN.body, s)
  | _ => none

/-- Build, Beta-reduce once at the root, and read back. -/
def betaReadback (fuel : Nat) (t : Term) : Option Term :=
  match createTerm t with
  | .error _ => none
  | .ok (root, s) =>
    match reduceBetaStep fuel root s with
    | none => none
    | some (r, s') => (readback fuel s' r).toOption

/-- First binding for `x` in a binder environment (surface binder name
paired with the arena index of its variable node). -/
def envLookup (env : List (Name × Nat)) (x : Name) : Option Nat :=
  match env with
  | [] => none
  | (y, v) :: rest => if y = x then some v else envLookup rest x

mutual

/-- Correspondence between a `Dup`-free surface term and its graph under
a store: each lambda node owns a variable node and its body corresponds
under the extended environment, and each variable occurrence is the
variable node of its innermost binder. -/
def rel (s : Store) (env : List (Name × Nat)) : Term → TermNode → Prop
  | .var name, .var v => envLookup env name = some v
  | .lam name body, .lam l =>
    name ≠ Name.nil ∧
      ∃ v b, lamGet s l = ⟨some v, b⟩ ∧ rel s ((name, v) :: env) body b
  | .app func argm, .app gf ga => rel s env func gf ∧ rel s env argm ga
  | .ctr name args, .ctr gname gargs => name = gname ∧ relList s env args gargs
  | .fnc name args, .fnc gname gargs => name = gname ∧ relList s env args gargs
  | .num value, .num gvalue => value = gvalue
  | .op2 oper val0 val1, .op2 gop ga0 ga1 =>
    oper = gop ∧ rel s env val0 ga0 ∧ rel s env val1 ga1
  | _, _ => False

/-- Pointwise list version of `rel`. -/
def relList (s : Store) (env : List (Name × Nat)) : List Term → List TermNode → Prop
  | [], [] => True
  | t :: ts, g :: gs => rel s env t g ∧ relList s env ts gs
  | _, _ => False

end

mutual

/-- The variable-node ids of the lambdas of a graph, in the Namer's
pre-order, read off along the corresponding surface term. -/
def lamVarsT (s : Store) : Term → TermNode → List Nat
  | .lam _ body, .lam l =>
    (match (lamGet s l).var with
      | some v => [v]
      | none => []) ++ lamVarsT s body (lamGet s l).body
  | .app func argm, .app gf ga => lamVarsT s func gf ++ lamVarsT s argm ga
  | .ctr _ args, .ctr _ gargs => lamVarsTList s args gargs
  | .fnc _ args, .fnc _ gargs => lamVarsTList s args gargs
  | .op2 _ val0 val1, .op2 _ ga0 ga1 => lamVarsT s val0 ga0 ++ lamVarsT s val1 ga1
  | _, _ => []

/-- List version of `lamVarsT`. -/
def lamVarsTList (s : Store) : List Term → List TermNode → List Nat
  | t :: ts, g :: gs => lamVarsT s t g ++ lamVarsTList s ts gs
  | _, _ => []

end

mutual

/-- The lambda-node ids of a graph, read off along the corresponding
surface term. -/
def lamIdsT (s : Store) : Term → TermNode → List Nat
  | .lam _ body, .lam l => l :: lamIdsT s body (lamGet s l).body
  | .app func argm, .app gf ga => lamIdsT s func gf ++ lamIdsT s argm ga
  | .ctr _ args, .ctr _ gargs => lamIdsTList s args gargs
  | .fnc _ args, .fnc _ gargs => lamIdsTList s args gargs
  | .op2 _ val0 val1, .op2 _ ga0 ga1 => lamIdsT s val0 ga0 ++ lamIdsT s val1 ga1
  | _, _ => []

/-- List version of `lamIdsT`. -/
def lamIdsTList (s : Store) : List Term → List TermNode → List Nat
  | t :: ts, g :: gs => lamIdsT s t g ++ lamIdsTList s ts gs
  | _, _ => []

end

/-- Store evolution during construction of a `Dup`-free term: variable
and lambda arenas only grow, previously existing lambda nodes keep their
values, and duplication nodes are untouched. -/
def storeExtend (s s' : Store) : Prop :=
  s.vars.length ≤ s'.vars.length ∧ s.lams.length ≤ s'.lams.length ∧
    s'.dups = s.dups ∧ (∀ i, i < s.lams.length → lamGet s' i = lamGet s i)

/-- The frame property readback maintains: store untouched, every
duplication-path stack restored. -/
def rbFrame (st st' : RSt) : Prop :=
  st'.store = st.store ∧ ∀ L, st'.paths.get L = st.paths.get L

/-- What a successful `build_names_go` run guarantees about its state:
the arena is read-only, the memo table only grows (old entries keeping
their ids), and no key is ever inserted twice. -/
def bnInv (st st' : BSt) : Prop :=
  st'.store = st.store ∧
    (∃ d, st'.names.entries = st.names.entries ++ d) ∧
    ((st.names.entries.map Prod.fst).Nodup → (st'.names.entries.map Prod.fst).Nodup)

/-- Relation between a construction result and a scope-check result:
success yields exactly the pending counts of the final state, failure is
`UnboundVariable` of exactly the name the scope check blames. -/
def scopeRel : Except RtErr (TermNode × CSt) → Except Name (Name → Nat) → Prop
  | .ok (_, st'), .ok c => c = countsOf st'
  | .error e, .error n => e = .unboundVar n
  | _, _ => False

/-- List version of `scopeRel`. -/
def scopeRelL : Except RtErr (List TermNode × CSt) → Except Name (Name → Nat) → Prop
  | .ok (_, st'), .ok c => c = countsOf st'
  | .error e, .error n => e = .unboundVar n
  | _, _ => False

/-- Input exhibiting the label collision: two nested duplications. -/
def c2Input : Term :=
  .dup (.user 1) (.user 2) (.num 0)
    (.dup (.user 3) (.user 4) (.num 1)
      (.ctr (.user 9) [.var (.user 1), .var (.user 2), .var (.user 3), .var (.user 4)]))

/-- A one-duplication store for the C9 witness. -/
def c9Store : Store := ⟨[], [], [⟨none, none, .num 7⟩]⟩

/-- The C9 witness's initial reader state. -/
def c9St : RSt := ⟨c9Store, ⟨[]⟩⟩

/-- The C9 witness's state after reading the owned expression. -/
def c9St1 : RSt := ⟨c9Store, DupPaths.push ⟨[]⟩ 1 false⟩

/-- Stack-table invariant relative to a binder environment: every name
bound in the environment has either an exhausted stack or exactly the
pending occurrence of its innermost binder. -/
def envOk (env : List (Name × Nat)) (st : CSt) : Prop :=
  ∀ x v, envLookup env x = some v →
    st.varsMap x = [] ∨ st.varsMap x = [TermNode.var v]

/-- Hypotheses of the construction-soundness lemma. -/
def soundHyps (t : Term) (st : CSt) (env : List (Name × Nat)) : Prop :=
  noDupC t = true ∧ nilFreeB t = true ∧ lexScoped (env.map Prod.fst) t = true ∧
    (∀ y, y ∈ lamNames t → envLookup env y = none ∧ st.varsMap y = []) ∧
    (lamNames t).Nodup ∧ envOk env st

/-- List version of `soundHyps`. -/
def soundHypsL (ts : List Term) (st : CSt) (env : List (Name × Nat)) : Prop :=
  noDupCList ts = true ∧ nilFreeBList ts = true ∧
    lexScopedList (env.map Prod.fst) ts = true ∧
    (∀ y, y ∈ lamNamesList ts → envLookup env y = none ∧ st.varsMap y = []) ∧
    (lamNamesList ts).Nodup ∧ envOk env st

/-- Conclusions of the construction-soundness lemma. -/
def soundConcl (t : Term) (st : CSt) (env : List (Name × Nat)) (g : TermNode) (st' : CSt) :
    Prop :=
  rel st'.store env t g ∧ envOk env st' ∧
    (∀ y, y ∉ lamNames t → st'.varsMap y = st.varsMap y ∨ st'.varsMap y = []) ∧
    storeExtend st.store st'.store ∧
    (∀ l, l ∈ lamIdsT st'.store t g →
      st.store.lams.length ≤ l ∧ l < st'.store.lams.length) ∧
    (lamIdsT st'.store t g).Nodup ∧
    (∀ v, v ∈ lamVarsT st'.store t g →
      st.store.vars.length ≤ v ∧ v < st'.store.vars.length) ∧
    (lamVarsT st'.store t g).Nodup

/-- List version of `soundConcl`. -/
def soundConclL (ts : List Term) (st : CSt) (env : List (Name × Nat)) (gs : List TermNode)
    (st' : CSt) : Prop :=
  relList st'.store env ts gs ∧ envOk env st' ∧
    (∀ y, y ∉ lamNamesList ts → st'.varsMap y = st.varsMap y ∨ st'.varsMap y = []) ∧
    storeExtend st.store st'.store ∧
    (∀ l, l ∈ lamIdsTList st'.store ts gs →
      st.store.lams.length ≤ l ∧ l < st'.store.lams.length) ∧
    (lamIdsTList st'.store ts gs).Nodup ∧
    (∀ v, v ∈ lamVarsTList st'.store ts gs →
      st.store.vars.length ≤ v ∧ v < st'.store.vars.length) ∧
    (lamVarsTList st'.store ts gs).Nodup

/-- The construction state in which a lambda's body is built: variable
node and lambda node allocated, lambda's `var` slot set, occurrence
pushed. -/
def lamChildState (name : Name) (st : CSt) : CSt :=
  { store :=
      { vars := st.store.vars ++ [{ lam := st.store.lams.length }],
        lams := (st.store.lams ++ [({ var := none, body := placeholder } : LamNode)]).set
          st.store.lams.length { var := some st.store.vars.length, body := placeholder },
        dups := st.store.dups },
    varsMap := fun k =>
      if k = name then TermNode.var st.store.vars.length :: st.varsMap k
      else st.varsMap k }

/-- The id entries the Namer appends for a pre-order listing of variable
nodes, starting at id `n`. -/
def enumVars (n : Nat) : List Nat → List (UId × Nat)
  | [] => []
  | v :: rest => (UId.varU v, n) :: enumVars (n + 1) rest

/-- A closed, well-scoped, `Dup`-free term with distinct non-`NONE`
binders: the identity function. -/
def c1T : Term := .lam (.user 0) (.var (.user 0))

/-- The graph root `create_term` builds for `c1T`. -/
def c1Root : TermNode := .lam 0

/-- The arena `create_term` builds for `c1T`. -/
def c1Store : Store := ⟨[⟨0⟩], [⟨some 0, .var 0⟩], []⟩

/-- A `Dup`-free, closed, lexically scoped term with an unused (`NONE`)
outer binder over two used inner binders. -/
def c1Bad : Term :=
  .lam .nil (.lam (.user 1) (.lam (.user 2) (.app (.var (.user 1)) (.var (.user 2)))))

mutual

/-- Number of free occurrences of `x` (as a `Var` leaf) in a term; used
to state the linearity premise of the Beta rule. -/
def countOcc (x : Name) : Term → Nat
  | .var name => if name = x then 1 else 0
  | .dup _ _ expr body => countOcc x expr + countOcc x body
  | .lam _ body => countOcc x body
  | .app func argm => countOcc x func + countOcc x argm
  | .ctr _ args => countOccList x args
  | .fnc _ args => countOccList x args
  | .num _ => 0
  | .op2 _ val0 val1 => countOcc x val0 + countOcc x val1

/-- List version of `countOcc`. -/
def countOccList (x : Name) : List Term → Nat
  | [] => 0
  | t :: rest => countOcc x t + countOccList x rest

end

/-- `l` when the occurrence count `c` is positive, `[]` when it is zero:
the nodes the argument graph contributes after substitution. -/
def spliceIf (c : Nat) (l : List Nat) : List Nat := if c = 0 then [] else l

/-- A closed, well-scoped linear Beta redex: `(λx0. x0) (λx1. x1)`. -/
def c6Arg : Term := .lam (.user 1) (.var (.user 1))

/-- The redex term of the C6 witness. -/
def c6T : Term := .app (.lam (.user 0) (.var (.user 0))) c6Arg

/-- The graph root `create_term` builds for `c6T`. -/
def c6Root : TermNode := .app (.lam 0) (.lam 1)

/-- The arena `create_term` builds for `c6T`. -/
def c6Store : Store := ⟨[⟨0⟩, ⟨1⟩], [⟨some 0, .var 0⟩, ⟨some 1, .var 1⟩], []⟩

theorem getD_append_lt {α : Type} (l l2 : List α) (d : α) (i : Nat) (h : i < l.length) :
    (l ++ l2).getD i d = l.getD i d := by
  induction l generalizing i with
  | nil => simp at h
  | cons a rest ih =>
    cases i with
    | zero => rfl
    | succ j => exact ih j (by simpa using h)

theorem getD_append_self {α : Type} (l : List α) (x d : α) :
    (l ++ [x]).getD l.length d = x := by
  induction l with
  | nil => rfl
  | cons a rest ih => exact ih

theorem getD_set_self {α : Type} (l : List α) (i : Nat) (x d : α) (h : i < l.length) :
    (l.set i x).getD i d = x := by
  induction l generalizing i with
  | nil => simp at h
  | cons a rest ih =>
    cases i with
    | zero => rfl
    | succ j => simpa using ih j (by simpa using h)

theorem getD_set_ne {α : Type} (l : List α) (i j : Nat) (x d : α) (h : j ≠ i) :
    (l.set i x).getD j d = l.getD j d := by
  induction l generalizing i j with
  | nil => rfl
  | cons a rest ih =>
    cases i with
    | zero => cases j with
      | zero => exact absurd rfl h
      | succ k => rfl
    | succ i' => cases j with
      | zero => rfl
      | succ k => simpa using ih i' k (by omega)

theorem length_set {α : Type} (l : List α) (i : Nat) (x : α) :
    (l.set i x).length = l.length := by
  simp

theorem lookupStack_setStack_self (tb : List (Label × List Bool)) (L : Label) (s : List Bool) :
    lookupStack (setStack tb L s) L = some s := by
  induction tb with
  | nil => simp [setStack, lookupStack]
  | cons p rest ih =>
    by_cases h : p.1 = L
    · simp [setStack, lookupStack, h]
    · simp [setStack, lookupStack, h, ih]

theorem lookupStack_setStack_ne (tb : List (Label × List Bool)) (L L' : Label) (s : List Bool)
    (h : L' ≠ L) : lookupStack (setStack tb L s) L' = lookupStack tb L' := by
  induction tb with
  | nil =>
    simp only [setStack, lookupStack]
    rw [if_neg (fun hh : L = L' => h hh.symm)]
  | cons p rest ih =>
    obtain ⟨k, v⟩ := p
    by_cases hp : k = L
    · subst hp
      simp only [setStack, if_pos rfl, lookupStack]
      rw [if_neg (fun hh : k = L' => h (hh ▸ rfl)), if_neg (fun hh : k = L' => h (hh ▸ rfl))]
    · simp only [setStack, if_neg hp, lookupStack]
      by_cases hp' : k = L'
      · rw [if_pos hp', if_pos hp']
      · rw [if_neg hp', if_neg hp', ih]

theorem dupPaths_get_push_self (p : DupPaths) (L : Label) (b : Bool) :
    (p.push L b).get L = b :: p.get L := by
  simp [DupPaths.push, DupPaths.get, lookupStack_setStack_self]

theorem dupPaths_get_push_ne (p : DupPaths) (L L' : Label) (b : Bool) (h : L' ≠ L) :
    (p.push L b).get L' = p.get L' := by
  simp [DupPaths.push, DupPaths.get, lookupStack_setStack_ne _ _ _ _ h]

theorem dupPaths_get_pop_self (p : DupPaths) (L : Label) :
    (p.pop L).get L = (p.get L).tail := by
  simp [DupPaths.pop, DupPaths.get, lookupStack_setStack_self]

theorem dupPaths_get_pop_ne (p : DupPaths) (L L' : Label) (h : L' ≠ L) :
    (p.pop L).get L' = p.get L' := by
  simp [DupPaths.pop, DupPaths.get, lookupStack_setStack_ne _ _ _ _ h]

theorem rbFrame_refl (st : RSt) : rbFrame st st := ⟨rfl, fun _ => rfl⟩

theorem rbFrame_trans {a b c : RSt} (h1 : rbFrame a b) (h2 : rbFrame b c) : rbFrame a c :=
  ⟨h2.1.trans h1.1, fun L => (h2.2 L).trans (h1.2 L)⟩

theorem readFold_frame (f : TermNode → RSt → Except RtErr (Term × RSt))
    (hf : ∀ n st r st', f n st = .ok (r, st') → rbFrame st st') :
    ∀ ns st rs st', readFold f ns st = .ok (rs, st') → rbFrame st st' := by
  intro ns
  induction ns with
  | nil =>
    intro st rs st' h
    simp [readFold] at h
    exact h.2 ▸ rbFrame_refl st
  | cons n rest ih =>
    intro st rs st' h
    cases hf1 : f n st with
    | error e => simp [readFold, hf1] at h
    | ok p =>
      obtain ⟨t1, st1⟩ := p
      cases hf2 : readFold f rest st1 with
      | error e => simp [readFold, hf1, hf2] at h
      | ok q =>
        obtain ⟨ts, st2⟩ := q
        simp [readFold, hf1, hf2] at h
        obtain ⟨-, h2⟩ := h
        subst h2
        exact rbFrame_trans (hf n st t1 st1 hf1) (ih st1 ts st2 hf2)

/-- Shared frame lemma for `readback_go`: on success the store is
untouched and every duplication-path stack is restored. -/
theorem readbackGo_frame :
    ∀ fuel names node st r st', readbackGo fuel names node st = .ok (r, st') →
      rbFrame st st' := by
  intro fuel
  induction fuel with
  | zero => intro names node st r st' h; simp [readbackGo] at h
  | succ fuel ih =>
    intro names node st r st' h
    cases node with
    | var v =>
      simp [readbackGo] at h
      obtain ⟨-, h2⟩ := h
      subst h2
      exact rbFrame_refl st
    | dpx dpx =>
      cases hr : readbackGo fuel names (dupGet st.store dpx.dup).expr
          { st with paths := st.paths.push dpx.label dpx.side } with
      | error e => simp [readbackGo, hr] at h
      | ok p =>
        obtain ⟨e1, st2⟩ := p
        simp [readbackGo, hr] at h
        obtain ⟨-, h2⟩ := h
        subst h2
        obtain ⟨ha, hb⟩ := ih names _ _ _ _ hr
        refine ⟨ha, fun L => ?_⟩
        by_cases hL : L = dpx.label
        · subst hL
          rw [dupPaths_get_pop_self, hb dpx.label]
          simp [dupPaths_get_push_self]
        · rw [dupPaths_get_pop_ne _ _ _ hL, hb L]
          simp [dupPaths_get_push_ne _ _ _ _ hL]
    | sup label left right =>
      cases hh : (st.paths.get label).head? with
      | none => simp [readbackGo, hh] at h
      | some side =>
        cases halt : (if side then right else left) with
        | none => simp [readbackGo, hh, halt] at h
        | some alt =>
          simp only [readbackGo, hh, halt] at h
          exact ih names alt st r st' h
    | lam l =>
      cases hr : readbackGo fuel names (lamGet st.store l).body st with
      | error e => simp [readbackGo, hr] at h
      | ok p =>
        obtain ⟨b, st1⟩ := p
        simp [readbackGo, hr] at h
        obtain ⟨-, h2⟩ := h
        subst h2
        exact ih names _ _ _ _ hr
    | app f arg =>
      cases hr : readbackGo fuel names f st with
      | error e => simp [readbackGo, hr] at h
      | ok p =>
        obtain ⟨t1, st1⟩ := p
        cases hr2 : readbackGo fuel names arg st1 with
        | error e => simp [readbackGo, hr, hr2] at h
        | ok q =>
          obtain ⟨t2, st2⟩ := q
          simp [readbackGo, hr, hr2] at h
          obtain ⟨-, h2⟩ := h
          subst h2
          exact rbFrame_trans (ih names f st t1 st1 hr) (ih names arg st1 t2 st2 hr2)
    | ctr name args =>
      cases hr : readFold (readbackGo fuel names) args st with
      | error e => simp [readbackGo, hr] at h
      | ok p =>
        obtain ⟨ts, st1⟩ := p
        simp [readbackGo, hr] at h
        obtain ⟨-, h2⟩ := h
        subst h2
        exact readFold_frame _ (fun n st r st' hx => ih names n st r st' hx)
          args st ts st1 hr
    | fnc name args =>
      cases hr : readFold (readbackGo fuel names) args st with
      | error e => simp [readbackGo, hr] at h
      | ok p =>
        obtain ⟨ts, st1⟩ := p
        simp [readbackGo, hr] at h
        obtain ⟨-, h2⟩ := h
        subst h2
        exact readFold_frame _ (fun n st r st' hx => ih names n st r st' hx)
          args st ts st1 hr
    | num value =>
      simp [readbackGo] at h
      obtain ⟨-, h2⟩ := h
      subst h2
      exact rbFrame_refl st
    | op2 op arg0 arg1 =>
      cases hr : readbackGo fuel names arg0 st with
      | error e => simp [readbackGo, hr] at h
      | ok p =>
        obtain ⟨t1, st1⟩ := p
        cases hr2 : readbackGo fuel names arg1 st1 with
        | error e => simp [readbackGo, hr, hr2] at h
        | ok q =>
          obtain ⟨t2, st2⟩ := q
          simp [readbackGo, hr, hr2] at h
          exact h.2 ▸ rbFrame_trans (ih names arg0 st t1 st1 hr) (ih names arg1 st1 t2 st2 hr2)

theorem lookupUId_eq_none_iff (es : List (UId × Nat)) (u : UId) :
    lookupUId es u = none ↔ u ∉ es.map Prod.fst := by
  induction es with
  | nil => simp [lookupUId]
  | cons p rest ih =>
    obtain ⟨k, v⟩ := p
    by_cases h : k = u
    · subst h
      simp [lookupUId]
    · simp only [lookupUId, if_neg h, List.map_cons, List.mem_cons]
      rw [ih]
      constructor
      · intro ha hb
        cases hb with
        | inl hh => exact h hh.symm
        | inr hh => exact ha hh
      · intro ha hb
        exact ha (Or.inr hb)

theorem lookupUId_append_left (es ds : List (UId × Nat)) (u : UId) (n : Nat)
    (h : lookupUId es u = some n) : lookupUId (es ++ ds) u = some n := by
  induction es with
  | nil => simp [lookupUId] at h
  | cons p rest ih =>
    obtain ⟨k, v⟩ := p
    by_cases hk : k = u
    · subst hk
      simp [lookupUId] at h ⊢
      exact h
    · simp [lookupUId, hk] at h ⊢
      exact ih h

theorem lookupUId_append_right (es ds : List (UId × Nat)) (u : UId)
    (h : lookupUId es u = none) : lookupUId (es ++ ds) u = lookupUId ds u := by
  induction es with
  | nil => simp
  | cons p rest ih =>
    obtain ⟨k, v⟩ := p
    by_cases hk : k = u
    · subst hk
      simp [lookupUId] at h
    · simp [lookupUId, hk] at h ⊢
      exact ih h

theorem lookupUId_insertFresh_self (m : NamesMap) (u : UId)
    (h : lookupUId m.entries u = none) :
    lookupUId (m.insertFresh u).entries u = some m.entries.length := by
  simp only [NamesMap.insertFresh]
  rw [lookupUId_append_right _ _ _ h]
  simp [lookupUId]

theorem namesExt_nodup (es : List (UId × Nat)) (u : UId)
    (hn : (es.map Prod.fst).Nodup) (h : lookupUId es u = none) (n : Nat) :
    (((es ++ [(u, n)]).map Prod.fst)).Nodup := by
  rw [List.map_append]
  simp only [List.map_cons, List.map_nil]
  rw [List.nodup_append]
  refine ⟨hn, List.nodup_singleton u, ?_⟩
  intro a ha hb
  simp at hb
  subst hb
  exact (lookupUId_eq_none_iff es a).mp h ha

theorem bnInv_refl (st : BSt) : bnInv st st := ⟨rfl, ⟨[], by simp⟩, id⟩

theorem bnInv_trans {a b c : BSt} (h1 : bnInv a b) (h2 : bnInv b c) : bnInv a c := by
  obtain ⟨s1, ⟨d1, e1⟩, n1⟩ := h1
  obtain ⟨s2, ⟨d2, e2⟩, n2⟩ := h2
  exact ⟨s2.trans s1, ⟨d1 ++ d2, by rw [e2, e1, List.append_assoc]⟩, fun h => n2 (n1 h)⟩

theorem namesFold_pres (f : TermNode → BSt → Option BSt)
    (hf : ∀ n st st', f n st = some st' → bnInv st st') :
    ∀ ns st st', namesFold f ns st = some st' → bnInv st st' := by
  intro ns
  induction ns with
  | nil =>
    intro st st' h
    simp [namesFold] at h
    subst h
    exact bnInv_refl st
  | cons n rest ih =>
    intro st st' h
    cases hf1 : f n st with
    | none => simp [namesFold, hf1] at h
    | some st1 =>
      simp [namesFold, hf1] at h
      exact bnInv_trans (hf n st st1 hf1) (ih st1 st' h)

/-- Shared preservation lemma for `build_names_go`. -/
theorem buildNamesGo_pres :
    ∀ fuel node st st', buildNamesGo fuel node st = some st' → bnInv st st' := by
  intro fuel
  induction fuel with
  | zero => intro node st st' h; simp [buildNamesGo] at h
  | succ fuel ih =>
    intro node st st' h
    cases node with
    | var v =>
      simp [buildNamesGo] at h
      subst h
      exact bnInv_refl st
    | dpx dpx =>
      cases hl : lookupUId st.names.entries (UId.dupU dpx.dup) with
      | some n =>
        simp [buildNamesGo, hl] at h
        subst h
        exact bnInv_refl st
      | none =>
        simp only [buildNamesGo, hl] at h
        refine bnInv_trans (b := { st with names := st.names.insertFresh (UId.dupU dpx.dup) })
          ?_ (ih _ _ _ h)
        refine ⟨rfl, ⟨[(UId.dupU dpx.dup, st.names.entries.length)], rfl⟩, fun hn => ?_⟩
        exact namesExt_nodup _ _ hn hl _
    | sup label left right =>
      cases left with
      | none =>
        cases right with
        | none =>
          simp [buildNamesGo] at h
          subst h
          exact bnInv_refl st
        | some r =>
          simp only [buildNamesGo] at h
          exact ih _ _ _ h
      | some l =>
        cases hr : buildNamesGo fuel l st with
        | none => simp [buildNamesGo, hr] at h
        | some st1 =>
          simp only [buildNamesGo, hr] at h
          cases right with
          | none =>
            simp at h
            subst h
            exact ih _ _ _ hr
          | some r =>
            exact bnInv_trans (ih _ _ _ hr) (ih _ _ _ h)
    | lam l =>
      cases hv : (lamGet st.store l).var with
      | some v =>
        simp only [buildNamesGo, hv] at h
        refine bnInv_trans (b := { st with names := st.names.orInsert (UId.varU v) })
          ?_ (ih _ _ _ h)
        unfold NamesMap.orInsert
        cases hl : lookupUId st.names.entries (UId.varU v) with
        | some n => exact bnInv_refl st
        | none =>
          refine ⟨rfl, ⟨[(UId.varU v, st.names.entries.length)], rfl⟩, fun hn => ?_⟩
          exact namesExt_nodup _ _ hn hl _
      | none =>
        simp [buildNamesGo, hv] at h
        subst h
        exact bnInv_refl st
    | app f arg =>
      cases hr : buildNamesGo fuel f st with
      | none => simp [buildNamesGo, hr] at h
      | some st1 =>
        simp only [buildNamesGo, hr] at h
        exact bnInv_trans (ih _ _ _ hr) (ih _ _ _ h)
    | ctr name args =>
      simp only [buildNamesGo] at h
      exact namesFold_pres _ (fun n st st' hx => ih n st st' hx) args st st' h
    | fnc name args =>
      simp only [buildNamesGo] at h
      exact namesFold_pres _ (fun n st st' hx => ih n st st' hx) args st st' h
    | num value =>
      simp [buildNamesGo] at h
      subst h
      exact bnInv_refl st
    | op2 op arg0 arg1 =>
      cases hr : buildNamesGo fuel arg0 st with
      | none => simp [buildNamesGo, hr] at h
      | some st1 =>
        simp only [buildNamesGo, hr] at h
        exact bnInv_trans (ih _ _ _ hr) (ih _ _ _ h)

theorem countsOf_bindVar (name : Name) (l : Nat) (st : CSt) :
    countsOf (bindVar name l st) = scopePush name (countsOf st) := by
  funext n
  unfold bindVar scopePush
  by_cases h : name = Name.nil
  · simp [h]
  · simp only [if_neg h]
    unfold countsOf stackPush allocVar setLam
    by_cases hn : n = name
    · subst hn
      simp
    · simp [hn]

theorem countsOf_bindDp (name : Name) (label : Label) (side : Bool) (d : Nat) (st : CSt) :
    countsOf (bindDp name label side d st) = scopePush name (countsOf st) := by
  funext n
  unfold bindDp scopePush
  by_cases h : name = Name.nil
  · simp [h]
  · simp only [if_neg h]
    unfold countsOf stackPush setDup
    by_cases hn : n = name
    · subst hn
      simp
    · simp [hn]

theorem countsOf_consume (name : Name) (st : CSt) (t : TermNode) (st' : CSt)
    (h : consume name st = some (t, st')) :
    countsOf st' = scopeConsume name (countsOf st) := by
  funext n
  unfold consume at h
  cases hv : st.varsMap name with
  | nil => rw [hv] at h; exact absurd h (by simp)
  | cons hd rest =>
    rw [hv] at h
    simp at h
    obtain ⟨-, h2⟩ := h
    subst h2
    unfold countsOf scopeConsume
    by_cases hn : n = name
    · subst hn
      simp [hv]
    · simp [hn]

theorem sizeT_pos : ∀ t : Term, 1 ≤ sizeT t := by
  intro t
  cases t <;> simp [sizeT] <;> omega

theorem createTermGo_scope_main : ∀ bud : Nat,
    (∀ t st, 2 * sizeT t ≤ bud → scopeRel (createTermGo t st) (scopeCheck (countsOf st) t)) ∧
    (∀ ts st, 2 * sizeTList ts + 1 ≤ bud →
      scopeRelL (createTermGoList ts st) (scopeCheckList (countsOf st) ts)) := by
  intro bud
  induction bud with
  | zero =>
    constructor
    · intro t st hs
      have := sizeT_pos t
      omega
    · intro ts st hs
      omega
  | succ bud ih =>
    constructor
    · intro t st hs
      cases t with
      | var name =>
        cases hv : st.varsMap name with
        | nil =>
          have hc : countsOf st name = 0 := by simp [countsOf, hv]
          simp [createTermGo, consume, hv, scopeCheck, hc, scopeRel]
        | cons hd rest =>
          have hc : ¬(countsOf st name = 0) := by simp [countsOf, hv]
          have hcons : consume name st =
              some (hd, { st with varsMap := fun k => if k = name then rest else st.varsMap k }) := by
            simp [consume, hv]
          simp only [createTermGo, hcons, scopeCheck, if_neg hc, scopeRel]
          exact (countsOf_consume name st hd _ hcons).symm
      | dup nam0 nam1 expr body =>
        have hse : 2 * sizeT expr ≤ bud := by simp [sizeT] at hs; omega
        have hsb : 2 * sizeT body ≤ bud := by simp [sizeT] at hs; omega
        have he := (ih.1) expr st hse
        cases hce : createTermGo expr st with
        | error e =>
          rw [hce] at he
          cases hsc : scopeCheck (countsOf st) expr with
          | ok c => rw [hsc] at he; simp [scopeRel] at he
          | error nm =>
            rw [hsc] at he
            simp [scopeRel] at he
            simp [createTermGo, hce, scopeCheck, hsc, scopeRel, he]
        | ok p =>
          obtain ⟨e1, st1⟩ := p
          rw [hce] at he
          cases hsc : scopeCheck (countsOf st) expr with
          | error nm => rw [hsc] at he; simp [scopeRel] at he
          | ok c1 =>
            rw [hsc] at he
            simp [scopeRel] at he
            subst he
            have hstep : createTermGo (.dup nam0 nam1 expr body) st =
                createTermGo body (bindDp nam1 1 true st1.store.dups.length
                  (bindDp nam0 1 false st1.store.dups.length
                    (allocDup ⟨none, none, e1⟩ st1).2)) := by
              simp [createTermGo, hce, allocDup]
            have hcounts : countsOf (bindDp nam1 1 true st1.store.dups.length
                (bindDp nam0 1 false st1.store.dups.length
                  (allocDup ⟨none, none, e1⟩ st1).2)) =
                scopePush nam1 (scopePush nam0 (countsOf st1)) := by
              rw [countsOf_bindDp, countsOf_bindDp]
              rfl
            have hscstep : scopeCheck (countsOf st) (.dup nam0 nam1 expr body) =
                scopeCheck (countsOf (bindDp nam1 1 true st1.store.dups.length
                  (bindDp nam0 1 false st1.store.dups.length
                    (allocDup ⟨none, none, e1⟩ st1).2))) body := by
              rw [hcounts]
              simp [scopeCheck, hsc]
            rw [hstep, hscstep]
            exact ih.1 body _ hsb
      | lam name body =>
        have hsb : 2 * sizeT body ≤ bud := by simp [sizeT] at hs; omega
        have hstep : ∀ r, createTermGo (.lam name body) st = r ↔
            (match createTermGo body (bindVar name st.store.lams.length
              (allocLam ⟨none, placeholder⟩ st).2) with
            | .error e => Except.error e
            | .ok (b, st3) =>
              Except.ok (TermNode.lam st.store.lams.length,
                setLam st.store.lams.length
                  { lamGet st3.store st.store.lams.length with body := b } st3)) = r := by
          intro r
          constructor
          · intro h
            rw [← h]
            simp [createTermGo, allocLam]
          · intro h
            rw [← h]
            simp [createTermGo, allocLam]
        have hcounts : countsOf (bindVar name st.store.lams.length
            (allocLam ⟨none, placeholder⟩ st).2) = scopePush name (countsOf st) := by
          rw [countsOf_bindVar]
          rfl
        have hb := (ih.1) body (bindVar name st.store.lams.length
            (allocLam ⟨none, placeholder⟩ st).2) hsb
        rw [hcounts] at hb
        cases hcb : createTermGo body (bindVar name st.store.lams.length
            (allocLam ⟨none, placeholder⟩ st).2) with
        | error e =>
          rw [hcb] at hb
          cases hsc : scopeCheck (scopePush name (countsOf st)) body with
          | ok c => rw [hsc] at hb; simp [scopeRel] at hb
          | error nm =>
            rw [hsc] at hb
            simp [scopeRel] at hb
            rw [(hstep _).mpr (by rw [hcb])]
            simp [scopeCheck, hsc, scopeRel, hb]
        | ok p =>
          obtain ⟨b, st3⟩ := p
          rw [hcb] at hb
          cases hsc : scopeCheck (scopePush name (countsOf st)) body with
          | error nm => rw [hsc] at hb; simp [scopeRel] at hb
          | ok c =>
            rw [hsc] at hb
            simp [scopeRel] at hb
            rw [(hstep _).mpr (by rw [hcb])]
            simp [scopeCheck, hsc, scopeRel, hb]
            rfl
      | app func argm =>
        have hsf : 2 * sizeT func ≤ bud := by simp [sizeT] at hs; omega
        have hsa : 2 * sizeT argm ≤ bud := by simp [sizeT] at hs; omega
        have hf := (ih.1) func st hsf
        cases hcf : createTermGo func st with
        | error e =>
          rw [hcf] at hf
          cases hsc : scopeCheck (countsOf st) func with
          | ok c => rw [hsc] at hf; simp [scopeRel] at hf
          | error nm =>
            rw [hsc] at hf
            simp [scopeRel] at hf
            simp [createTermGo, hcf, scopeCheck, hsc, scopeRel, hf]
        | ok p =>
          obtain ⟨gf, st1⟩ := p
          rw [hcf] at hf
          cases hsc : scopeCheck (countsOf st) func with
          | error nm => rw [hsc] at hf; simp [scopeRel] at hf
          | ok c1 =>
            rw [hsc] at hf
            simp [scopeRel] at hf
            subst hf
            have ha := (ih.1) argm st1 hsa
            cases hca : createTermGo argm st1 with
            | error e =>
              rw [hca] at ha
              cases hsc2 : scopeCheck (countsOf st1) argm with
              | ok c => rw [hsc2] at ha; simp [scopeRel] at ha
              | error nm =>
                rw [hsc2] at ha
                simp [scopeRel] at ha
                simp [createTermGo, hcf, hca, scopeCheck, hsc, hsc2, scopeRel, ha]
            | ok q =>
              obtain ⟨ga, st2⟩ := q
              rw [hca] at ha
              cases hsc2 : scopeCheck (countsOf st1) argm with
              | error nm => rw [hsc2] at ha; simp [scopeRel] at ha
              | ok c2 =>
                rw [hsc2] at ha
                simp [scopeRel] at ha
                simp [createTermGo, hcf, hca, scopeCheck, hsc, hsc2, scopeRel, ha]
      | ctr name args =>
        have hsl : 2 * sizeTList args + 1 ≤ bud := by simp [sizeT] at hs; omega
        have hl := (ih.2) args st hsl
        cases hcl : createTermGoList args st with
        | error e =>
          rw [hcl] at hl
          cases hsc : scopeCheckList (countsOf st) args with
          | ok c => rw [hsc] at hl; simp [scopeRelL] at hl
          | error nm =>
            rw [hsc] at hl
            simp [scopeRelL] at hl
            simp [createTermGo, hcl, scopeCheck, hsc, scopeRel, hl]
        | ok p =>
          obtain ⟨gs, st1⟩ := p
          rw [hcl] at hl
          cases hsc : scopeCheckList (countsOf st) args with
          | error nm => rw [hsc] at hl; simp [scopeRelL] at hl
          | ok c =>
            rw [hsc] at hl
            simp [scopeRelL] at hl
            simp [createTermGo, hcl, scopeCheck, hsc, scopeRel, hl]
      | fnc name args =>
        have hsl : 2 * sizeTList args + 1 ≤ bud := by simp [sizeT] at hs; omega
        have hl := (ih.2) args st hsl
        cases hcl : createTermGoList args st with
        | error e =>
          rw [hcl] at hl
          cases hsc : scopeCheckList (countsOf st) args with
          | ok c => rw [hsc] at hl; simp [scopeRelL] at hl
          | error nm =>
            rw [hsc] at hl
            simp [scopeRelL] at hl
            simp [createTermGo, hcl, scopeCheck, hsc, scopeRel, hl]
        | ok p =>
          obtain ⟨gs, st1⟩ := p
          rw [hcl] at hl
          cases hsc : scopeCheckList (countsOf st) args with
          | error nm => rw [hsc] at hl; simp [scopeRelL] at hl
          | ok c =>
            rw [hsc] at hl
            simp [scopeRelL] at hl
            simp [createTermGo, hcl, scopeCheck, hsc, scopeRel, hl]
      | num value => simp [createTermGo, scopeCheck, scopeRel]
      | op2 oper val0 val1 =>
        have hs0 : 2 * sizeT val0 ≤ bud := by simp [sizeT] at hs; omega
        have hs1 : 2 * sizeT val1 ≤ bud := by simp [sizeT] at hs; omega
        have hf := (ih.1) val0 st hs0
        cases hcf : createTermGo val0 st with
        | error e =>
          rw [hcf] at hf
          cases hsc : scopeCheck (countsOf st) val0 with
          | ok c => rw [hsc] at hf; simp [scopeRel] at hf
          | error nm =>
            rw [hsc] at hf
            simp [scopeRel] at hf
            simp [createTermGo, hcf, scopeCheck, hsc, scopeRel, hf]
        | ok p =>
          obtain ⟨g0, st1⟩ := p
          rw [hcf] at hf
          cases hsc : scopeCheck (countsOf st) val0 with
          | error nm => rw [hsc] at hf; simp [scopeRel] at hf
          | ok c1 =>
            rw [hsc] at hf
            simp [scopeRel] at hf
            subst hf
            have ha := (ih.1) val1 st1 hs1
            cases hca : createTermGo val1 st1 with
            | error e =>
              rw [hca] at ha
              cases hsc2 : scopeCheck (countsOf st1) val1 with
              | ok c => rw [hsc2] at ha; simp [scopeRel] at ha
              | error nm =>
                rw [hsc2] at ha
                simp [scopeRel] at ha
                simp [createTermGo, hcf, hca, scopeCheck, hsc, hsc2, scopeRel, ha]
            | ok q =>
              obtain ⟨g1, st2⟩ := q
              rw [hca] at ha
              cases hsc2 : scopeCheck (countsOf st1) val1 with
              | error nm => rw [hsc2] at ha; simp [scopeRel] at ha
              | ok c2 =>
                rw [hsc2] at ha
                simp [scopeRel] at ha
                simp [createTermGo, hcf, hca, scopeCheck, hsc, hsc2, scopeRel, ha]
    · intro ts st hs
      cases ts with
      | nil => simp [createTermGoList, scopeCheckList, scopeRelL]
      | cons t rest =>
        have hpos := sizeT_pos t
        have hst : 2 * sizeT t ≤ bud := by simp [sizeTList] at hs; omega
        have hsr : 2 * sizeTList rest + 1 ≤ bud := by simp [sizeTList] at hs; omega
        have hf := (ih.1) t st hst
        cases hcf : createTermGo t st with
        | error e =>
          rw [hcf] at hf
          cases hsc : scopeCheck (countsOf st) t with
          | ok c => rw [hsc] at hf; simp [scopeRel] at hf
          | error nm =>
            rw [hsc] at hf
            simp [scopeRel] at hf
            simp [createTermGoList, hcf, scopeCheckList, hsc, scopeRelL, hf]
        | ok p =>
          obtain ⟨g, st1⟩ := p
          rw [hcf] at hf
          cases hsc : scopeCheck (countsOf st) t with
          | error nm => rw [hsc] at hf; simp [scopeRel] at hf
          | ok c1 =>
            rw [hsc] at hf
            simp [scopeRel] at hf
            subst hf
            have hr := (ih.2) rest st1 hsr
            cases hcr : createTermGoList rest st1 with
            | error e =>
              rw [hcr] at hr
              cases hsc2 : scopeCheckList (countsOf st1) rest with
              | ok c => rw [hsc2] at hr; simp [scopeRelL] at hr
              | error nm =>
                rw [hsc2] at hr
                simp [scopeRelL] at hr
                simp [createTermGoList, hcf, hcr, scopeCheckList, hsc, hsc2, scopeRelL, hr]
            | ok q =>
              obtain ⟨gs, st2⟩ := q
              rw [hcr] at hr
              cases hsc2 : scopeCheckList (countsOf st1) rest with
              | error nm => rw [hsc2] at hr; simp [scopeRelL] at hr
              | ok c2 =>
                rw [hsc2] at hr
                simp [scopeRelL] at hr
                simp [createTermGoList, hcf, hcr, scopeCheckList, hsc, hsc2, scopeRelL, hr]

/-- The scope-check simulation at the top level (empty initial table). -/
theorem createTerm_scope (t : Term) :
    scopeRel (createTermGo t initCSt) (scopeCheck (fun _ => 0) t) := by
  have h := (createTermGo_scope_main (2 * sizeT t)).1 t initCSt (Nat.le_refl _)
  have hc : countsOf initCSt = (fun _ => 0) := by
    funext n
    rfl
  rwa [hc] at h

theorem createTerm_error_iff (t : Term) (n : Name) :
    createTerm t = .error (.unboundVar n) ↔ scopeCheck (fun _ => 0) t = .error n := by
  have h := createTerm_scope t
  cases hc : createTermGo t initCSt with
  | ok p =>
    rw [hc] at h
    cases hs : scopeCheck (fun _ => 0) t with
    | ok c =>
      simp [createTerm, hc, hs]
    | error m =>
      rw [hs] at h
      simp [scopeRel] at h
  | error e =>
    rw [hc] at h
    cases hs : scopeCheck (fun _ => 0) t with
    | ok c => rw [hs] at h; simp [scopeRel] at h
    | error m =>
      rw [hs] at h
      simp [scopeRel] at h
      subst h
      simp [createTerm, hc]

theorem createTerm_isOk_iff (t : Term) :
    (createTerm t).isOk = (scopeCheck (fun _ => 0) t).isOk := by
  have h := createTerm_scope t
  cases hc : createTermGo t initCSt with
  | ok p =>
    obtain ⟨r, stf⟩ := p
    rw [hc] at h
    cases hs : scopeCheck (fun _ => 0) t with
    | ok c => simp [createTerm, hc, hs, Except.isOk, Except.toBool]
    | error m => rw [hs] at h; simp [scopeRel] at h
  | error e =>
    rw [hc] at h
    cases hs : scopeCheck (fun _ => 0) t with
    | ok c => rw [hs] at h; simp [scopeRel] at h
    | error m => simp [createTerm, hc, hs, Except.isOk, Except.toBool]

theorem createTerm_errors_unbound (t : Term) (e : RtErr) (h : createTerm t = .error e) :
    ∃ n, e = .unboundVar n := by
  have hr := createTerm_scope t
  cases hc : createTermGo t initCSt with
  | ok p =>
    simp [createTerm, hc] at h
  | error e' =>
    rw [hc] at hr
    cases hs : scopeCheck (fun _ => 0) t with
    | ok c => rw [hs] at hr; simp [scopeRel] at hr
    | error m =>
      rw [hs] at hr
      simp [scopeRel] at hr
      simp [createTerm, hc] at h
      subst h
      exact ⟨m, hr⟩

/-- C2: the claim says any two distinct `Dup` binders receive distinct
labels.  The code violates this: `create_term_go` re-creates its
`labels` counter (`let mut labels = 1`) on every recursive call, so
`fresh_label` hands the label `1` to *every* duplication.  Building two
nested duplications yields two distinct `DupNode`s (indices 0 and 1)
whose four projection nodes all carry label `1`. -/
theorem c2_label_collision :
    (match createTerm c2Input with
      | .ok (_, s) => s.dups.map (fun d => (d.left, d.right))
      | .error _ => []) =
    [(some ⟨1, false, 0⟩, some ⟨1, true, 0⟩), (some ⟨1, false, 1⟩, some ⟨1, true, 1⟩)] := rfl

/-- C3 (amended): with no other pending binding for the name, a second
`Var` occurrence of a once-bound name fails with `UnboundVariable` at
that second occurrence — both for a lambda binder and for a duplication
binder — while a single occurrence succeeds.  (The claim's "regardless
of whether an enclosing binder happens to bind the same symbolic name"
is refuted by `c3_shadowed_double_use`: an enclosing binding of the same
name is consumed by the second occurrence.) -/
theorem c3_second_occurrence_unbound (x : Name) (h : x ≠ Name.nil) :
    createTerm (.lam x (.app (.var x) (.var x))) = .error (.unboundVar x) ∧
    createTerm (.dup x Name.nil (.num 0) (.app (.var x) (.var x))) = .error (.unboundVar x) ∧
    (createTerm (.lam x (.app (.var x) (.num 0)))).isOk = true := by
  refine ⟨?_, ?_, ?_⟩
  · rw [createTerm_error_iff]
    simp [scopeCheck, scopePush, scopeConsume, h]
  · rw [createTerm_error_iff]
    simp [scopeCheck, scopePush, scopeConsume, h]
  · rw [createTerm_isOk_iff]
    simp [scopeCheck, scopePush, scopeConsume, h, Except.isOk, Except.toBool]

/-- C3 witness at the concrete name `x`. -/
theorem c3_witness :
    createTerm (.lam (.user 0) (.app (.var (.user 0)) (.var (.user 0)))) =
      .error (.unboundVar (.user 0)) :=
  (c3_second_occurrence_unbound (.user 0) (by decide)).1

/-- C3 counterexample to the claim as stated: when an enclosing binder
binds the same symbolic name, the second occurrence consumes the
enclosing pending binding and construction *succeeds* instead of failing
with `UnboundVariable`. -/
theorem c3_shadowed_double_use :
    (createTerm (.lam (.user 0)
      (.lam (.user 0) (.app (.var (.user 0)) (.var (.user 0)))))).isOk = true := rfl

/-- C4 (amended): from the empty table, `create_term` returns a root
exactly when every `Var`, in construction order, finds a pending binding
for its name under the push/consume stack discipline (bindings are never
popped at scope exit), and otherwise fails with `UnboundVariable`
carrying exactly the offending name; the scope discipline is the
specification-side `scopeCheck`.  The claim's "in particular" example
`App(Lam(x, Num(0)), Var(x))` does *not* fail: the argument consumes the
binding left pending by the lambda (see `c4_escaped_binding_succeeds`). -/
theorem c4_create_term_contract (t : Term) :
    ((createTerm t).isOk = (scopeCheck (fun _ => 0) t).isOk) ∧
    (∀ e, createTerm t = .error e →
      ∃ n, e = .unboundVar n ∧ scopeCheck (fun _ => 0) t = .error n) := by
  refine ⟨createTerm_isOk_iff t, fun e he => ?_⟩
  obtain ⟨n, hn⟩ := createTerm_errors_unbound t e he
  subst hn
  exact ⟨n, rfl, (createTerm_error_iff t n).mp he⟩

/-- C4 witness: the contract applied to the unbound term `Var(x9)`. -/
theorem c4_witness :
    ∃ n, RtErr.unboundVar (.user 9) = .unboundVar n ∧
      scopeCheck (fun _ => 0) (.var (.user 9)) = .error n :=
  (c4_create_term_contract (.var (.user 9))).2 (.unboundVar (.user 9)) rfl

/-- C4 counterexample to the claim as stated: the claim requires
`App(Lam(x, Num(0)), Var(x))` to fail (the `Var` is lexically outside
the lambda's body), but construction succeeds — the pushed binding is
never popped when the lambda's body ends. -/
theorem c4_escaped_binding_succeeds :
    (createTerm (.app (.lam (.user 0) (.num 0)) (.var (.user 0)))).isOk = true := rfl

/-- C7: reading back a Superposition with label `L` reports
`MalformedGraph` when `L`'s duplication-path stack is empty (a tagged
result, not a crash or a guessed side); with a non-empty stack it
recurses into the left alternative when the top side is `false` and the
right when it is `true`.  The `Sup` arm is `todo!()` in the source and
modelled from the spec (§4.4). -/
theorem c7_sup_readback (fuel : Nat) (names : NamesMap) (label : Label)
    (left right : Option TermNode) (st : RSt) :
    (st.paths.get label = [] →
      readbackGo (fuel + 1) names (.sup label left right) st = .error .malformedGraph) ∧
    (∀ side rest, st.paths.get label = side :: rest →
      readbackGo (fuel + 1) names (.sup label left right) st =
        (match (if side then right else left) with
          | none => .error .malformedGraph
          | some alt => readbackGo fuel names alt st)) := by
  constructor
  · intro h
    simp [readbackGo, h]
  · intro side rest h
    simp [readbackGo, h]

/-- C7 witness: an empty stack at a Superposition is a malformed-graph
error. -/
theorem c7_witness :
    readbackGo 1 ⟨[]⟩ (.sup 1 none none) ⟨⟨[], [], []⟩, ⟨[]⟩⟩ = .error .malformedGraph :=
  (c7_sup_readback 0 ⟨[]⟩ 1 none none ⟨⟨[], [], []⟩, ⟨[]⟩⟩).1 rfl

/-- C8: building `Dup(n0, n1, expr, body)` constructs `expr` strictly
before the binders become visible — a `Var(m)` as the expression, with
no pending binding for `m` (in particular `m = n0` or `m = n1` with no
outer binding), fails with `UnboundVariable(m)` — and the overall result
is exactly the result of building `body` in the state extended with the
freshly allocated Duplication node (whose projections back-reference it)
— the Duplication node is not an edge of the returned root. -/
theorem c8_dup_strict_and_root :
    (∀ (m n0 n1 : Name) (body : Term) (st : CSt), st.varsMap m = [] →
      createTermGo (.dup n0 n1 (.var m) body) st = .error (.unboundVar m)) ∧
    (∀ (n0 n1 : Name) (expr body : Term) (st : CSt) (e : TermNode) (st1 : CSt),
      createTermGo expr st = .ok (e, st1) →
      createTermGo (.dup n0 n1 expr body) st =
        createTermGo body (bindDp n1 1 true st1.store.dups.length
          (bindDp n0 1 false st1.store.dups.length (allocDup ⟨none, none, e⟩ st1).2))) := by
  constructor
  · intro m n0 n1 body st h
    simp [createTermGo, consume, h]
  · intro n0 n1 expr body st e st1 h
    simp [createTermGo, h, allocDup]

/-- C8 witness: both parts at concrete inputs. -/
theorem c8_witness :
    (createTermGo (.dup (.user 0) Name.nil (.var (.user 0)) (.num 0)) initCSt =
      .error (.unboundVar (.user 0))) ∧
    (createTermGo (.dup (.user 1) (.user 2) (.num 7) (.num 0)) initCSt =
      createTermGo (.num 0) (bindDp (.user 2) 1 true 0
        (bindDp (.user 1) 1 false 0 (allocDup ⟨none, none, .num 7⟩ initCSt).2))) :=
  ⟨c8_dup_strict_and_root.1 (.user 0) (.user 0) Name.nil (.num 0) initCSt rfl,
   c8_dup_strict_and_root.2 (.user 1) (.user 2) (.num 7) (.num 0) initCSt (.num 7) initCSt rfl⟩

/-- C9: reading back a Projection occurrence (label `L`, side `S`)
pushes `S` on `L`'s path stack, reads back the Duplication node's owned
expression, pops the stack, and returns that readback unchanged; and on
return every duplication-path stack equals its state before the
Projection was entered, and the store is untouched.  Both projections of
one Duplication node read the same owned expression (the statement is
parametric in `dpx.side`), re-materialising it independently. -/
theorem c9_projection_passthrough (fuel : Nat) (names : NamesMap) (dpx : DpxNode)
    (st : RSt) (e : Term) (st1 : RSt)
    (h : readbackGo fuel names (dupGet st.store dpx.dup).expr
        { st with paths := st.paths.push dpx.label dpx.side } = .ok (e, st1)) :
    readbackGo (fuel + 1) names (.dpx dpx) st =
      .ok (e, { st1 with paths := st1.paths.pop dpx.label }) ∧
    (∀ L, ({ st1 with paths := st1.paths.pop dpx.label } : RSt).paths.get L = st.paths.get L) ∧
    ({ st1 with paths := st1.paths.pop dpx.label } : RSt).store = st.store := by
  obtain ⟨hs, hp⟩ := readbackGo_frame fuel names _ _ e st1 h
  refine ⟨by simp [readbackGo, h], fun L => ?_, hs⟩
  by_cases hL : L = dpx.label
  · subst hL
    rw [dupPaths_get_pop_self, hp dpx.label]
    simp [dupPaths_get_push_self]
  · rw [dupPaths_get_pop_ne _ _ _ hL, hp L]
    simp [dupPaths_get_push_ne _ _ _ _ hL]

/-- C9 witness: one projection of a Duplication node owning `Num 7`. -/
theorem c9_witness :
    readbackGo 2 ⟨[]⟩ (.dpx ⟨1, false, 0⟩) c9St =
      .ok (.num 7, { c9St1 with paths := c9St1.paths.pop 1 }) :=
  (c9_projection_passthrough 1 ⟨[]⟩ ⟨1, false, 0⟩ c9St (.num 7) c9St1 rfl).1

/-- C10: readback is read-only with respect to the node graph — both the
Namer pass and the reading pass return the store exactly as given (on
every success); only the private name map and duplication-path state are
written, and the top-level `readback` discards them. -/
theorem c10_readback_readonly :
    (∀ fuel node st st', buildNamesGo fuel node st = some st' → st'.store = st.store) ∧
    (∀ fuel names node st r st', readbackGo fuel names node st = .ok (r, st') →
      st'.store = st.store) :=
  ⟨fun fuel node st st' h => (buildNamesGo_pres fuel node st st' h).1,
   fun fuel names node st r st' h => (readbackGo_frame fuel names node st r st' h).1⟩

/-- C10 witness: both passes on a small graph. -/
theorem c10_witness :
    (⟨⟨[], [], []⟩, NamesMap.mk []⟩ : BSt).store = (⟨⟨[], [], []⟩, NamesMap.mk []⟩ : BSt).store ∧
    (⟨⟨[], [], []⟩, DupPaths.mk []⟩ : RSt).store = (⟨⟨[], [], []⟩, DupPaths.mk []⟩ : RSt).store :=
  ⟨c10_readback_readonly.1 1 (.num 0) ⟨⟨[], [], []⟩, ⟨[]⟩⟩ ⟨⟨[], [], []⟩, ⟨[]⟩⟩ rfl,
   c10_readback_readonly.2 1 ⟨[]⟩ (.num 0) ⟨⟨[], [], []⟩, ⟨[]⟩⟩ (.num 0)
     ⟨⟨[], [], []⟩, ⟨[]⟩⟩ rfl⟩

/-- C5 (amended): the Namer assigns at most one id per node identity
(ids are stable — old entries are preserved — and never duplicated), it
assigns an id to the Duplication node of every visited projection and to
the variable node of every visited Lambda *that owns one*, but a Lambda
whose binder is unused (no variable node) is skipped entirely: no id is
assigned for it and its body is not visited (its state is returned
unchanged).  Determinism of the mapping is definitional in this
embedding (`buildNamesGo` is a pure function of the graph). -/
theorem c5_namer_ids (fuel : Nat) (node : TermNode) (st st' : BSt)
    (h : buildNamesGo fuel node st = some st') :
    st'.store = st.store ∧
    (∃ d, st'.names.entries = st.names.entries ++ d) ∧
    ((st.names.entries.map Prod.fst).Nodup → (st'.names.entries.map Prod.fst).Nodup) ∧
    (∀ dpx, node = .dpx dpx →
      (lookupUId st'.names.entries (UId.dupU dpx.dup)).isSome = true) ∧
    (∀ l v, node = .lam l → (lamGet st.store l).var = some v →
      (lookupUId st'.names.entries (UId.varU v)).isSome = true) ∧
    (∀ l, node = .lam l → (lamGet st.store l).var = none → st' = st) := by
  obtain ⟨h1, h2, h3⟩ := buildNamesGo_pres fuel node st st' h
  refine ⟨h1, h2, h3, ?_, ?_, ?_⟩
  · rintro dpx rfl
    cases fuel with
    | zero => simp [buildNamesGo] at h
    | succ fuel =>
      cases hl : lookupUId st.names.entries (UId.dupU dpx.dup) with
      | some n =>
        simp [buildNamesGo, hl] at h
        subst h
        simp [hl]
      | none =>
        simp only [buildNamesGo, hl] at h
        obtain ⟨-, ⟨d, hd⟩, -⟩ := buildNamesGo_pres _ _ _ _ h
        rw [hd]
        have hins := lookupUId_insertFresh_self st.names _ hl
        rw [lookupUId_append_left _ _ _ _ hins]
        rfl
  · rintro l v rfl hv
    cases fuel with
    | zero => simp [buildNamesGo] at h
    | succ fuel =>
      simp only [buildNamesGo, hv] at h
      obtain ⟨-, ⟨d, hd⟩, -⟩ := buildNamesGo_pres _ _ _ _ h
      rw [hd]
      have hsome : ∃ n,
          lookupUId (st.names.orInsert (UId.varU v)).entries (UId.varU v) = some n := by
        unfold NamesMap.orInsert
        cases hl : lookupUId st.names.entries (UId.varU v) with
        | some n =>
          exact ⟨n, hl⟩
        | none =>
          exact ⟨st.names.entries.length, lookupUId_insertFresh_self st.names _ hl⟩
      obtain ⟨n, hn⟩ := hsome
      rw [lookupUId_append_left _ _ _ _ hn]
      rfl
  · rintro l rfl hv
    cases fuel with
    | zero => simp [buildNamesGo] at h
    | succ fuel =>
      simp [buildNamesGo, hv] at h
      exact h.symm

/-- C5 witness at a leaf node. -/
theorem c5_witness :
    ((⟨⟨[], [], []⟩, NamesMap.mk []⟩ : BSt).store = (⟨⟨[], [], []⟩, NamesMap.mk []⟩ : BSt).store) ∧
    (∃ d, (NamesMap.mk []).entries = (NamesMap.mk []).entries ++ d) :=
  have h := c5_namer_ids 1 (.num 0) ⟨⟨[], [], []⟩, ⟨[]⟩⟩ ⟨⟨[], [], []⟩, ⟨[]⟩⟩ rfl
  ⟨h.1, h.2.1⟩

/-- C5 counterexample to the claim as stated: on the graph of
`λ_(λy(y))` the outer Lambda owns no variable node, so the Namer skips
its body entirely — the final name map is empty even though the graph
contains an inner Lambda (node 1) owning variable node 0, which
therefore receives *no* id (and the map is unchanged, not extended). -/
theorem c5_unused_binder_skipped :
    (match createTerm (.lam .nil (.lam (.user 1) (.var (.user 1)))) with
      | .ok (root, s) =>
        buildNamesGo 10 root ⟨s, ⟨[]⟩⟩ = some ⟨s, ⟨[]⟩⟩ ∧
          lamGet s 1 = ⟨some 0, .var 0⟩
      | .error _ => False) :=
  ⟨rfl, rfl⟩

theorem storeExtend_refl (s : Store) : storeExtend s s :=
  ⟨Nat.le_refl _, Nat.le_refl _, rfl, fun _ _ => rfl⟩

theorem storeExtend_trans {a b c : Store} (h1 : storeExtend a b) (h2 : storeExtend b c) :
    storeExtend a c := by
  obtain ⟨v1, l1, d1, g1⟩ := h1
  obtain ⟨v2, l2, d2, g2⟩ := h2
  exact ⟨v1.trans v2, l1.trans l2, d2.trans d1,
    fun i hi => (g2 i (Nat.lt_of_lt_of_le hi l1)).trans (g1 i hi)⟩

theorem envLookup_cons (y : Name) (v : Nat) (env : List (Name × Nat)) (x : Name) :
    envLookup ((y, v) :: env) x = if y = x then some v else envLookup env x := rfl

theorem envLookup_of_contains (env : List (Name × Nat)) (x : Name)
    (h : (env.map Prod.fst).contains x = true) : ∃ v, envLookup env x = some v := by
  induction env with
  | nil => simp at h
  | cons p rest ih =>
    obtain ⟨y, v⟩ := p
    by_cases hy : y = x
    · exact ⟨v, by simp [envLookup, hy]⟩
    · simp only [List.map_cons, List.contains_cons] at h
      have : (rest.map Prod.fst).contains x = true := by
        cases hh : x == y with
        | true =>
          have hxy : x = y := by simpa using hh
          exact absurd hxy.symm hy
        | false => simpa [hh] using h
      obtain ⟨w, hw⟩ := ih this
      exact ⟨w, by simp [envLookup, hy, hw]⟩

theorem envLookup_eq_none_of_not_mem (env : List (Name × Nat)) (x : Name)
    (h : x ∉ env.map Prod.fst) : envLookup env x = none := by
  induction env with
  | nil => rfl
  | cons p rest ih =>
    obtain ⟨y, v⟩ := p
    simp only [List.map_cons, List.mem_cons] at h
    push_neg at h
    have hy : ¬(y = x) := fun hh => h.1 hh.symm
    simp [envLookup, hy, ih h.2]

theorem rel_mono_main : ∀ bud : Nat,
    (∀ t g s s' env, 2 * sizeT t ≤ bud → rel s env t g →
      (∀ l, l ∈ lamIdsT s t g → lamGet s' l = lamGet s l) →
      rel s' env t g ∧ lamIdsT s' t g = lamIdsT s t g ∧
        lamVarsT s' t g = lamVarsT s t g) ∧
    (∀ ts gs s s' env, 2 * sizeTList ts + 1 ≤ bud → relList s env ts gs →
      (∀ l, l ∈ lamIdsTList s ts gs → lamGet s' l = lamGet s l) →
      relList s' env ts gs ∧ lamIdsTList s' ts gs = lamIdsTList s ts gs ∧
        lamVarsTList s' ts gs = lamVarsTList s ts gs) := by
  intro bud
  induction bud with
  | zero =>
    constructor
    · intro t g s s' env hs
      have := sizeT_pos t
      omega
    · intro ts gs s s' env hs
      omega
  | succ bud ih =>
    constructor
    · intro t g s s' env hs hr hag
      cases t with
      | var name =>
        cases g <;> simp [rel] at hr
        case var v => exact ⟨by simp [rel, hr], by simp [lamIdsT], by simp [lamVarsT]⟩
      | dup nam0 nam1 expr body => cases g <;> simp [rel] at hr
      | lam name body =>
        cases g <;> simp [rel] at hr
        case lam l =>
          obtain ⟨hnil, v, b, hget, hrel⟩ := hr
          have hagl : lamGet s' l = lamGet s l := hag l (by simp [lamIdsT])
          have hbody : ∀ l2, l2 ∈ lamIdsT s body b → lamGet s' l2 = lamGet s l2 := by
            intro l2 hl2
            refine hag l2 ?_
            simp [lamIdsT, hget]
            right
            exact hl2
          have hsz : 2 * sizeT body ≤ bud := by simp [sizeT] at hs; omega
          obtain ⟨ha, hb, hc⟩ := (ih.1) body b s s' ((name, v) :: env) hsz hrel hbody
          refine ⟨?_, ?_, ?_⟩
          · simp only [rel]
            exact ⟨hnil, v, b, by rw [hagl, hget], ha⟩
          · simp only [lamIdsT]
            rw [hagl, hget]
            simp [hb]
          · simp only [lamVarsT]
            rw [hagl, hget]
            simp [hc]
      | app func argm =>
        cases g <;> simp [rel] at hr
        case app gf ga =>
          obtain ⟨h1, h2⟩ := hr
          have hsf : 2 * sizeT func ≤ bud := by simp [sizeT] at hs; omega
          have hsa : 2 * sizeT argm ≤ bud := by simp [sizeT] at hs; omega
          obtain ⟨a1, a2, a3⟩ := (ih.1) func gf s s' env hsf h1
            (fun l hl => hag l (by simp [lamIdsT]; exact Or.inl hl))
          obtain ⟨b1, b2, b3⟩ := (ih.1) argm ga s s' env hsa h2
            (fun l hl => hag l (by simp [lamIdsT]; exact Or.inr hl))
          exact ⟨⟨a1, b1⟩, by simp [lamIdsT, a2, b2], by simp [lamVarsT, a3, b3]⟩
      | ctr name args =>
        cases g <;> simp [rel] at hr
        case ctr gname gargs =>
          obtain ⟨h1, h2⟩ := hr
          have hsl : 2 * sizeTList args + 1 ≤ bud := by simp [sizeT] at hs; omega
          obtain ⟨a1, a2, a3⟩ := (ih.2) args gargs s s' env hsl h2
            (fun l hl => hag l (by simpa [lamIdsT] using hl))
          exact ⟨⟨h1, a1⟩, by simp [lamIdsT, a2], by simp [lamVarsT, a3]⟩
      | fnc name args =>
        cases g <;> simp [rel] at hr
        case fnc gname gargs =>
          obtain ⟨h1, h2⟩ := hr
          have hsl : 2 * sizeTList args + 1 ≤ bud := by simp [sizeT] at hs; omega
          obtain ⟨a1, a2, a3⟩ := (ih.2) args gargs s s' env hsl h2
            (fun l hl => hag l (by simpa [lamIdsT] using hl))
          exact ⟨⟨h1, a1⟩, by simp [lamIdsT, a2], by simp [lamVarsT, a3]⟩
      | num value =>
        cases g <;> simp [rel] at hr
        case num gvalue => exact ⟨by simp [rel, hr], by simp [lamIdsT], by simp [lamVarsT]⟩
      | op2 oper val0 val1 =>
        cases g <;> simp [rel] at hr
        case op2 gop ga0 ga1 =>
          obtain ⟨h0, h1, h2⟩ := hr
          have hs0 : 2 * sizeT val0 ≤ bud := by simp [sizeT] at hs; omega
          have hs1 : 2 * sizeT val1 ≤ bud := by simp [sizeT] at hs; omega
          obtain ⟨a1, a2, a3⟩ := (ih.1) val0 ga0 s s' env hs0 h1
            (fun l hl => hag l (by simp [lamIdsT]; exact Or.inl hl))
          obtain ⟨b1, b2, b3⟩ := (ih.1) val1 ga1 s s' env hs1 h2
            (fun l hl => hag l (by simp [lamIdsT]; exact Or.inr hl))
          exact ⟨⟨h0, a1, b1⟩, by simp [lamIdsT, a2, b2], by simp [lamVarsT, a3, b3]⟩
    · intro ts gs s s' env hs hr hag
      cases ts with
      | nil =>
        cases gs <;> simp [relList] at hr ⊢
        · simp [lamIdsTList, lamVarsTList]
      | cons t rest =>
        cases gs with
        | nil => simp [relList] at hr
        | cons g grest =>
          obtain ⟨h1, h2⟩ := hr
          have hpos := sizeT_pos t
          have hst : 2 * sizeT t ≤ bud := by simp [sizeTList] at hs; omega
          have hsr : 2 * sizeTList rest + 1 ≤ bud := by simp [sizeTList] at hs; omega
          obtain ⟨a1, a2, a3⟩ := (ih.1) t g s s' env hst h1
            (fun l hl => hag l (by simp [lamIdsTList]; exact Or.inl hl))
          obtain ⟨b1, b2, b3⟩ := (ih.2) rest grest s s' env hsr h2
            (fun l hl => hag l (by simp [lamIdsTList]; exact Or.inr hl))
          exact ⟨⟨a1, b1⟩, by simp [lamIdsTList, a2, b2], by simp [lamVarsTList, a3, b3]⟩

theorem bindVar_alloc_eq (name : Name) (st : CSt) (h : ¬(name = Name.nil)) :
    bindVar name st.store.lams.length (allocLam ⟨none, placeholder⟩ st).2 =
      lamChildState name st := by
  simp only [bindVar, if_neg h, allocVar, allocLam, setLam, stackPush, lamChildState, lamGet]
  rw [getD_append_self]

theorem createTermGo_lam_eq (name : Name) (body : Term) (st : CSt) :
    createTermGo (.lam name body) st =
      (match createTermGo body (bindVar name st.store.lams.length
          (allocLam ⟨none, placeholder⟩ st).2) with
        | .error e => .error e
        | .ok (b, st3) =>
          .ok (.lam st.store.lams.length,
            setLam st.store.lams.length
              { lamGet st3.store st.store.lams.length with body := b } st3)) := rfl

theorem sound_lam_case (bud : Nat)
    (ihb : ∀ t st env g st', 2 * sizeT t ≤ bud → createTermGo t st = .ok (g, st') →
      soundHyps t st env → soundConcl t st env g st')
    (name : Name) (body : Term) (st : CSt) (env : List (Name × Nat))
    (g : TermNode) (st' : CSt)
    (hs : 2 * sizeT (.lam name body) ≤ bud + 1)
    (hok : createTermGo (.lam name body) st = .ok (g, st'))
    (hh : soundHyps (.lam name body) st env) :
    soundConcl (.lam name body) st env g st' := by
  obtain ⟨hnd, hnf, hsc, hbf, hnodup, heo⟩ := hh
  have hsb : 2 * sizeT body ≤ bud := by simp [sizeT] at hs; omega
  simp only [noDupC] at hnd
  simp only [nilFreeB, Bool.and_eq_true, Bool.not_eq_true', decide_eq_false_iff_not] at hnf
  obtain ⟨hname, hnfb⟩ := hnf
  simp only [lexScoped] at hsc
  simp only [lamNames, List.nodup_cons] at hnodup
  obtain ⟨hnmem, ndb⟩ := hnodup
  simp only [lamNames] at hbf
  have hbfname := hbf name (List.mem_cons_self _ _)
  rw [createTermGo_lam_eq, bindVar_alloc_eq name st hname] at hok
  cases hcb : createTermGo body (lamChildState name st) with
  | error e =>
    rw [hcb] at hok
    exact absurd hok (by simp)
  | ok p =>
    obtain ⟨b, st3⟩ := p
    rw [hcb] at hok
    simp at hok
    obtain ⟨hg, hst⟩ := hok
    subst hg
    subst hst
    have hlen2 : (lamChildState name st).store.lams.length = st.store.lams.length + 1 := by
      simp [lamChildState]
    have hvlen2 : (lamChildState name st).store.vars.length = st.store.vars.length + 1 := by
      simp [lamChildState]
    have hgl2 : lamGet (lamChildState name st).store st.store.lams.length =
        ⟨some st.store.vars.length, placeholder⟩ := by
      show ((st.store.lams ++ [({ var := none, body := placeholder } : LamNode)]).set
        st.store.lams.length _).getD _ _ = _
      apply getD_set_self
      simp
    have hgi2 : ∀ i, i < st.store.lams.length →
        lamGet (lamChildState name st).store i = lamGet st.store i := by
      intro i hi
      show ((st.store.lams ++ [({ var := none, body := placeholder } : LamNode)]).set
        st.store.lams.length _).getD i _ = _
      rw [getD_set_ne _ _ _ _ _ (by omega)]
      exact getD_append_lt _ _ _ _ hi
    have hhb : soundHyps body (lamChildState name st)
        ((name, st.store.vars.length) :: env) := by
      refine ⟨hnd, hnfb, by simpa using hsc, ?_, ndb, ?_⟩
      · intro y hy
        have hyne : ¬(y = name) := fun hh => hnmem (hh ▸ hy)
        have h0 := hbf y (List.mem_cons_of_mem _ hy)
        constructor
        · rw [envLookup_cons, if_neg (fun hh : name = y => hyne hh.symm)]
          exact h0.1
        · show (if y = name then _ else st.varsMap y) = []
          rw [if_neg hyne]
          exact h0.2
      · intro x w hw
        rw [envLookup_cons] at hw
        by_cases hx : name = x
        · subst hx
          rw [if_pos rfl] at hw
          have hww : st.store.vars.length = w := by simpa using hw
          subst hww
          right
          show (if name = name then TermNode.var st.store.vars.length :: st.varsMap name
            else st.varsMap name) = _
          rw [if_pos rfl, hbfname.2]
        · rw [if_neg hx] at hw
          have hxn : ¬(x = name) := fun hh => hx hh.symm
          have hxx := heo x w hw
          show (if x = name then _ else st.varsMap x) = [] ∨
            (if x = name then _ else st.varsMap x) = [TermNode.var w]
          simp only [if_neg hxn]
          exact hxx
    obtain ⟨rb, eob, frb, extb, bndLb, ndLb, bndVb, ndVb⟩ :=
      ihb body (lamChildState name st) _ b st3 hsb hcb hhb
    obtain ⟨evb, elb, edb, egb⟩ := extb
    have hg3L : lamGet st3.store st.store.lams.length =
        ⟨some st.store.vars.length, placeholder⟩ :=
      (egb st.store.lams.length (by omega)).trans hgl2
    have hL3 : st.store.lams.length + 1 ≤ st3.store.lams.length := by omega
    have hV3 : st.store.vars.length + 1 ≤ st3.store.vars.length := by omega
    set stF : CSt := setLam st.store.lams.length
      { lamGet st3.store st.store.lams.length with body := b } st3 with hstFdef
    have hstFlams : stF.store.lams =
        st3.store.lams.set st.store.lams.length ⟨some st.store.vars.length, b⟩ := by
      rw [hstFdef]
      simp [setLam, hg3L]
    have hstFvars : stF.store.vars = st3.store.vars := by
      rw [hstFdef]
      exact rfl
    have hstFdups : stF.store.dups = st3.store.dups := by
      rw [hstFdef]
      exact rfl
    have hstFmap : stF.varsMap = st3.varsMap := by
      rw [hstFdef]
      exact rfl
    have hlenF : stF.store.lams.length = st3.store.lams.length := by
      rw [hstFlams]
      simp
    have hgLF : lamGet stF.store st.store.lams.length = ⟨some st.store.vars.length, b⟩ := by
      unfold lamGet
      rw [hstFlams]
      apply getD_set_self
      omega
    have hgneF : ∀ i, ¬(i = st.store.lams.length) →
        lamGet stF.store i = lamGet st3.store i := by
      intro i hi
      unfold lamGet
      rw [hstFlams]
      exact getD_set_ne _ _ _ _ _ hi
    have hagb : ∀ l2, l2 ∈ lamIdsT st3.store body b →
        lamGet stF.store l2 = lamGet st3.store l2 := by
      intro l2 hl2
      have hb2 := bndLb l2 hl2
      rw [hlen2] at hb2
      exact hgneF l2 (by omega)
    obtain ⟨rb2, hIdsb, hVarsb⟩ := (rel_mono_main (2 * sizeT body)).1 body b st3.store
      stF.store ((name, st.store.vars.length) :: env) (Nat.le_refl _) rb hagb
    refine ⟨⟨hname, st.store.vars.length, b, hgLF, rb2⟩, ?_, ?_, ?_, ?_, ?_, ?_, ?_⟩
    · intro x w hw
      have hxn : ¬(x = name) := by
        intro hh
        subst hh
        rw [hbfname.1] at hw
        exact absurd hw (by simp)
      have hw2 : envLookup ((name, st.store.vars.length) :: env) x = some w := by
        rw [envLookup_cons, if_neg (fun hh : name = x => hxn hh.symm)]
        exact hw
      have := eob x w hw2
      rw [hstFmap]
      exact this
    · intro y hy
      simp only [lamNames, List.mem_cons] at hy
      push_neg at hy
      obtain ⟨hyname, hybody⟩ := hy
      have h3 := frb y hybody
      have hchild : (lamChildState name st).varsMap y = st.varsMap y := by
        show (if y = name then _ else st.varsMap y) = _
        rw [if_neg hyname]
      rw [hstFmap]
      rcases h3 with heq | hnil
      · exact Or.inl (heq.trans hchild)
      · exact Or.inr hnil
    · refine ⟨?_, ?_, ?_, ?_⟩
      · rw [hstFvars]
        omega
      · rw [hlenF]
        omega
      · rw [hstFdups, edb]
        simp [lamChildState]
      · intro i hi
        rw [hgneF i (by omega), egb i (by omega)]
        exact hgi2 i hi
    · intro l hl
      simp only [lamIdsT] at hl
      simp only [hgLF] at hl
      rw [hIdsb] at hl
      simp only [List.mem_cons] at hl
      rcases hl with rfl | hl
      · exact ⟨Nat.le_refl _, by omega⟩
      · have hb2 := bndLb l hl
        rw [hlen2] at hb2
        exact ⟨by omega, by omega⟩
    · simp only [lamIdsT]
      simp only [hgLF]
      rw [hIdsb]
      rw [List.nodup_cons]
      refine ⟨?_, ndLb⟩
      intro hmem
      have hb2 := bndLb _ hmem
      rw [hlen2] at hb2
      omega
    · intro w hw
      simp only [lamVarsT] at hw
      simp only [hgLF] at hw
      rw [hVarsb] at hw
      simp only [List.singleton_append, List.mem_cons] at hw
      rcases hw with rfl | hw
      · refine ⟨Nat.le_refl _, ?_⟩
        rw [hstFvars]
        omega
      · have hb2 := bndVb w hw
        rw [hvlen2] at hb2
        refine ⟨by omega, ?_⟩
        rw [hstFvars]
        omega
    · simp only [lamVarsT]
      simp only [hgLF]
      rw [hVarsb]
      simp only [List.singleton_append, List.nodup_cons]
      refine ⟨?_, ndVb⟩
      intro hmem
      have hb2 := bndVb _ hmem
      rw [hvlen2] at hb2
      omega

theorem createTermGo_sound_main : ∀ bud : Nat,
    (∀ t st env g st', 2 * sizeT t ≤ bud → createTermGo t st = .ok (g, st') →
      soundHyps t st env → soundConcl t st env g st') ∧
    (∀ ts st env gs st', 2 * sizeTList ts + 1 ≤ bud →
      createTermGoList ts st = .ok (gs, st') →
      soundHypsL ts st env → soundConclL ts st env gs st') := by
  intro bud
  induction bud with
  | zero =>
    constructor
    · intro t st env g st' hs
      have := sizeT_pos t
      omega
    · intro ts st env gs st' hs
      omega
  | succ bud ih =>
    constructor
    · intro t st env g st' hs hok hh
      obtain ⟨hnd, hnf, hsc, hbf, hnodup, heo⟩ := hh
      cases t with
      | var name =>
        have hcont : (env.map Prod.fst).contains name = true := by
          simpa [lexScoped] using hsc
        obtain ⟨v, hv⟩ := envLookup_of_contains _ _ hcont
        cases heo name v hv with
        | inl hempty =>
          simp [createTermGo, consume, hempty] at hok
        | inr hone =>
          have hcons : consume name st = some (TermNode.var v,
              { st with varsMap := fun k => if k = name then [] else st.varsMap k }) := by
            simp [consume, hone]
          simp only [createTermGo, hcons] at hok
          simp at hok
          obtain ⟨hg, hst⟩ := hok
          subst hg
          subst hst
          refine ⟨by simp [rel, hv], ?_, ?_, storeExtend_refl _, ?_, ?_, ?_, ?_⟩
          · intro x w hw
            by_cases hx : x = name
            · subst hx
              simp
            · have := heo x w hw
              simpa [hx] using this
          · intro y hy
            by_cases hx : y = name
            · subst hx
              simp
            · simp [hx]
          · intro l hl
            simp [lamIdsT] at hl
          · simp [lamIdsT]
          · intro w hw
            simp [lamVarsT] at hw
          · simp [lamVarsT]
      | dup nam0 nam1 expr body => simp [noDupC] at hnd
      | num value =>
        simp [createTermGo] at hok
        obtain ⟨hg, hst⟩ := hok
        subst hg
        subst hst
        refine ⟨by simp [rel], heo, fun y hy => Or.inl rfl, storeExtend_refl _,
          ?_, ?_, ?_, ?_⟩
        · intro l hl
          simp [lamIdsT] at hl
        · simp [lamIdsT]
        · intro w hw
          simp [lamVarsT] at hw
        · simp [lamVarsT]
      | lam name body =>
        exact sound_lam_case bud ih.1 name body st env g st' hs hok
          ⟨hnd, hnf, hsc, hbf, hnodup, heo⟩
      | app func argm =>
        have hsf : 2 * sizeT func ≤ bud := by simp [sizeT] at hs; omega
        have hsa : 2 * sizeT argm ≤ bud := by simp [sizeT] at hs; omega
        simp only [noDupC, Bool.and_eq_true] at hnd
        simp only [nilFreeB, Bool.and_eq_true] at hnf
        simp only [lexScoped, Bool.and_eq_true] at hsc
        simp only [lamNames] at hbf hnodup ⊢
        rw [List.nodup_append] at hnodup
        obtain ⟨ndf, nda, hdisj⟩ := hnodup
        cases hcf : createTermGo func st with
        | error e => simp [createTermGo, hcf] at hok
        | ok p =>
          obtain ⟨gf, st1⟩ := p
          cases hca : createTermGo argm st1 with
          | error e => simp [createTermGo, hcf, hca] at hok
          | ok q =>
            obtain ⟨ga, st2⟩ := q
            simp only [createTermGo, hcf, hca] at hok
            simp at hok
            obtain ⟨hg, hst⟩ := hok
            subst hg
            subst hst
            obtain ⟨rf, eof, frf, extf, bndLf, ndLf, bndVf, ndVf⟩ :=
              ih.1 func st env gf st1 hsf hcf
                ⟨hnd.1, hnf.1, hsc.1, fun y hy => hbf y (List.mem_append_left _ hy), ndf, heo⟩
            have hbfa : ∀ y, y ∈ lamNames argm →
                envLookup env y = none ∧ st1.varsMap y = [] := by
              intro y hy
              have h0 := hbf y (List.mem_append_right _ hy)
              have hnotf : y ∉ lamNames func := fun hyf => hdisj hyf hy
              rcases frf y hnotf with heq | hnil
              · exact ⟨h0.1, heq.trans h0.2⟩
              · exact ⟨h0.1, hnil⟩
            obtain ⟨ra, eoa, fra, exta, bndLa, ndLa, bndVa, ndVa⟩ :=
              ih.1 argm st1 env ga st2 hsa hca ⟨hnd.2, hnf.2, hsc.2, hbfa, nda, eof⟩
            have hag : ∀ l, l ∈ lamIdsT st1.store func gf →
                lamGet st2.store l = lamGet st1.store l := by
              intro l hl
              exact exta.2.2.2 l (bndLf l hl).2
            obtain ⟨rf2, hIds, hVars⟩ :=
              (rel_mono_main (2 * sizeT func)).1 func gf st1.store st2.store env
                (Nat.le_refl _) rf hag
            obtain ⟨hvx, hlx, hdx, hgx⟩ := extf
            obtain ⟨hvy, hly, hdy, hgy⟩ := exta
            refine ⟨⟨rf2, ra⟩, eoa, ?_, storeExtend_trans ⟨hvx, hlx, hdx, hgx⟩
              ⟨hvy, hly, hdy, hgy⟩, ?_, ?_, ?_, ?_⟩
            · intro y hy
              simp only [lamNames, List.mem_append] at hy
              push_neg at hy
              rcases fra y hy.2 with heq2 | hnil2
              · rcases frf y hy.1 with heq1 | hnil1
                · exact Or.inl (heq2.trans heq1)
                · exact Or.inr (heq2.trans hnil1)
              · exact Or.inr hnil2
            · intro l hl
              simp only [lamIdsT] at hl
              rw [hIds, List.mem_append] at hl
              rcases hl with hl | hl
              · have := bndLf l hl
                omega
              · have := bndLa l hl
                omega
            · simp only [lamIdsT]
              rw [hIds, List.nodup_append]
              refine ⟨ndLf, ndLa, ?_⟩
              intro a haf haa
              have h1 := bndLf a haf
              have h2 := bndLa a haa
              omega
            · intro w hw
              simp only [lamVarsT] at hw
              rw [hVars, List.mem_append] at hw
              rcases hw with hw | hw
              · have := bndVf w hw
                omega
              · have := bndVa w hw
                omega
            · simp only [lamVarsT]
              rw [hVars, List.nodup_append]
              refine ⟨ndVf, ndVa, ?_⟩
              intro a haf haa
              have h1 := bndVf a haf
              have h2 := bndVa a haa
              omega
      | ctr name args =>
        have hsl : 2 * sizeTList args + 1 ≤ bud := by simp [sizeT] at hs; omega
        simp only [noDupC] at hnd
        simp only [nilFreeB] at hnf
        simp only [lexScoped] at hsc
        simp only [lamNames] at hbf hnodup
        cases hcl : createTermGoList args st with
        | error e => simp [createTermGo, hcl] at hok
        | ok p =>
          obtain ⟨gargs, st1⟩ := p
          simp only [createTermGo, hcl] at hok
          simp at hok
          obtain ⟨hg, hst⟩ := hok
          subst hg
          subst hst
          obtain ⟨rl, eol, frl, extl, bndLl, ndLl, bndVl, ndVl⟩ :=
            ih.2 args st env gargs st1 hsl hcl ⟨hnd, hnf, hsc, hbf, hnodup, heo⟩
          refine ⟨⟨rfl, rl⟩, eol, ?_, extl, ?_, ?_, ?_, ?_⟩
          · intro y hy
            simp only [lamNames] at hy
            exact frl y hy
          · intro l hl
            simp only [lamIdsT] at hl
            exact bndLl l hl
          · simp only [lamIdsT]
            exact ndLl
          · intro w hw
            simp only [lamVarsT] at hw
            exact bndVl w hw
          · simp only [lamVarsT]
            exact ndVl
      | fnc name args =>
        have hsl : 2 * sizeTList args + 1 ≤ bud := by simp [sizeT] at hs; omega
        simp only [noDupC] at hnd
        simp only [nilFreeB] at hnf
        simp only [lexScoped] at hsc
        simp only [lamNames] at hbf hnodup
        cases hcl : createTermGoList args st with
        | error e => simp [createTermGo, hcl] at hok
        | ok p =>
          obtain ⟨gargs, st1⟩ := p
          simp only [createTermGo, hcl] at hok
          simp at hok
          obtain ⟨hg, hst⟩ := hok
          subst hg
          subst hst
          obtain ⟨rl, eol, frl, extl, bndLl, ndLl, bndVl, ndVl⟩ :=
            ih.2 args st env gargs st1 hsl hcl ⟨hnd, hnf, hsc, hbf, hnodup, heo⟩
          refine ⟨⟨rfl, rl⟩, eol, ?_, extl, ?_, ?_, ?_, ?_⟩
          · intro y hy
            simp only [lamNames] at hy
            exact frl y hy
          · intro l hl
            simp only [lamIdsT] at hl
            exact bndLl l hl
          · simp only [lamIdsT]
            exact ndLl
          · intro w hw
            simp only [lamVarsT] at hw
            exact bndVl w hw
          · simp only [lamVarsT]
            exact ndVl
      | op2 oper val0 val1 =>
        have hsf : 2 * sizeT val0 ≤ bud := by simp [sizeT] at hs; omega
        have hsa : 2 * sizeT val1 ≤ bud := by simp [sizeT] at hs; omega
        simp only [noDupC, Bool.and_eq_true] at hnd
        simp only [nilFreeB, Bool.and_eq_true] at hnf
        simp only [lexScoped, Bool.and_eq_true] at hsc
        simp only [lamNames] at hbf hnodup
        rw [List.nodup_append] at hnodup
        obtain ⟨ndf, nda, hdisj⟩ := hnodup
        cases hcf : createTermGo val0 st with
        | error e => simp [createTermGo, hcf] at hok
        | ok p =>
          obtain ⟨gf, st1⟩ := p
          cases hca : createTermGo val1 st1 with
          | error e => simp [createTermGo, hcf, hca] at hok
          | ok q =>
            obtain ⟨ga, st2⟩ := q
            simp only [createTermGo, hcf, hca] at hok
            simp at hok
            obtain ⟨hg, hst⟩ := hok
            subst hg
            subst hst
            obtain ⟨rf, eof, frf, extf, bndLf, ndLf, bndVf, ndVf⟩ :=
              ih.1 val0 st env gf st1 hsf hcf
                ⟨hnd.1, hnf.1, hsc.1, fun y hy => hbf y (List.mem_append_left _ hy), ndf, heo⟩
            have hbfa : ∀ y, y ∈ lamNames val1 →
                envLookup env y = none ∧ st1.varsMap y = [] := by
              intro y hy
              have h0 := hbf y (List.mem_append_right _ hy)
              have hnotf : y ∉ lamNames val0 := fun hyf => hdisj hyf hy
              rcases frf y hnotf with heq | hnil
              · exact ⟨h0.1, heq.trans h0.2⟩
              · exact ⟨h0.1, hnil⟩
            obtain ⟨ra, eoa, fra, exta, bndLa, ndLa, bndVa, ndVa⟩ :=
              ih.1 val1 st1 env ga st2 hsa hca ⟨hnd.2, hnf.2, hsc.2, hbfa, nda, eof⟩
            have hag : ∀ l, l ∈ lamIdsT st1.store val0 gf →
                lamGet st2.store l = lamGet st1.store l := by
              intro l hl
              exact exta.2.2.2 l (bndLf l hl).2
            obtain ⟨rf2, hIds, hVars⟩ :=
              (rel_mono_main (2 * sizeT val0)).1 val0 gf st1.store st2.store env
                (Nat.le_refl _) rf hag
            refine ⟨⟨rfl, rf2, ra⟩, eoa, ?_, storeExtend_trans extf exta, ?_, ?_, ?_, ?_⟩
            · intro y hy
              simp only [lamNames, List.mem_append] at hy
              push_neg at hy
              rcases fra y hy.2 with heq2 | hnil2
              · rcases frf y hy.1 with heq1 | hnil1
                · exact Or.inl (heq2.trans heq1)
                · exact Or.inr (heq2.trans hnil1)
              · exact Or.inr hnil2
            · intro l hl
              simp only [lamIdsT] at hl
              rw [hIds, List.mem_append] at hl
              obtain ⟨hvx, hlx, hdx, hgx⟩ := extf
              obtain ⟨hvy, hly, hdy, hgy⟩ := exta
              rcases hl with hl | hl
              · have := bndLf l hl
                omega
              · have := bndLa l hl
                omega
            · simp only [lamIdsT]
              rw [hIds, List.nodup_append]
              refine ⟨ndLf, ndLa, ?_⟩
              intro a haf haa
              have h1 := bndLf a haf
              have h2 := bndLa a haa
              omega
            · intro w hw
              simp only [lamVarsT] at hw
              rw [hVars, List.mem_append] at hw
              obtain ⟨hvx, hlx, hdx, hgx⟩ := extf
              obtain ⟨hvy, hly, hdy, hgy⟩ := exta
              rcases hw with hw | hw
              · have := bndVf w hw
                omega
              · have := bndVa w hw
                omega
            · simp only [lamVarsT]
              rw [hVars, List.nodup_append]
              refine ⟨ndVf, ndVa, ?_⟩
              intro a haf haa
              have h1 := bndVf a haf
              have h2 := bndVa a haa
              omega
    · intro ts st env gs st' hs hok hh
      obtain ⟨hnd, hnf, hsc, hbf, hnodup, heo⟩ := hh
      cases ts with
      | nil =>
        simp [createTermGoList] at hok
        obtain ⟨hg, hst⟩ := hok
        subst hg
        subst hst
        refine ⟨by simp [relList], heo, fun y hy => Or.inl rfl, storeExtend_refl _,
          ?_, ?_, ?_, ?_⟩
        · intro l hl
          simp [lamIdsTList] at hl
        · simp [lamIdsTList]
        · intro w hw
          simp [lamVarsTList] at hw
        · simp [lamVarsTList]
      | cons t rest =>
        have hpos := sizeT_pos t
        have hst1 : 2 * sizeT t ≤ bud := by simp [sizeTList] at hs; omega
        have hsr : 2 * sizeTList rest + 1 ≤ bud := by simp [sizeTList] at hs; omega
        simp only [noDupCList, Bool.and_eq_true] at hnd
        simp only [nilFreeBList, Bool.and_eq_true] at hnf
        simp only [lexScopedList, Bool.and_eq_true] at hsc
        simp only [lamNamesList] at hbf hnodup
        rw [List.nodup_append] at hnodup
        obtain ⟨ndf, nda, hdisj⟩ := hnodup
        cases hcf : createTermGo t st with
        | error e => simp [createTermGoList, hcf] at hok
        | ok p =>
          obtain ⟨g1, st1⟩ := p
          cases hcr : createTermGoList rest st1 with
          | error e => simp [createTermGoList, hcf, hcr] at hok
          | ok q =>
            obtain ⟨grest, st2⟩ := q
            simp only [createTermGoList, hcf, hcr] at hok
            simp at hok
            obtain ⟨hg, hst⟩ := hok
            subst hg
            subst hst
            obtain ⟨rf, eof, frf, extf, bndLf, ndLf, bndVf, ndVf⟩ :=
              ih.1 t st env g1 st1 hst1 hcf
                ⟨hnd.1, hnf.1, hsc.1, fun y hy => hbf y (List.mem_append_left _ hy), ndf, heo⟩
            have hbfa : ∀ y, y ∈ lamNamesList rest →
                envLookup env y = none ∧ st1.varsMap y = [] := by
              intro y hy
              have h0 := hbf y (List.mem_append_right _ hy)
              have hnotf : y ∉ lamNames t := fun hyf => hdisj hyf hy
              rcases frf y hnotf with heq | hnil
              · exact ⟨h0.1, heq.trans h0.2⟩
              · exact ⟨h0.1, hnil⟩
            obtain ⟨ra, eoa, fra, exta, bndLa, ndLa, bndVa, ndVa⟩ :=
              ih.2 rest st1 env grest st2 hsr hcr ⟨hnd.2, hnf.2, hsc.2, hbfa, nda, eof⟩
            have hag : ∀ l, l ∈ lamIdsT st1.store t g1 →
                lamGet st2.store l = lamGet st1.store l := by
              intro l hl
              exact exta.2.2.2 l (bndLf l hl).2
            obtain ⟨rf2, hIds, hVars⟩ :=
              (rel_mono_main (2 * sizeT t)).1 t g1 st1.store st2.store env
                (Nat.le_refl _) rf hag
            refine ⟨⟨rf2, ra⟩, eoa, ?_, storeExtend_trans extf exta, ?_, ?_, ?_, ?_⟩
            · intro y hy
              simp only [lamNamesList, List.mem_append] at hy
              push_neg at hy
              rcases fra y hy.2 with heq2 | hnil2
              · rcases frf y hy.1 with heq1 | hnil1
                · exact Or.inl (heq2.trans heq1)
                · exact Or.inr (heq2.trans hnil1)
              · exact Or.inr hnil2
            · intro l hl
              simp only [lamIdsTList] at hl
              rw [hIds, List.mem_append] at hl
              obtain ⟨hvx, hlx, hdx, hgx⟩ := extf
              obtain ⟨hvy, hly, hdy, hgy⟩ := exta
              rcases hl with hl | hl
              · have := bndLf l hl
                omega
              · have := bndLa l hl
                omega
            · simp only [lamIdsTList]
              rw [hIds, List.nodup_append]
              refine ⟨ndLf, ndLa, ?_⟩
              intro a haf haa
              have h1 := bndLf a haf
              have h2 := bndLa a haa
              omega
            · intro w hw
              simp only [lamVarsTList] at hw
              rw [hVars, List.mem_append] at hw
              obtain ⟨hvx, hlx, hdx, hgx⟩ := extf
              obtain ⟨hvy, hly, hdy, hgy⟩ := exta
              rcases hw with hw | hw
              · have := bndVf w hw
                omega
              · have := bndVa w hw
                omega
            · simp only [lamVarsTList]
              rw [hVars, List.nodup_append]
              refine ⟨ndVf, ndVa, ?_⟩
              intro a haf haa
              have h1 := bndVf a haf
              have h2 := bndVa a haa
              omega

theorem enumVars_append (l1 l2 : List Nat) : ∀ n,
    enumVars n (l1 ++ l2) = enumVars n l1 ++ enumVars (n + l1.length) l2 := by
  induction l1 with
  | nil => intro n; simp [enumVars]
  | cons v rest ih =>
    intro n
    simp only [List.cons_append, enumVars, List.length_cons, List.append_eq]
    rw [ih (n + 1)]
    have heq : n + 1 + rest.length = n + (rest.length + 1) := by omega
    rw [heq]

theorem enumVars_lookup_ge : ∀ (lvs : List Nat) (n : Nat) (u : UId) (m : Nat),
    lookupUId (enumVars n lvs) u = some m → n ≤ m := by
  intro lvs
  induction lvs with
  | nil => intro n u m h; simp [enumVars, lookupUId] at h
  | cons v rest ih =>
    intro n u m h
    simp only [enumVars, lookupUId] at h
    by_cases hu : UId.varU v = u
    · rw [if_pos hu] at h
      simp at h
      omega
    · rw [if_neg hu] at h
      have := ih (n + 1) u m h
      omega

theorem enumVars_lookup_mem : ∀ (lvs : List Nat) (n : Nat) (v : Nat), v ∈ lvs →
    (lookupUId (enumVars n lvs) (UId.varU v)).isSome = true := by
  intro lvs
  induction lvs with
  | nil => intro n v h; simp at h
  | cons u rest ih =>
    intro n v h
    simp only [enumVars, lookupUId]
    by_cases hu : UId.varU u = UId.varU v
    · rw [if_pos hu]
      rfl
    · rw [if_neg hu]
      have hne : ¬(u = v) := fun hh => hu (hh ▸ rfl)
      rcases List.mem_cons.mp h with rfl | hmem
      · exact absurd rfl hne
      · exact ih (n + 1) v hmem

theorem enumVars_lookup_inj : ∀ (lvs : List Nat) (n : Nat) (v w m : Nat), lvs.Nodup →
    lookupUId (enumVars n lvs) (UId.varU v) = some m →
    lookupUId (enumVars n lvs) (UId.varU w) = some m → v = w := by
  intro lvs
  induction lvs with
  | nil => intro n v w m hnd h1; simp [enumVars, lookupUId] at h1
  | cons u rest ih =>
    intro n v w m hnd h1 h2
    rw [List.nodup_cons] at hnd
    simp only [enumVars, lookupUId] at h1 h2
    by_cases hv : UId.varU u = UId.varU v
    · rw [if_pos hv] at h1
      simp at h1
      by_cases hw : UId.varU u = UId.varU w
      · have hv' : u = v := by injection hv
        have hw' : u = w := by injection hw
        rw [← hv', ← hw']
      · rw [if_neg hw] at h2
        have := enumVars_lookup_ge rest (n + 1) (UId.varU w) m h2
        omega
    · rw [if_neg hv] at h1
      by_cases hw : UId.varU u = UId.varU w
      · rw [if_pos hw] at h2
        simp at h2
        have := enumVars_lookup_ge rest (n + 1) (UId.varU v) m h1
        omega
      · rw [if_neg hw] at h2
        exact ih (n + 1) v w m hnd.2 h1 h2

theorem lookupUId_enum_none (es : List (UId × Nat)) (u : UId)
    (hnone : lookupUId es u = none) (d : Nat) :
    lookupUId (es ++ [(u, d)]) u = some d := by
  rw [lookupUId_append_right _ _ _ hnone]
  simp [lookupUId]

theorem lookupUId_snoc_none (es : List (UId × Nat)) (u u' : UId) (d : Nat)
    (hnone : lookupUId es u = none) (hne : ¬(u' = u)) :
    lookupUId (es ++ [(u', d)]) u = none := by
  rw [lookupUId_append_right _ _ _ hnone]
  simp [lookupUId, hne]

theorem enumVars_length : ∀ (l : List Nat) (n : Nat), (enumVars n l).length = l.length := by
  intro l
  induction l with
  | nil => intro n; rfl
  | cons v rest ih => intro n; simp [enumVars, ih]

theorem enumVars_lookup_not_mem : ∀ (lvs : List Nat) (n v : Nat), v ∉ lvs →
    lookupUId (enumVars n lvs) (UId.varU v) = none := by
  intro lvs
  induction lvs with
  | nil => intro n v h; rfl
  | cons u rest ih =>
    intro n v h
    simp only [List.mem_cons] at h
    push_neg at h
    simp only [enumVars, lookupUId]
    rw [if_neg (fun hh : UId.varU u = UId.varU v => h.1 ((by injection hh : u = v)).symm)]
    exact ih (n + 1) v h.2

theorem buildNames_spec_main : ∀ bud : Nat,
    (∀ t g s env names, 2 * sizeT t ≤ bud → rel s env t g →
      (∀ v, v ∈ lamVarsT s t g → lookupUId names.entries (UId.varU v) = none) →
      (lamVarsT s t g).Nodup →
      ∀ fuel, sizeT t ≤ fuel →
      buildNamesGo fuel g ⟨s, names⟩ =
        some ⟨s, ⟨names.entries ++ enumVars names.entries.length (lamVarsT s t g)⟩⟩) ∧
    (∀ ts gs s env names, 2 * sizeTList ts + 1 ≤ bud → relList s env ts gs →
      (∀ v, v ∈ lamVarsTList s ts gs → lookupUId names.entries (UId.varU v) = none) →
      (lamVarsTList s ts gs).Nodup →
      ∀ fuel, sizeTList ts ≤ fuel →
      namesFold (buildNamesGo fuel) gs ⟨s, names⟩ =
        some ⟨s, ⟨names.entries ++ enumVars names.entries.length (lamVarsTList s ts gs)⟩⟩) := by
  intro bud
  induction bud with
  | zero =>
    constructor
    · intro t g s env names hs
      have := sizeT_pos t
      omega
    · intro ts gs s env names hs
      omega
  | succ bud ih =>
    constructor
    · intro t g s env names hs hr hfresh hnd fuel hfuel
      cases t with
      | var name =>
        cases g <;> simp [rel] at hr
        case var v =>
          cases fuel with
          | zero => simp [sizeT] at hfuel
          | succ f => simp [buildNamesGo, lamVarsT, enumVars]
      | dup nam0 nam1 expr body => cases g <;> simp [rel] at hr
      | num value =>
        cases g <;> simp [rel] at hr
        case num gvalue =>
          cases fuel with
          | zero => simp [sizeT] at hfuel
          | succ f => simp [buildNamesGo, lamVarsT, enumVars]
      | lam name body =>
        cases g <;> simp [rel] at hr
        case lam l =>
          obtain ⟨hnil, v, b, hget, hrel⟩ := hr
          cases fuel with
          | zero => simp [sizeT] at hfuel
          | succ f =>
            have hfb : sizeT body ≤ f := by simp [sizeT] at hfuel; omega
            have hsb : 2 * sizeT body ≤ bud := by simp [sizeT] at hs; omega
            have hlv : lamVarsT s (.lam name body) (.lam l) = v :: lamVarsT s body b := by
              simp only [lamVarsT, hget]
              rfl
            rw [hlv] at hfresh hnd
            rw [List.nodup_cons] at hnd
            have hvfresh := hfresh v (List.mem_cons_self _ _)
            have hstep : buildNamesGo (f + 1) (.lam l) ⟨s, names⟩ =
                buildNamesGo f b ⟨s, names.orInsert (UId.varU v)⟩ := by
              simp only [buildNamesGo]
              have : lamGet (⟨s, names⟩ : BSt).store l = ⟨some v, b⟩ := hget
              rw [this]
            rw [hstep]
            have hoi : names.orInsert (UId.varU v) =
                ⟨names.entries ++ [(UId.varU v, names.entries.length)]⟩ := by
              unfold NamesMap.orInsert
              rw [hvfresh]
              rfl
            rw [hoi]
            have hfresh2 : ∀ w ∈ lamVarsT s body b,
                lookupUId (names.entries ++ [(UId.varU v, names.entries.length)])
                  (UId.varU w) = none := by
              intro w hw
              have hwne : ¬(UId.varU v = UId.varU w) :=
                fun hh => hnd.1 ((by injection hh : v = w) ▸ hw)
              exact lookupUId_snoc_none _ _ _ _ (hfresh w (List.mem_cons_of_mem _ hw)) hwne
            have hbody := (ih.1) body b s ((name, v) :: env)
              ⟨names.entries ++ [(UId.varU v, names.entries.length)]⟩
              hsb hrel hfresh2 hnd.2 f hfb
            rw [hbody, hlv]
            simp only [enumVars]
            rw [List.append_assoc]
            congr 2
            simp
      | app func argm =>
        cases g <;> simp [rel] at hr
        case app gf ga =>
          obtain ⟨h1, h2⟩ := hr
          cases fuel with
          | zero => simp [sizeT] at hfuel
          | succ f =>
            have hff : sizeT func ≤ f := by simp [sizeT] at hfuel; omega
            have hfa : sizeT argm ≤ f := by simp [sizeT] at hfuel; omega
            have hsf : 2 * sizeT func ≤ bud := by simp [sizeT] at hs; omega
            have hsa : 2 * sizeT argm ≤ bud := by simp [sizeT] at hs; omega
            have hlv : lamVarsT s (.app func argm) (.app gf ga) =
                lamVarsT s func gf ++ lamVarsT s argm ga := rfl
            rw [hlv] at hfresh hnd
            rw [List.nodup_append] at hnd
            obtain ⟨ndf, nda, hdisj⟩ := hnd
            have hf := (ih.1) func gf s env names hsf h1
              (fun w hw => hfresh w (List.mem_append_left _ hw)) ndf f hff
            have hfresh2 : ∀ w ∈ lamVarsT s argm ga,
                lookupUId (names.entries ++
                  enumVars names.entries.length (lamVarsT s func gf)) (UId.varU w) = none := by
              intro w hw
              have hw2 := hfresh w (List.mem_append_right _ hw)
              rw [lookupUId_append_right _ _ _ hw2]
              exact enumVars_lookup_not_mem _ _ _ (fun hmem => hdisj hmem hw)
            have ha := (ih.1) argm ga s env
              ⟨names.entries ++ enumVars names.entries.length (lamVarsT s func gf)⟩
              hsa h2 hfresh2 nda f hfa
            simp only [buildNamesGo, hf, ha, hlv, enumVars_append]
            simp only [List.append_assoc, List.length_append, enumVars_length]
      | ctr name args =>
        cases g <;> simp [rel] at hr
        case ctr gname gargs =>
          obtain ⟨-, h2⟩ := hr
          cases fuel with
          | zero => simp [sizeT] at hfuel
          | succ f =>
            have hfl : sizeTList args ≤ f := by simp [sizeT] at hfuel; omega
            have hsl : 2 * sizeTList args + 1 ≤ bud := by simp [sizeT] at hs; omega
            have hlv : lamVarsT s (.ctr name args) (.ctr gname gargs) =
                lamVarsTList s args gargs := rfl
            rw [hlv] at hfresh hnd
            have hl := (ih.2) args gargs s env names hsl h2 hfresh hnd f hfl
            simp only [buildNamesGo]
            rw [hl, hlv]
      | fnc name args =>
        cases g <;> simp [rel] at hr
        case fnc gname gargs =>
          obtain ⟨-, h2⟩ := hr
          cases fuel with
          | zero => simp [sizeT] at hfuel
          | succ f =>
            have hfl : sizeTList args ≤ f := by simp [sizeT] at hfuel; omega
            have hsl : 2 * sizeTList args + 1 ≤ bud := by simp [sizeT] at hs; omega
            have hlv : lamVarsT s (.fnc name args) (.fnc gname gargs) =
                lamVarsTList s args gargs := rfl
            rw [hlv] at hfresh hnd
            have hl := (ih.2) args gargs s env names hsl h2 hfresh hnd f hfl
            simp only [buildNamesGo]
            rw [hl, hlv]
      | op2 oper val0 val1 =>
        cases g <;> simp [rel] at hr
        case op2 gop ga0 ga1 =>
          obtain ⟨-, h1, h2⟩ := hr
          cases fuel with
          | zero => simp [sizeT] at hfuel
          | succ f =>
            have hff : sizeT val0 ≤ f := by simp [sizeT] at hfuel; omega
            have hfa : sizeT val1 ≤ f := by simp [sizeT] at hfuel; omega
            have hsf : 2 * sizeT val0 ≤ bud := by simp [sizeT] at hs; omega
            have hsa : 2 * sizeT val1 ≤ bud := by simp [sizeT] at hs; omega
            have hlv : lamVarsT s (.op2 oper val0 val1) (.op2 gop ga0 ga1) =
                lamVarsT s val0 ga0 ++ lamVarsT s val1 ga1 := rfl
            rw [hlv] at hfresh hnd
            rw [List.nodup_append] at hnd
            obtain ⟨ndf, nda, hdisj⟩ := hnd
            have hf := (ih.1) val0 ga0 s env names hsf h1
              (fun w hw => hfresh w (List.mem_append_left _ hw)) ndf f hff
            have hfresh2 : ∀ w ∈ lamVarsT s val1 ga1,
                lookupUId (names.entries ++
                  enumVars names.entries.length (lamVarsT s val0 ga0)) (UId.varU w) = none := by
              intro w hw
              have hw2 := hfresh w (List.mem_append_right _ hw)
              rw [lookupUId_append_right _ _ _ hw2]
              exact enumVars_lookup_not_mem _ _ _ (fun hmem => hdisj hmem hw)
            have ha := (ih.1) val1 ga1 s env
              ⟨names.entries ++ enumVars names.entries.length (lamVarsT s val0 ga0)⟩
              hsa h2 hfresh2 nda f hfa
            simp only [buildNamesGo, hf, ha, hlv, enumVars_append]
            simp only [List.append_assoc, List.length_append, enumVars_length]
    · intro ts gs s env names hs hr hfresh hnd fuel hfuel
      cases ts with
      | nil =>
        cases gs <;> simp [relList] at hr
        simp [namesFold, lamVarsTList, enumVars]
      | cons t rest =>
        cases gs with
        | nil => simp [relList] at hr
        | cons g grest =>
          obtain ⟨h1, h2⟩ := hr
          have hpos := sizeT_pos t
          have hst : 2 * sizeT t ≤ bud := by simp [sizeTList] at hs; omega
          have hsr : 2 * sizeTList rest + 1 ≤ bud := by simp [sizeTList] at hs; omega
          have hft : sizeT t ≤ fuel := by simp [sizeTList] at hfuel; omega
          have hfr : sizeTList rest ≤ fuel := by simp [sizeTList] at hfuel; omega
          have hlv : lamVarsTList s (t :: rest) (g :: grest) =
              lamVarsT s t g ++ lamVarsTList s rest grest := rfl
          rw [hlv] at hfresh hnd
          rw [List.nodup_append] at hnd
          obtain ⟨ndf, nda, hdisj⟩ := hnd
          have hf := (ih.1) t g s env names hst h1
            (fun w hw => hfresh w (List.mem_append_left _ hw)) ndf fuel hft
          have hfresh2 : ∀ w ∈ lamVarsTList s rest grest,
              lookupUId (names.entries ++
                enumVars names.entries.length (lamVarsT s t g)) (UId.varU w) = none := by
            intro w hw
            have hw2 := hfresh w (List.mem_append_right _ hw)
            rw [lookupUId_append_right _ _ _ hw2]
            exact enumVars_lookup_not_mem _ _ _ (fun hmem => hdisj hmem hw)
          have ha := (ih.2) rest grest s env
            ⟨names.entries ++ enumVars names.entries.length (lamVarsT s t g)⟩
            hsr h2 hfresh2 nda fuel hfr
          simp only [namesFold, hf, ha, hlv, enumVars_append]
          simp only [List.append_assoc, List.length_append, enumVars_length]

theorem envLookup_mem_snd : ∀ (env : List (Name × Nat)) (x : Name) (v : Nat),
    envLookup env x = some v → v ∈ env.map Prod.snd := by
  intro env
  induction env with
  | nil => intro x v h; simp [envLookup] at h
  | cons p rest ih =>
    intro x v h
    obtain ⟨y, w⟩ := p
    rw [envLookup_cons] at h
    by_cases hy : y = x
    · rw [if_pos hy] at h
      simp at h
      simp [h]
    · rw [if_neg hy] at h
      simp [ih x v h]

theorem idx_correspond (N : NamesMap) : ∀ (env : List (Name × Nat)) (x : Name) (v : Nat),
    envLookup env x = some v →
    (∀ w, w ∈ env.map Prod.snd → (lookupUId N.entries (UId.varU w)).isSome = true) →
    (∀ w u, w ∈ env.map Prod.snd → u ∈ env.map Prod.snd →
      lookupUId N.entries (UId.varU w) = lookupUId N.entries (UId.varU u) → w = u) →
    (env.map Prod.snd).Nodup →
    ∃ i, idxOf x (env.map Prod.fst) = some i ∧
      idxOf (displayName N (UId.varU v))
        (env.map (fun p => displayName N (UId.varU p.2))) = some i := by
  intro env
  induction env with
  | nil => intro x v h; simp [envLookup] at h
  | cons p rest ih =>
    intro x v h hdef hinj hnd
    obtain ⟨y, w⟩ := p
    rw [envLookup_cons] at h
    by_cases hy : y = x
    · rw [if_pos hy] at h
      simp at h
      subst h
      subst hy
      exact ⟨0, by simp [idxOf], by simp [idxOf]⟩
    · rw [if_neg hy] at h
      have hvtail : v ∈ rest.map Prod.snd := envLookup_mem_snd rest x v h
      simp only [List.map_cons, List.nodup_cons] at hnd
      obtain ⟨hwni, hndr⟩ := hnd
      obtain ⟨i, hi1, hi2⟩ := ih x v h
        (fun u hu => hdef u (by simp only [List.map_cons, List.mem_cons]; exact Or.inr hu))
        (fun a b ha hb hab => hinj a b
          (by simp only [List.map_cons, List.mem_cons]; exact Or.inr ha)
          (by simp only [List.map_cons, List.mem_cons]; exact Or.inr hb) hab)
        hndr
      have hwv : ¬(w = v) := fun hh => hwni (hh ▸ hvtail)
      have hdh : ¬(displayName N (UId.varU w) = displayName N (UId.varU v)) := by
        intro hh
        unfold displayName at hh
        cases hw1 : lookupUId N.entries (UId.varU w) with
        | none =>
          have hq := hdef w (by simp)
          rw [hw1] at hq
          simp at hq
        | some n1 =>
          cases hv1 : lookupUId N.entries (UId.varU v) with
          | none =>
            have hq := hdef v (by simp only [List.map_cons, List.mem_cons]; exact Or.inr hvtail)
            rw [hv1] at hq
            simp at hq
          | some n2 =>
            rw [hw1, hv1] at hh
            simp at hh
            subst hh
            exact hwv (hinj w v (by simp)
              (by simp only [List.map_cons, List.mem_cons]; exact Or.inr hvtail)
              (hw1.trans hv1.symm))
      refine ⟨i + 1, ?_, ?_⟩
      · simp [idxOf, hy, hi1]
      · simp [idxOf, hdh, hi2]

theorem readback_spec_main : ∀ bud : Nat,
    (∀ t g s env N rst, 2 * sizeT t ≤ bud → rel s env t g → rst.store = s →
      (∀ w, w ∈ env.map Prod.snd ++ lamVarsT s t g →
        (lookupUId N.entries (UId.varU w)).isSome = true) →
      (∀ w u, w ∈ env.map Prod.snd ++ lamVarsT s t g →
        u ∈ env.map Prod.snd ++ lamVarsT s t g →
        lookupUId N.entries (UId.varU w) = lookupUId N.entries (UId.varU u) → w = u) →
      (env.map Prod.snd ++ lamVarsT s t g).Nodup →
      ∀ fuel, sizeT t ≤ fuel →
      ∃ t', readbackGo fuel N g rst = .ok (t', rst) ∧
        toDB (env.map (fun p => displayName N (UId.varU p.2))) t' =
          toDB (env.map Prod.fst) t) ∧
    (∀ ts gs s env N rst, 2 * sizeTList ts + 1 ≤ bud → relList s env ts gs → rst.store = s →
      (∀ w, w ∈ env.map Prod.snd ++ lamVarsTList s ts gs →
        (lookupUId N.entries (UId.varU w)).isSome = true) →
      (∀ w u, w ∈ env.map Prod.snd ++ lamVarsTList s ts gs →
        u ∈ env.map Prod.snd ++ lamVarsTList s ts gs →
        lookupUId N.entries (UId.varU w) = lookupUId N.entries (UId.varU u) → w = u) →
      (env.map Prod.snd ++ lamVarsTList s ts gs).Nodup →
      ∀ fuel, sizeTList ts ≤ fuel →
      ∃ ts', readFold (readbackGo fuel N) gs rst = .ok (ts', rst) ∧
        toDBList (env.map (fun p => displayName N (UId.varU p.2))) ts' =
          toDBList (env.map Prod.fst) ts) := by
  intro bud
  induction bud with
  | zero =>
    constructor
    · intro t g s env N rst hs
      have := sizeT_pos t
      omega
    · intro ts gs s env N rst hs
      omega
  | succ bud ih =>
    constructor
    · intro t g s env N rst hs hr hsts hdef hinj hnd fuel hfuel
      cases t with
      | var name =>
        cases g <;> simp [rel] at hr
        case var v =>
          cases fuel with
          | zero => simp [sizeT] at hfuel
          | succ f =>
            refine ⟨.var (displayName N (UId.varU v)), by simp [readbackGo], ?_⟩
            obtain ⟨i, hi1, hi2⟩ := idx_correspond N env name v hr
              (fun w hw => hdef w (List.mem_append_left _ hw))
              (fun w u hw hu => hinj w u (List.mem_append_left _ hw)
                (List.mem_append_left _ hu))
              ((List.nodup_append.mp hnd).1)
            simp [toDB, hi1, hi2]
      | dup nam0 nam1 expr body => cases g <;> simp [rel] at hr
      | num value =>
        cases g <;> simp [rel] at hr
        case num gvalue =>
          cases fuel with
          | zero => simp [sizeT] at hfuel
          | succ f =>
            subst hr
            exact ⟨.num value, by simp [readbackGo], by simp [toDB]⟩
      | lam x body =>
        cases g <;> simp [rel] at hr
        case lam l =>
          obtain ⟨hnil, v, b, hget, hrel⟩ := hr
          cases fuel with
          | zero => simp [sizeT] at hfuel
          | succ f =>
            have hfb : sizeT body ≤ f := by simp [sizeT] at hfuel; omega
            have hsb : 2 * sizeT body ≤ bud := by simp [sizeT] at hs; omega
            have hlv : lamVarsT s (.lam x body) (.lam l) = v :: lamVarsT s body b := by
              simp only [lamVarsT, hget]
              rfl
            rw [hlv] at hdef hinj hnd
            have hpm : (env.map Prod.snd ++ v :: lamVarsT s body b).Perm
                (v :: (env.map Prod.snd ++ lamVarsT s body b)) := List.perm_middle
            obtain ⟨B', hB1, hB2⟩ := (ih.1) body b s ((x, v) :: env) N rst hsb hrel hsts
              (fun w hw => hdef w (hpm.mem_iff.mpr hw))
              (fun w u hw hu => hinj w u (hpm.mem_iff.mpr hw) (hpm.mem_iff.mpr hu))
              (hpm.nodup hnd) f hfb
            have hgl : lamGet rst.store l = ⟨some v, b⟩ := by rw [hsts]; exact hget
            refine ⟨.lam (displayName N (UId.varU v)) B', ?_, ?_⟩
            · simp [readbackGo, hgl, hB1]
            · simp only [toDB]
              exact congrArg DB.lamD hB2
      | app func argm =>
        cases g <;> simp [rel] at hr
        case app gf ga =>
          obtain ⟨h1, h2⟩ := hr
          cases fuel with
          | zero => simp [sizeT] at hfuel
          | succ f =>
            have hff : sizeT func ≤ f := by simp [sizeT] at hfuel; omega
            have hfa : sizeT argm ≤ f := by simp [sizeT] at hfuel; omega
            have hsf : 2 * sizeT func ≤ bud := by simp [sizeT] at hs; omega
            have hsa : 2 * sizeT argm ≤ bud := by simp [sizeT] at hs; omega
            have hlv : lamVarsT s (.app func argm) (.app gf ga) =
                lamVarsT s func gf ++ lamVarsT s argm ga := rfl
            rw [hlv] at hdef hinj hnd
            have hsub1 : List.Sublist (env.map Prod.snd ++ lamVarsT s func gf) (env.map Prod.snd ++ (lamVarsT s func gf ++ lamVarsT s argm ga)) :=
              (List.sublist_append_left _ _).append_left _
            have hsub2 : List.Sublist (env.map Prod.snd ++ lamVarsT s argm ga) (env.map Prod.snd ++ (lamVarsT s func gf ++ lamVarsT s argm ga)) :=
              (List.sublist_append_right _ _).append_left _
            obtain ⟨F', hF1, hF2⟩ := (ih.1) func gf s env N rst hsf h1 hsts
              (fun w hw => hdef w (hsub1.subset hw))
              (fun w u hw hu => hinj w u (hsub1.subset hw) (hsub1.subset hu))
              (List.Nodup.sublist hsub1 hnd) f hff
            obtain ⟨A', hA1, hA2⟩ := (ih.1) argm ga s env N rst hsa h2 hsts
              (fun w hw => hdef w (hsub2.subset hw))
              (fun w u hw hu => hinj w u (hsub2.subset hw) (hsub2.subset hu))
              (List.Nodup.sublist hsub2 hnd) f hfa
            refine ⟨.app F' A', by simp [readbackGo, hF1, hA1], ?_⟩
            simp only [toDB]
            rw [hF2, hA2]
      | ctr name args =>
        cases g <;> simp [rel] at hr
        case ctr gname gargs =>
          obtain ⟨hn, h2⟩ := hr
          subst hn
          cases fuel with
          | zero => simp [sizeT] at hfuel
          | succ f =>
            have hfl : sizeTList args ≤ f := by simp [sizeT] at hfuel; omega
            have hsl : 2 * sizeTList args + 1 ≤ bud := by simp [sizeT] at hs; omega
            obtain ⟨ts', h1, hdb⟩ := (ih.2) args gargs s env N rst hsl h2 hsts hdef hinj hnd f hfl
            refine ⟨.ctr name ts', by simp [readbackGo, h1], ?_⟩
            simp only [toDB]
            rw [hdb]
      | fnc name args =>
        cases g <;> simp [rel] at hr
        case fnc gname gargs =>
          obtain ⟨hn, h2⟩ := hr
          subst hn
          cases fuel with
          | zero => simp [sizeT] at hfuel
          | succ f =>
            have hfl : sizeTList args ≤ f := by simp [sizeT] at hfuel; omega
            have hsl : 2 * sizeTList args + 1 ≤ bud := by simp [sizeT] at hs; omega
            obtain ⟨ts', h1, hdb⟩ := (ih.2) args gargs s env N rst hsl h2 hsts hdef hinj hnd f hfl
            refine ⟨.fnc name ts', by simp [readbackGo, h1], ?_⟩
            simp only [toDB]
            rw [hdb]
      | op2 oper val0 val1 =>
        cases g <;> simp [rel] at hr
        case op2 gop ga0 ga1 =>
          obtain ⟨ho, h1, h2⟩ := hr
          subst ho
          cases fuel with
          | zero => simp [sizeT] at hfuel
          | succ f =>
            have hff : sizeT val0 ≤ f := by simp [sizeT] at hfuel; omega
            have hfa : sizeT val1 ≤ f := by simp [sizeT] at hfuel; omega
            have hsf : 2 * sizeT val0 ≤ bud := by simp [sizeT] at hs; omega
            have hsa : 2 * sizeT val1 ≤ bud := by simp [sizeT] at hs; omega
            have hlv : lamVarsT s (.op2 oper val0 val1) (.op2 oper ga0 ga1) =
                lamVarsT s val0 ga0 ++ lamVarsT s val1 ga1 := rfl
            rw [hlv] at hdef hinj hnd
            have hsub1 : List.Sublist (env.map Prod.snd ++ lamVarsT s val0 ga0) (env.map Prod.snd ++ (lamVarsT s val0 ga0 ++ lamVarsT s val1 ga1)) :=
              (List.sublist_append_left _ _).append_left _
            have hsub2 : List.Sublist (env.map Prod.snd ++ lamVarsT s val1 ga1) (env.map Prod.snd ++ (lamVarsT s val0 ga0 ++ lamVarsT s val1 ga1)) :=
              (List.sublist_append_right _ _).append_left _
            obtain ⟨F', hF1, hF2⟩ := (ih.1) val0 ga0 s env N rst hsf h1 hsts
              (fun w hw => hdef w (hsub1.subset hw))
              (fun w u hw hu => hinj w u (hsub1.subset hw) (hsub1.subset hu))
              (List.Nodup.sublist hsub1 hnd) f hff
            obtain ⟨A', hA1, hA2⟩ := (ih.1) val1 ga1 s env N rst hsa h2 hsts
              (fun w hw => hdef w (hsub2.subset hw))
              (fun w u hw hu => hinj w u (hsub2.subset hw) (hsub2.subset hu))
              (List.Nodup.sublist hsub2 hnd) f hfa
            refine ⟨.op2 oper F' A', by simp [readbackGo, hF1, hA1], ?_⟩
            simp only [toDB]
            rw [hF2, hA2]
    · intro ts gs s env N rst hs hr hsts hdef hinj hnd fuel hfuel
      cases ts with
      | nil =>
        cases gs <;> simp [relList] at hr
        exact ⟨[], by simp [readFold], by simp [toDBList]⟩
      | cons t rest =>
        cases gs with
        | nil => simp [relList] at hr
        | cons g grest =>
          obtain ⟨h1, h2⟩ := hr
          have hpos := sizeT_pos t
          have hst : 2 * sizeT t ≤ bud := by simp [sizeTList] at hs; omega
          have hsr : 2 * sizeTList rest + 1 ≤ bud := by simp [sizeTList] at hs; omega
          have hft : sizeT t ≤ fuel := by simp [sizeTList] at hfuel; omega
          have hfr : sizeTList rest ≤ fuel := by simp [sizeTList] at hfuel; omega
          have hlv : lamVarsTList s (t :: rest) (g :: grest) =
              lamVarsT s t g ++ lamVarsTList s rest grest := rfl
          rw [hlv] at hdef hinj hnd
          have hsub1 : List.Sublist (env.map Prod.snd ++ lamVarsT s t g) (env.map Prod.snd ++ (lamVarsT s t g ++ lamVarsTList s rest grest)) :=
            (List.sublist_append_left _ _).append_left _
          have hsub2 : List.Sublist (env.map Prod.snd ++ lamVarsTList s rest grest) (env.map Prod.snd ++ (lamVarsT s t g ++ lamVarsTList s rest grest)) :=
            (List.sublist_append_right _ _).append_left _
          obtain ⟨F', hF1, hF2⟩ := (ih.1) t g s env N rst hst h1 hsts
            (fun w hw => hdef w (hsub1.subset hw))
            (fun w u hw hu => hinj w u (hsub1.subset hw) (hsub1.subset hu))
            (List.Nodup.sublist hsub1 hnd) fuel hft
          obtain ⟨R', hR1, hR2⟩ := (ih.2) rest grest s env N rst hsr h2 hsts
            (fun w hw => hdef w (hsub2.subset hw))
            (fun w u hw hu => hinj w u (hsub2.subset hw) (hsub2.subset hu))
            (List.Nodup.sublist hsub2 hnd) fuel hfr
          refine ⟨F' :: R', by simp [readFold, hF1, hR1], ?_⟩
          simp only [toDBList]
          rw [hF2, hR2]

/-- C1: for a `Dup`-free term with non-`NONE`, pairwise-distinct binder
names, every variable lexically bound, on which `create_term` succeeds,
`readback` of the built graph succeeds and returns a term equal to the
input up to the canonical renaming of bound variables (de Bruijn
comparison). -/
theorem c1_roundtrip (t : Term) (root : TermNode) (s : Store)
    (hnd : noDupC t = true) (hnf : nilFreeB t = true)
    (hsc : lexScoped [] t = true) (hnodup : (lamNames t).Nodup)
    (hct : createTerm t = .ok (root, s)) :
    ∃ t', readback (sizeT t) s root = .ok t' ∧ toDB [] t' = toDB [] t := by
  have hgo : ∃ st', createTermGo t initCSt = .ok (root, st') ∧ st'.store = s := by
    cases hce : createTermGo t initCSt with
    | error e => simp [createTerm, hce] at hct
    | ok p =>
      obtain ⟨g, st'⟩ := p
      simp [createTerm, hce] at hct
      exact ⟨st', by rw [hct.1], hct.2⟩
  obtain ⟨st', hce, hss⟩ := hgo
  have hh : soundHyps t initCSt [] := by
    refine ⟨hnd, hnf, by simpa using hsc, ?_, hnodup, ?_⟩
    · intro y hy
      exact ⟨rfl, rfl⟩
    · intro x v hv
      simp [envLookup] at hv
  have hconcl := (createTermGo_sound_main (2 * sizeT t)).1 t initCSt [] root st'
    (le_refl _) hce hh
  obtain ⟨hrel, _, _, _, _, _, hvb, hvnd⟩ := hconcl
  rw [hss] at hrel hvnd
  have hbn := (buildNames_spec_main (2 * sizeT t)).1 t root s [] ⟨[]⟩
    (le_refl _) hrel (fun v _ => rfl) hvnd (sizeT t) (le_refl _)
  simp only [List.nil_append, List.length_nil] at hbn
  have hdef : ∀ w, w ∈ ([] : List (Name × Nat)).map Prod.snd ++ lamVarsT s t root →
      (lookupUId (enumVars 0 (lamVarsT s t root)) (UId.varU w)).isSome = true := by
    intro w hw
    simp only [List.map_nil, List.nil_append] at hw
    exact enumVars_lookup_mem _ 0 w hw
  have hinj : ∀ w u, w ∈ ([] : List (Name × Nat)).map Prod.snd ++ lamVarsT s t root →
      u ∈ ([] : List (Name × Nat)).map Prod.snd ++ lamVarsT s t root →
      lookupUId (enumVars 0 (lamVarsT s t root)) (UId.varU w) =
        lookupUId (enumVars 0 (lamVarsT s t root)) (UId.varU u) → w = u := by
    intro w u hw hu heq
    simp only [List.map_nil, List.nil_append] at hw hu
    have h1 := enumVars_lookup_mem _ 0 w hw
    obtain ⟨m, hm⟩ := Option.isSome_iff_exists.mp h1
    exact enumVars_lookup_inj _ 0 w u m hvnd hm (heq ▸ hm)
  have hrb := (readback_spec_main (2 * sizeT t)).1 t root s [] ⟨enumVars 0 (lamVarsT s t root)⟩
    ⟨s, ⟨[]⟩⟩ (le_refl _) hrel rfl hdef hinj (by simpa using hvnd) (sizeT t) (le_refl _)
  obtain ⟨t', hrb1, hrb2⟩ := hrb
  refine ⟨t', ?_, by simpa using hrb2⟩
  simp only [readback, hbn, hrb1]

theorem c1_witness :
    noDupC c1T = true ∧ nilFreeB c1T = true ∧ lexScoped [] c1T = true ∧
      (lamNames c1T).Nodup ∧ createTerm c1T = .ok (c1Root, c1Store) ∧
      ∃ t', readback (sizeT c1T) c1Store c1Root = .ok t' ∧ toDB [] t' = toDB [] c1T :=
  ⟨rfl, rfl, rfl, by decide, rfl,
    c1_roundtrip c1T c1Root c1Store rfl rfl rfl (by decide) rfl⟩

/-- C1 counterexample to the unrestricted claim: `c1Bad` contains no
`Dup`, yet the round trip yields a term in which both (distinct) bound
variables have collapsed onto the `"___"` sentinel, so the result is not
equal to the input under any consistent renaming of bound variables (the
de Bruijn images differ): the Namer never enters the body of a lambda
whose binder is unused. -/
theorem c1_unused_binder_not_alpha :
    noDupC c1Bad = true ∧
      roundtrip (sizeT c1Bad) c1Bad =
        .ok (.lam .nil (.lam .wut (.lam .wut (.app (.var .wut) (.var .wut))))) ∧
      ¬ toDB [] (Term.lam .nil (.lam .wut (.lam .wut (.app (.var .wut) (.var .wut))))) =
        toDB [] c1Bad :=
  ⟨rfl, rfl, by simp [c1Bad, toDB, idxOf]⟩

theorem envLookup_append_some (env e2 : List (Name × Nat)) (x : Name) (v : Nat)
    (h : envLookup env x = some v) : envLookup (env ++ e2) x = some v := by
  induction env with
  | nil => simp [envLookup] at h
  | cons p rest ih =>
    obtain ⟨y, w⟩ := p
    simp only [envLookup, List.cons_append] at h ⊢
    by_cases hy : y = x
    · rwa [if_pos hy] at h ⊢
    · rw [if_neg hy] at h ⊢
      exact ih h

theorem envLookup_append_last_ne (e1 : List (Name × Nat)) (x name : Name) (v w : Nat)
    (h : envLookup (e1 ++ [(x, v)]) name = some w) (hne : ¬(name = x)) :
    envLookup e1 name = some w := by
  induction e1 with
  | nil =>
    simp only [List.nil_append, envLookup] at h
    rw [if_neg (fun hh => hne hh.symm)] at h
    exact absurd h (by simp)
  | cons p rest ih =>
    obtain ⟨y, u⟩ := p
    simp only [envLookup, List.cons_append] at h ⊢
    by_cases hy : y = name
    · rwa [if_pos hy] at h ⊢
    · rw [if_neg hy] at h ⊢
      exact ih h

theorem rel_env_append_main : ∀ bud : Nat,
    (∀ t g s env e2, 2 * sizeT t ≤ bud → rel s env t g → rel s (env ++ e2) t g) ∧
    (∀ ts gs s env e2, 2 * sizeTList ts + 1 ≤ bud → relList s env ts gs →
      relList s (env ++ e2) ts gs) := by
  intro bud
  induction bud with
  | zero =>
    constructor
    · intro t g s env e2 hs
      have := sizeT_pos t
      omega
    · intro ts gs s env e2 hs
      omega
  | succ bud ih =>
    constructor
    · intro t g s env e2 hs hr
      cases t with
      | var name =>
        cases g <;> simp [rel] at hr ⊢
        case var v => exact envLookup_append_some _ _ _ _ hr
      | dup nam0 nam1 expr body => cases g <;> simp [rel] at hr
      | num value => cases g <;> simp [rel] at hr ⊢; exact hr
      | lam x body =>
        cases g <;> simp [rel] at hr ⊢
        case lam l =>
          obtain ⟨hnil, v, b, hget, hrel⟩ := hr
          exact ⟨hnil, v, b, hget,
            (ih.1) body b s ((x, v) :: env) e2 (by simp [sizeT] at hs; omega) hrel⟩
      | app func argm =>
        cases g <;> simp [rel] at hr ⊢
        case app gf ga =>
          exact ⟨(ih.1) func gf s env e2 (by simp [sizeT] at hs; omega) hr.1,
            (ih.1) argm ga s env e2 (by simp [sizeT] at hs; omega) hr.2⟩
      | ctr name args =>
        cases g <;> simp [rel] at hr ⊢
        case ctr gname gargs =>
          exact ⟨hr.1, (ih.2) args gargs s env e2 (by simp [sizeT] at hs; omega) hr.2⟩
      | fnc name args =>
        cases g <;> simp [rel] at hr ⊢
        case fnc gname gargs =>
          exact ⟨hr.1, (ih.2) args gargs s env e2 (by simp [sizeT] at hs; omega) hr.2⟩
      | op2 oper val0 val1 =>
        cases g <;> simp [rel] at hr ⊢
        case op2 gop ga0 ga1 =>
          exact ⟨hr.1, (ih.1) val0 ga0 s env e2 (by simp [sizeT] at hs; omega) hr.2.1,
            (ih.1) val1 ga1 s env e2 (by simp [sizeT] at hs; omega) hr.2.2⟩
    · intro ts gs s env e2 hs hr
      cases ts with
      | nil => cases gs <;> simp [relList] at hr ⊢
      | cons t rest =>
        cases gs with
        | nil => simp [relList] at hr
        | cons g grest =>
          have := sizeT_pos t
          exact ⟨(ih.1) t g s env e2 (by simp [sizeTList] at hs; omega) hr.1,
            (ih.2) rest grest s env e2 (by simp [sizeTList] at hs; omega) hr.2⟩

theorem perm_shuffle (A S B : List Nat) : ((A ++ S) ++ B).Perm ((A ++ B) ++ S) := by
  rw [List.append_assoc, List.append_assoc]
  exact List.Perm.append_left A (List.perm_append_comm)

theorem splice_append_perm (F A T : List Nat) (cf ca : Nat) (h : cf + ca ≤ 1) :
    ((F ++ spliceIf cf T) ++ (A ++ spliceIf ca T)).Perm
      ((F ++ A) ++ spliceIf (cf + ca) T) := by
  by_cases hcf : cf = 0
  · subst hcf
    simp only [spliceIf, if_pos rfl, List.nil_append, Nat.zero_add, List.append_assoc]
    exact List.Perm.refl _
  · have hca : ca = 0 := by omega
    subst hca
    have hc1 : ¬(cf + 0 = 0) := by omega
    simp only [spliceIf, hcf, hc1, if_false, List.append_nil, reduceIte]
    exact perm_shuffle F T A

theorem envLookup_append_of_not_mem (e1 e2 : List (Name × Nat)) (x : Name)
    (h : x ∉ e1.map Prod.fst) : envLookup (e1 ++ e2) x = envLookup e2 x := by
  induction e1 with
  | nil => rfl
  | cons p rest ih =>
    obtain ⟨y, u⟩ := p
    simp only [List.map_cons, List.mem_cons] at h
    push_neg at h
    simp only [List.cons_append, envLookup]
    rw [if_neg (fun hy => h.1 hy.symm)]
    exact ih h.2

theorem substG_sound_main : ∀ bud : Nat,
    (∀ body g s e1 x v argT ga, 2 * sizeT body ≤ bud →
      rel s (e1 ++ [(x, v)]) body g →
      x ∉ lamNames body →
      x ∉ e1.map Prod.fst →
      v ∉ e1.map Prod.snd →
      v ∉ lamVarsT s body g →
      rel s [] argT ga →
      (∀ l, l ∈ lamIdsT s body g → l ∉ lamIdsT s argT ga) →
      (lamIdsT s body g).Nodup →
      (∀ l, l ∈ lamIdsT s body g → l < s.lams.length) →
      countOcc x body ≤ 1 →
      ∀ fuel, sizeT body ≤ fuel →
      ∃ g' s', substG fuel v ga g s = some (g', s') ∧
        rel s' e1 (substS x argT body) g' ∧
        s'.vars = s.vars ∧ s'.dups = s.dups ∧ s'.lams.length = s.lams.length ∧
        (∀ l, l ∉ lamIdsT s body g → lamGet s' l = lamGet s l) ∧
        (lamIdsT s' (substS x argT body) g').Perm
          (lamIdsT s body g ++ spliceIf (countOcc x body) (lamIdsT s argT ga)) ∧
        (lamVarsT s' (substS x argT body) g').Perm
          (lamVarsT s body g ++ spliceIf (countOcc x body) (lamVarsT s argT ga))) ∧
    (∀ ts gs s e1 x v argT ga, 2 * sizeTList ts + 1 ≤ bud →
      relList s (e1 ++ [(x, v)]) ts gs →
      x ∉ lamNamesList ts →
      x ∉ e1.map Prod.fst →
      v ∉ e1.map Prod.snd →
      v ∉ lamVarsTList s ts gs →
      rel s [] argT ga →
      (∀ l, l ∈ lamIdsTList s ts gs → l ∉ lamIdsT s argT ga) →
      (lamIdsTList s ts gs).Nodup →
      (∀ l, l ∈ lamIdsTList s ts gs → l < s.lams.length) →
      countOccList x ts ≤ 1 →
      ∀ fuel, sizeTList ts ≤ fuel →
      ∃ gs' s', substFold (substG fuel v ga) gs s = some (gs', s') ∧
        relList s' e1 (substSList x argT ts) gs' ∧
        s'.vars = s.vars ∧ s'.dups = s.dups ∧ s'.lams.length = s.lams.length ∧
        (∀ l, l ∉ lamIdsTList s ts gs → lamGet s' l = lamGet s l) ∧
        (lamIdsTList s' (substSList x argT ts) gs').Perm
          (lamIdsTList s ts gs ++ spliceIf (countOccList x ts) (lamIdsT s argT ga)) ∧
        (lamVarsTList s' (substSList x argT ts) gs').Perm
          (lamVarsTList s ts gs ++ spliceIf (countOccList x ts) (lamVarsT s argT ga))) := by
  intro bud
  induction bud with
  | zero =>
    constructor
    · intro body g s e1 x v argT ga hs
      have := sizeT_pos body
      omega
    · intro ts gs s e1 x v argT ga hs
      omega
  | succ bud ih =>
    constructor
    · intro body g s e1 x v argT ga hs hr hxb hxe hve hvv harg hdisj hndI hbnd hcnt fuel hfuel
      cases body with
      | var name =>
        cases g <;> simp [rel] at hr
        case var w =>
          cases fuel with
          | zero => simp [sizeT] at hfuel
          | succ f =>
            by_cases hx : name = x
            · subst hx
              have hlk : envLookup (e1 ++ [(name, v)]) name = some v := by
                rw [envLookup_append_of_not_mem e1 _ name hxe]
                simp [envLookup]
              have hw : w = v := by
                rw [hr] at hlk
                exact Option.some.injEq _ _ ▸ hlk
              subst hw
              refine ⟨ga, s, by simp [substG], ?_, rfl, rfl, rfl, fun l _ => rfl, ?_, ?_⟩
              · have hap := (rel_env_append_main (2 * sizeT argT)).1 argT ga s [] e1
                  (le_refl _) harg
                have hss : substS name argT (Term.var name) = argT := by
                  show (if name = name then argT else Term.var name) = argT
                  rw [if_pos rfl]
                rw [hss]
                simpa using hap
              · simp [substS, lamIdsT, countOcc, spliceIf]
              · simp [substS, lamVarsT, countOcc, spliceIf]
            · have hw : envLookup e1 name = some w :=
                envLookup_append_last_ne e1 x name v w hr hx
              have hwv : ¬(w = v) := by
                intro hh
                subst hh
                exact hve (envLookup_mem_snd e1 name w hw)
              refine ⟨.var w, s, by simp [substG, hwv], ?_, rfl, rfl, rfl,
                fun l _ => rfl, ?_, ?_⟩
              · simp [substS, hx, rel, hw]
              · simp [substS, hx, lamIdsT, countOcc, spliceIf]
              · simp [substS, hx, lamVarsT, countOcc, spliceIf]
      | dup nam0 nam1 expr bdy => cases g <;> simp [rel] at hr
      | num value =>
        cases g <;> simp [rel] at hr
        case num gvalue =>
          cases fuel with
          | zero => simp [sizeT] at hfuel
          | succ f =>
            subst hr
            refine ⟨.num value, s, by simp [substG], by simp [substS, rel], rfl, rfl, rfl,
              fun l _ => rfl, ?_, ?_⟩
            · simp [substS, lamIdsT, countOcc, spliceIf]
            · simp [substS, lamVarsT, countOcc, spliceIf]
      | lam name inner =>
        cases g <;> simp [rel] at hr
        case lam l =>
          obtain ⟨hnil, w, b, hget, hrel⟩ := hr
          cases fuel with
          | zero => simp [sizeT] at hfuel
          | succ f =>
            simp only [lamNames, List.mem_cons] at hxb
            push_neg at hxb
            obtain ⟨hnx, hxb'⟩ := hxb
            have hlv : lamVarsT s (.lam name inner) (.lam l) = w :: lamVarsT s inner b := by
              simp [lamVarsT, hget]
            have hli : lamIdsT s (.lam name inner) (.lam l) = l :: lamIdsT s inner b := by
              simp [lamIdsT, hget]
            rw [hlv] at hvv
            rw [hli] at hdisj hndI hbnd
            simp only [List.mem_cons] at hvv
            push_neg at hvv
            obtain ⟨hvw, hvv'⟩ := hvv
            rw [List.nodup_cons] at hndI
            obtain ⟨hlnotin, hndI'⟩ := hndI
            have hsb : 2 * sizeT inner ≤ bud := by simp [sizeT] at hs; omega
            have hfb : sizeT inner ≤ f := by simp [sizeT] at hfuel; omega
            obtain ⟨b', s1, hsub, hrelb, hv1, hd1, hl1, hfr1, hpi, hpv⟩ :=
              (ih.1) inner b s ((name, w) :: e1) x v argT ga hsb hrel hxb'
                (by
                  intro hmem
                  rcases List.mem_cons.mp hmem with hh | hh
                  · exact hnx hh
                  · exact hxe hh)
                (by
                  intro hmem
                  rcases List.mem_cons.mp hmem with hh | hh
                  · exact hvw hh
                  · exact hve hh)
                hvv' harg (fun l' hl' => hdisj l' (List.mem_cons_of_mem _ hl'))
                hndI' (fun l' hl' => hbnd l' (List.mem_cons_of_mem _ hl')) hcnt f hfb
            have hlbnd : l < s.lams.length := hbnd l (List.mem_cons_self _ _)
            have hgl1 : lamGet s1 l = ⟨some w, b⟩ := by
              rw [hfr1 l hlnotin, hget]
            have hstep : substG (f + 1) v ga (.lam l) s =
                some (.lam l, storeSetLam l { lamGet s1 l with body := b' } s1) := by
              simp [substG, hget, hsub]
            have hgl' : lamGet (storeSetLam l { lamGet s1 l with body := b' } s1) l =
                ⟨some w, b'⟩ := by
              simp only [storeSetLam, lamGet]
              rw [getD_set_self _ _ _ _ (by rw [hl1]; exact hlbnd)]
              rw [show s1.lams.getD l { var := none, body := placeholder } =
                ({ var := some w, body := b } : LamNode) from hgl1]
            have hglne : ∀ l', ¬(l' = l) →
                lamGet (storeSetLam l { lamGet s1 l with body := b' } s1) l' =
                  lamGet s1 l' := by
              intro l' hl'
              simp only [storeSetLam, lamGet]
              rw [getD_set_ne _ _ _ _ _ hl']
            have hresnotin : l ∉ lamIdsT s1 (substS x argT inner) b' := by
              intro hmem
              rcases List.mem_append.mp (hpi.mem_iff.mp hmem) with h1 | h2
              · exact hlnotin h1
              · have : l ∈ lamIdsT s argT ga := by
                  by_cases hc : countOcc x inner = 0 <;> simp [spliceIf, hc] at h2
                  exact h2
                exact hdisj l (List.mem_cons_self _ _) this
            have hagree : ∀ l', l' ∈ lamIdsT s1 (substS x argT inner) b' →
                lamGet (storeSetLam l { lamGet s1 l with body := b' } s1) l' =
                  lamGet s1 l' := by
              intro l' hl'
              exact hglne l' (fun hh => hresnotin (hh ▸ hl'))
            obtain ⟨hrelb', hideq, hvareq⟩ :=
              (rel_mono_main (2 * sizeT (substS x argT inner))).1 (substS x argT inner) b'
                s1 (storeSetLam l { lamGet s1 l with body := b' } s1) ((name, w) :: e1)
                (le_refl _) hrelb hagree
            have hsl : substS x argT (.lam name inner) =
                .lam name (substS x argT inner) := by
              simp [substS, show ¬(name = x) from fun hh => hnx hh.symm]
            refine ⟨.lam l, storeSetLam l { lamGet s1 l with body := b' } s1, hstep,
              ?_, ?_, ?_, ?_, ?_, ?_, ?_⟩
            · rw [hsl]
              exact ⟨hnil, w, b', hgl', hrelb'⟩
            · simp [storeSetLam, hv1]
            · simp [storeSetLam, hd1]
            · simp [storeSetLam, length_set, hl1]
            · intro l' hl'
              rw [hli] at hl'
              simp only [List.mem_cons] at hl'
              push_neg at hl'
              rw [hglne l' hl'.1]
              exact hfr1 l' hl'.2
            · rw [hsl, hli]
              have hids : lamIdsT (storeSetLam l { lamGet s1 l with body := b' } s1)
                  (.lam name (substS x argT inner)) (.lam l) =
                  l :: lamIdsT s1 (substS x argT inner) b' := by
                simp [lamIdsT, hgl', hideq]
              rw [hids]
              simp only [countOcc]
              rw [List.cons_append]
              exact hpi.cons l
            · rw [hsl, hlv]
              have hvars : lamVarsT (storeSetLam l { lamGet s1 l with body := b' } s1)
                  (.lam name (substS x argT inner)) (.lam l) =
                  w :: lamVarsT s1 (substS x argT inner) b' := by
                simp [lamVarsT, hgl', hvareq]
              rw [hvars]
              simp only [countOcc]
              rw [List.cons_append]
              exact hpv.cons w
      | app func argm =>
        cases g <;> simp [rel] at hr
        case app gf ga2 =>
          obtain ⟨h1, h2⟩ := hr
          cases fuel with
          | zero => simp [sizeT] at hfuel
          | succ f =>
            simp only [lamNames, List.mem_append] at hxb
            push_neg at hxb
            have hliA : lamIdsT s (.app func argm) (.app gf ga2) =
                lamIdsT s func gf ++ lamIdsT s argm ga2 := rfl
            have hlvA : lamVarsT s (.app func argm) (.app gf ga2) =
                lamVarsT s func gf ++ lamVarsT s argm ga2 := rfl
            rw [hliA] at hdisj hndI hbnd
            rw [hlvA] at hvv
            simp only [List.mem_append] at hvv
            push_neg at hvv
            rw [List.nodup_append] at hndI
            obtain ⟨hndF, hndA, hdisjFA⟩ := hndI
            have hsf : 2 * sizeT func ≤ bud := by simp [sizeT] at hs; omega
            have hsa : 2 * sizeT argm ≤ bud := by simp [sizeT] at hs; omega
            have hff : sizeT func ≤ f := by simp [sizeT] at hfuel; omega
            have hfa : sizeT argm ≤ f := by simp [sizeT] at hfuel; omega
            have hcf : countOcc x func ≤ 1 := by simp [countOcc] at hcnt; omega
            have hca : countOcc x argm ≤ 1 := by simp [countOcc] at hcnt; omega
            obtain ⟨f', s1, hsubF, hrelF, hv1, hd1, hl1, hfr1, hpiF, hpvF⟩ :=
              (ih.1) func gf s e1 x v argT ga hsf h1 hxb.1 hxe hve hvv.1 harg
                (fun l' hl' => hdisj l' (List.mem_append_left _ hl'))
                hndF (fun l' hl' => hbnd l' (List.mem_append_left _ hl')) hcf f hff
            obtain ⟨hrelA1, hidA1, hvarA1⟩ :=
              (rel_mono_main (2 * sizeT argm)).1 argm ga2 s s1 (e1 ++ [(x, v)])
                (le_refl _) h2
                (fun l' hl' => hfr1 l' (fun hf => hdisjFA hf hl'))
            obtain ⟨hargT1, hidT1, hvarT1⟩ :=
              (rel_mono_main (2 * sizeT argT)).1 argT ga s s1 []
                (le_refl _) harg
                (fun l' hl' => hfr1 l'
                  (fun hf => hdisj l' (List.mem_append_left _ hf) hl'))
            obtain ⟨a', s2, hsubA, hrelA, hv2, hd2, hl2, hfr2, hpiA, hpvA⟩ :=
              (ih.1) argm ga2 s1 e1 x v argT ga hsa hrelA1 hxb.2 hxe hve
                (by rw [hvarA1]; exact hvv.2) hargT1
                (by rw [hidA1, hidT1]
                    exact fun l' hl' => hdisj l' (List.mem_append_right _ hl'))
                (by rw [hidA1]; exact hndA)
                (by rw [hidA1, hl1]
                    exact fun l' hl' => hbnd l' (List.mem_append_right _ hl'))
                hca f hfa
            rw [hidA1] at hpiA
            rw [hidT1] at hpiA
            rw [hvarA1] at hpvA
            rw [hvarT1] at hpvA
            have hagreeF : ∀ l', l' ∈ lamIdsT s1 (substS x argT func) f' →
                lamGet s2 l' = lamGet s1 l' := by
              intro l' hl'
              apply hfr2
              rw [hidA1]
              rcases List.mem_append.mp (hpiF.mem_iff.mp hl') with hmF | hmT
              · exact fun hA => hdisjFA hmF hA
              · have hT : l' ∈ lamIdsT s argT ga := by
                  by_cases hc : countOcc x func = 0 <;> simp [spliceIf, hc] at hmT
                  exact hmT
                exact fun hA => hdisj l' (List.mem_append_right _ hA) hT
            obtain ⟨hrelF', hidF', hvarF'⟩ :=
              (rel_mono_main (2 * sizeT (substS x argT func))).1 (substS x argT func) f'
                s1 s2 e1 (le_refl _) hrelF hagreeF
            refine ⟨.app f' a', s2, by simp [substG, hsubF, hsubA], ⟨hrelF', hrelA⟩,
              by rw [hv2, hv1], by rw [hd2, hd1], by rw [hl2, hl1], ?_, ?_, ?_⟩
            · intro l' hl'
              rw [hliA] at hl'
              simp only [List.mem_append] at hl'
              push_neg at hl'
              rw [hfr2 l' (by rw [hidA1]; exact hl'.2)]
              exact hfr1 l' hl'.1
            · have heq : lamIdsT s2 (substS x argT (.app func argm)) (.app f' a') =
                  lamIdsT s1 (substS x argT func) f' ++
                    lamIdsT s2 (substS x argT argm) a' := by
                simp [substS, lamIdsT, hidF']
              rw [heq, hliA]
              simp only [countOcc]
              exact (hpiF.append hpiA).trans
                (splice_append_perm _ _ _ _ _ hcnt)
            · have heq : lamVarsT s2 (substS x argT (.app func argm)) (.app f' a') =
                  lamVarsT s1 (substS x argT func) f' ++
                    lamVarsT s2 (substS x argT argm) a' := by
                simp [substS, lamVarsT, hvarF']
              rw [heq, hlvA]
              simp only [countOcc]
              exact (hpvF.append hpvA).trans
                (splice_append_perm _ _ _ _ _ hcnt)
      | op2 oper val0 val1 =>
        cases g <;> simp [rel] at hr
        case op2 gop ga0 ga1 =>
          obtain ⟨hop, h1, h2⟩ := hr
          subst hop
          cases fuel with
          | zero => simp [sizeT] at hfuel
          | succ f =>
            simp only [lamNames, List.mem_append] at hxb
            push_neg at hxb
            have hliA : lamIdsT s (.op2 oper val0 val1) (.op2 oper ga0 ga1) =
                lamIdsT s val0 ga0 ++ lamIdsT s val1 ga1 := rfl
            have hlvA : lamVarsT s (.op2 oper val0 val1) (.op2 oper ga0 ga1) =
                lamVarsT s val0 ga0 ++ lamVarsT s val1 ga1 := rfl
            rw [hliA] at hdisj hndI hbnd
            rw [hlvA] at hvv
            simp only [List.mem_append] at hvv
            push_neg at hvv
            rw [List.nodup_append] at hndI
            obtain ⟨hndF, hndA, hdisjFA⟩ := hndI
            have hsf : 2 * sizeT val0 ≤ bud := by simp [sizeT] at hs; omega
            have hsa : 2 * sizeT val1 ≤ bud := by simp [sizeT] at hs; omega
            have hff : sizeT val0 ≤ f := by simp [sizeT] at hfuel; omega
            have hfa : sizeT val1 ≤ f := by simp [sizeT] at hfuel; omega
            have hcf : countOcc x val0 ≤ 1 := by simp [countOcc] at hcnt; omega
            have hca : countOcc x val1 ≤ 1 := by simp [countOcc] at hcnt; omega
            obtain ⟨f', s1, hsubF, hrelF, hv1, hd1, hl1, hfr1, hpiF, hpvF⟩ :=
              (ih.1) val0 ga0 s e1 x v argT ga hsf h1 hxb.1 hxe hve hvv.1 harg
                (fun l' hl' => hdisj l' (List.mem_append_left _ hl'))
                hndF (fun l' hl' => hbnd l' (List.mem_append_left _ hl')) hcf f hff
            obtain ⟨hrelA1, hidA1, hvarA1⟩ :=
              (rel_mono_main (2 * sizeT val1)).1 val1 ga1 s s1 (e1 ++ [(x, v)])
                (le_refl _) h2
                (fun l' hl' => hfr1 l' (fun hf => hdisjFA hf hl'))
            obtain ⟨hargT1, hidT1, hvarT1⟩ :=
              (rel_mono_main (2 * sizeT argT)).1 argT ga s s1 []
                (le_refl _) harg
                (fun l' hl' => hfr1 l'
                  (fun hf => hdisj l' (List.mem_append_left _ hf) hl'))
            obtain ⟨a', s2, hsubA, hrelA, hv2, hd2, hl2, hfr2, hpiA, hpvA⟩ :=
              (ih.1) val1 ga1 s1 e1 x v argT ga hsa hrelA1 hxb.2 hxe hve
                (by rw [hvarA1]; exact hvv.2) hargT1
                (by rw [hidA1, hidT1]
                    exact fun l' hl' => hdisj l' (List.mem_append_right _ hl'))
                (by rw [hidA1]; exact hndA)
                (by rw [hidA1, hl1]
                    exact fun l' hl' => hbnd l' (List.mem_append_right _ hl'))
                hca f hfa
            rw [hidA1] at hpiA
            rw [hidT1] at hpiA
            rw [hvarA1] at hpvA
            rw [hvarT1] at hpvA
            have hagreeF : ∀ l', l' ∈ lamIdsT s1 (substS x argT val0) f' →
                lamGet s2 l' = lamGet s1 l' := by
              intro l' hl'
              apply hfr2
              rw [hidA1]
              rcases List.mem_append.mp (hpiF.mem_iff.mp hl') with hmF | hmT
              · exact fun hA => hdisjFA hmF hA
              · have hT : l' ∈ lamIdsT s argT ga := by
                  by_cases hc : countOcc x val0 = 0 <;> simp [spliceIf, hc] at hmT
                  exact hmT
                exact fun hA => hdisj l' (List.mem_append_right _ hA) hT
            obtain ⟨hrelF', hidF', hvarF'⟩ :=
              (rel_mono_main (2 * sizeT (substS x argT val0))).1 (substS x argT val0) f'
                s1 s2 e1 (le_refl _) hrelF hagreeF
            refine ⟨.op2 oper f' a', s2, by simp [substG, hsubF, hsubA],
              ⟨rfl, hrelF', hrelA⟩,
              by rw [hv2, hv1], by rw [hd2, hd1], by rw [hl2, hl1], ?_, ?_, ?_⟩
            · intro l' hl'
              rw [hliA] at hl'
              simp only [List.mem_append] at hl'
              push_neg at hl'
              rw [hfr2 l' (by rw [hidA1]; exact hl'.2)]
              exact hfr1 l' hl'.1
            · have heq : lamIdsT s2 (substS x argT (.op2 oper val0 val1)) (.op2 oper f' a') =
                  lamIdsT s1 (substS x argT val0) f' ++
                    lamIdsT s2 (substS x argT val1) a' := by
                simp [substS, lamIdsT, hidF']
              rw [heq, hliA]
              simp only [countOcc]
              exact (hpiF.append hpiA).trans
                (splice_append_perm _ _ _ _ _ hcnt)
            · have heq : lamVarsT s2 (substS x argT (.op2 oper val0 val1)) (.op2 oper f' a') =
                  lamVarsT s1 (substS x argT val0) f' ++
                    lamVarsT s2 (substS x argT val1) a' := by
                simp [substS, lamVarsT, hvarF']
              rw [heq, hlvA]
              simp only [countOcc]
              exact (hpvF.append hpvA).trans
                (splice_append_perm _ _ _ _ _ hcnt)
      | ctr name args =>
        cases g <;> simp [rel] at hr
        case ctr gname gargs =>
          obtain ⟨hn, h2⟩ := hr
          subst hn
          cases fuel with
          | zero => simp [sizeT] at hfuel
          | succ f =>
            have hsl : 2 * sizeTList args + 1 ≤ bud := by simp [sizeT] at hs; omega
            have hfl : sizeTList args ≤ f := by simp [sizeT] at hfuel; omega
            obtain ⟨gs', s', hsub, hrel', hv1, hd1, hl1, hfr1, hpi, hpv⟩ :=
              (ih.2) args gargs s e1 x v argT ga hsl h2 (by simpa [lamNames] using hxb)
                hxe hve (by simpa [lamVarsT] using hvv) harg
                (by simpa [lamIdsT] using hdisj) (by simpa [lamIdsT] using hndI)
                (by simpa [lamIdsT] using hbnd) (by simpa [countOcc] using hcnt) f hfl
            refine ⟨.ctr name gs', s', by simp [substG, hsub], ⟨rfl, hrel'⟩,
              hv1, hd1, hl1, by simpa [lamIdsT] using hfr1, ?_, ?_⟩
            · simpa [substS, lamIdsT, countOcc] using hpi
            · simpa [substS, lamVarsT, countOcc] using hpv
      | fnc name args =>
        cases g <;> simp [rel] at hr
        case fnc gname gargs =>
          obtain ⟨hn, h2⟩ := hr
          subst hn
          cases fuel with
          | zero => simp [sizeT] at hfuel
          | succ f =>
            have hsl : 2 * sizeTList args + 1 ≤ bud := by simp [sizeT] at hs; omega
            have hfl : sizeTList args ≤ f := by simp [sizeT] at hfuel; omega
            obtain ⟨gs', s', hsub, hrel', hv1, hd1, hl1, hfr1, hpi, hpv⟩ :=
              (ih.2) args gargs s e1 x v argT ga hsl h2 (by simpa [lamNames] using hxb)
                hxe hve (by simpa [lamVarsT] using hvv) harg
                (by simpa [lamIdsT] using hdisj) (by simpa [lamIdsT] using hndI)
                (by simpa [lamIdsT] using hbnd) (by simpa [countOcc] using hcnt) f hfl
            refine ⟨.fnc name gs', s', by simp [substG, hsub], ⟨rfl, hrel'⟩,
              hv1, hd1, hl1, by simpa [lamIdsT] using hfr1, ?_, ?_⟩
            · simpa [substS, lamIdsT, countOcc] using hpi
            · simpa [substS, lamVarsT, countOcc] using hpv
    · intro ts gs s e1 x v argT ga hs hr hxb hxe hve hvv harg hdisj hndI hbnd hcnt fuel hfuel
      cases ts with
      | nil =>
        cases gs <;> simp [relList] at hr
        refine ⟨[], s, by simp [substFold], by simp [substSList, relList], rfl, rfl, rfl,
          fun l _ => rfl, ?_, ?_⟩
        · simp [substSList, lamIdsTList, countOccList, spliceIf]
        · simp [substSList, lamVarsTList, countOccList, spliceIf]
      | cons t rest =>
        cases gs with
        | nil => simp [relList] at hr
        | cons g grest =>
          obtain ⟨h1, h2⟩ := hr
          simp only [lamNamesList, List.mem_append] at hxb
          push_neg at hxb
          have hliA : lamIdsTList s (t :: rest) (g :: grest) =
              lamIdsT s t g ++ lamIdsTList s rest grest := rfl
          have hlvA : lamVarsTList s (t :: rest) (g :: grest) =
              lamVarsT s t g ++ lamVarsTList s rest grest := rfl
          rw [hliA] at hdisj hndI hbnd
          rw [hlvA] at hvv
          simp only [List.mem_append] at hvv
          push_neg at hvv
          rw [List.nodup_append] at hndI
          obtain ⟨hndF, hndA, hdisjFA⟩ := hndI
          have hpos := sizeT_pos t
          have hsf : 2 * sizeT t ≤ bud := by simp [sizeTList] at hs; omega
          have hsa : 2 * sizeTList rest + 1 ≤ bud := by simp [sizeTList] at hs; omega
          have hff : sizeT t ≤ fuel := by simp [sizeTList] at hfuel; omega
          have hfa : sizeTList rest ≤ fuel := by simp [sizeTList] at hfuel; omega
          have hcf : countOcc x t ≤ 1 := by simp [countOccList] at hcnt; omega
          have hca : countOccList x rest ≤ 1 := by simp [countOccList] at hcnt; omega
          obtain ⟨f', s1, hsubF, hrelF, hv1, hd1, hl1, hfr1, hpiF, hpvF⟩ :=
            (ih.1) t g s e1 x v argT ga hsf h1 hxb.1 hxe hve hvv.1 harg
              (fun l' hl' => hdisj l' (List.mem_append_left _ hl'))
              hndF (fun l' hl' => hbnd l' (List.mem_append_left _ hl')) hcf fuel hff
          obtain ⟨hrelA1, hidA1, hvarA1⟩ :=
            (rel_mono_main (2 * sizeTList rest + 1)).2 rest grest s s1 (e1 ++ [(x, v)])
              (le_refl _) h2
              (fun l' hl' => hfr1 l' (fun hf => hdisjFA hf hl'))
          obtain ⟨hargT1, hidT1, hvarT1⟩ :=
            (rel_mono_main (2 * sizeT argT)).1 argT ga s s1 []
              (le_refl _) harg
              (fun l' hl' => hfr1 l'
                (fun hf => hdisj l' (List.mem_append_left _ hf) hl'))
          obtain ⟨a', s2, hsubA, hrelA, hv2, hd2, hl2, hfr2, hpiA, hpvA⟩ :=
            (ih.2) rest grest s1 e1 x v argT ga hsa hrelA1 hxb.2 hxe hve
              (by rw [hvarA1]; exact hvv.2) hargT1
              (by rw [hidA1, hidT1]
                  exact fun l' hl' => hdisj l' (List.mem_append_right _ hl'))
              (by rw [hidA1]; exact hndA)
              (by rw [hidA1, hl1]
                  exact fun l' hl' => hbnd l' (List.mem_append_right _ hl'))
              hca fuel hfa
          rw [hidA1] at hpiA
          rw [hidT1] at hpiA
          rw [hvarA1] at hpvA
          rw [hvarT1] at hpvA
          have hagreeF : ∀ l', l' ∈ lamIdsT s1 (substS x argT t) f' →
              lamGet s2 l' = lamGet s1 l' := by
            intro l' hl'
            apply hfr2
            rw [hidA1]
            rcases List.mem_append.mp (hpiF.mem_iff.mp hl') with hmF | hmT
            · exact fun hA => hdisjFA hmF hA
            · have hT : l' ∈ lamIdsT s argT ga := by
                by_cases hc : countOcc x t = 0 <;> simp [spliceIf, hc] at hmT
                exact hmT
              exact fun hA => hdisj l' (List.mem_append_right _ hA) hT
          obtain ⟨hrelF', hidF', hvarF'⟩ :=
            (rel_mono_main (2 * sizeT (substS x argT t))).1 (substS x argT t) f'
              s1 s2 e1 (le_refl _) hrelF hagreeF
          refine ⟨f' :: a', s2, by simp [substFold, hsubF, hsubA], ⟨hrelF', hrelA⟩,
            by rw [hv2, hv1], by rw [hd2, hd1], by rw [hl2, hl1], ?_, ?_, ?_⟩
          · intro l' hl'
            rw [hliA] at hl'
            simp only [List.mem_append] at hl'
            push_neg at hl'
            rw [hfr2 l' (by rw [hidA1]; exact hl'.2)]
            exact hfr1 l' hl'.1
          · have heq : lamIdsTList s2 (substSList x argT (t :: rest)) (f' :: a') =
                lamIdsT s1 (substS x argT t) f' ++
                  lamIdsTList s2 (substSList x argT rest) a' := by
              simp [substSList, lamIdsTList, hidF']
            rw [heq, hliA]
            simp only [countOccList]
            exact (hpiF.append hpiA).trans
              (splice_append_perm _ _ _ _ _ hcnt)
          · have heq : lamVarsTList s2 (substSList x argT (t :: rest)) (f' :: a') =
                lamVarsT s1 (substS x argT t) f' ++
                  lamVarsTList s2 (substSList x argT rest) a' := by
              simp [substSList, lamVarsTList, hvarF']
            rw [heq, hlvA]
            simp only [countOccList]
            exact (hpvF.append hpvA).trans
              (splice_append_perm _ _ _ _ _ hcnt)

/-- C6: for a well-formed linear redex — `Dup`-free, non-`NONE` pairwise
distinct binders, lexically scoped, the bound name `x` used at most once —
building `App(Lam(x, body), arg)`, firing the (spec-modelled) Beta
rewiring once and reading back yields a term equal to the substitution
`body[x := arg]` up to the canonical renaming of bound variables
(de Bruijn comparison). -/
theorem c6_beta_linear_subst (x : Name) (body arg : Term) (root : TermNode) (s : Store)
    (hnd : noDupC (.app (.lam x body) arg) = true)
    (hnf : nilFreeB (.app (.lam x body) arg) = true)
    (hsc : lexScoped [] (.app (.lam x body) arg) = true)
    (hnodup : (lamNames (.app (.lam x body) arg)).Nodup)
    (hlin : countOcc x body ≤ 1)
    (hct : createTerm (.app (.lam x body) arg) = .ok (root, s)) :
    ∃ t', betaReadback (sizeT body + sizeT (substS x arg body))
        (.app (.lam x body) arg) = some t' ∧
      toDB [] t' = toDB [] (substS x arg body) := by
  have hgo : ∃ st', createTermGo (.app (.lam x body) arg) initCSt = .ok (root, st') ∧
      st'.store = s := by
    cases hce : createTermGo (.app (.lam x body) arg) initCSt with
    | error e => simp [createTerm, hce] at hct
    | ok p =>
      obtain ⟨g, st'⟩ := p
      simp [createTerm, hce] at hct
      exact ⟨st', by rw [hct.1], hct.2⟩
  obtain ⟨st', hce, hss⟩ := hgo
  have hh : soundHyps (.app (.lam x body) arg) initCSt [] := by
    refine ⟨hnd, hnf, by simpa using hsc, ?_, hnodup, ?_⟩
    · intro y hy
      exact ⟨rfl, rfl⟩
    · intro z v hv
      simp [envLookup] at hv
  have hconcl := (createTermGo_sound_main (2 * sizeT (.app (.lam x body) arg))).1
    (.app (.lam x body) arg) initCSt [] root st' (le_refl _) hce hh
  obtain ⟨hrel0, _, _, _, hIb, hIn, hVb, hVn⟩ := hconcl
  rw [hss] at hrel0 hIb hIn hVb hVn
  cases root with
  | app gfl ga =>
    obtain ⟨hrlam, harg⟩ := hrel0
    cases gfl with
    | lam l =>
      obtain ⟨hxnil, v, b, hget, hrelBody⟩ := hrlam
      have hids : lamIdsT s (.app (.lam x body) arg) (.app (.lam l) ga) =
          (l :: lamIdsT s body b) ++ lamIdsT s arg ga := by
        simp [lamIdsT, hget]
      have hvars : lamVarsT s (.app (.lam x body) arg) (.app (.lam l) ga) =
          (v :: lamVarsT s body b) ++ lamVarsT s arg ga := by
        simp [lamVarsT, hget]
      rw [hids] at hIb hIn
      rw [hvars] at hVn
      have hnamesEq : lamNames (.app (.lam x body) arg) =
          (x :: lamNames body) ++ lamNames arg := rfl
      rw [hnamesEq] at hnodup
      have hxb : x ∉ lamNames body := by
        have := (List.nodup_cons.mp ((List.nodup_append.mp hnodup).1)).1
        intro hmem
        have h2 := List.nodup_cons.mp (by
          rw [List.cons_append] at hnodup
          exact hnodup)
        exact h2.1 (List.mem_append_left _ hmem)
      have hVn' : (v :: (lamVarsT s body b ++ lamVarsT s arg ga)).Nodup := by
        rw [← List.cons_append]
        exact hVn
      rw [List.nodup_cons] at hVn'
      obtain ⟨hvnotin, hVapp⟩ := hVn'
      have hIn' : (l :: (lamIdsT s body b ++ lamIdsT s arg ga)).Nodup := by
        rw [← List.cons_append]
        exact hIn
      rw [List.nodup_cons] at hIn'
      obtain ⟨hlnotin, hIapp⟩ := hIn'
      rw [List.nodup_append] at hIapp
      obtain ⟨hndBody, hndArg, hdisjBA⟩ := hIapp
      obtain ⟨b2, s2, hsub, hrelRes, hv2, hd2, hl2, hfr2, hpi, hpv⟩ :=
        (substG_sound_main (2 * sizeT body)).1 body b s [] x v arg ga (le_refl _)
          hrelBody hxb (by simp) (by simp)
          (fun hmem => hvnotin (List.mem_append_left _ hmem)) harg
          (fun l' hl' => fun hT => hdisjBA hl' hT)
          hndBody
          (fun l' hl' => (hIb l'
            (List.mem_cons_of_mem _ (List.mem_append_left _ hl'))).2)
          hlin (sizeT body + sizeT (substS x arg body)) (Nat.le_add_right _ _)
      have hred : reduceBetaStep (sizeT body + sizeT (substS x arg body))
          (.app (.lam l) ga) s = some (b2, s2) := by
        simp [reduceBetaStep, hget, hsub]
      have hNodupRes : (lamVarsT s2 (substS x arg body) b2).Nodup := by
        refine (hpv.symm).nodup ?_
        refine List.Nodup.sublist ?_ (by
          rw [List.nodup_append] at hVapp ⊢
          exact hVapp)
        refine List.Sublist.append_left ?_ _
        by_cases hc : countOcc x body = 0
        · simp [spliceIf, hc]
        · simp [spliceIf, hc]
      have hbn := (buildNames_spec_main (2 * sizeT (substS x arg body))).1
        (substS x arg body) b2 s2 [] ⟨[]⟩ (le_refl _) hrelRes (fun w _ => rfl)
        hNodupRes (sizeT body + sizeT (substS x arg body)) (Nat.le_add_left _ _)
      simp only [List.nil_append, List.length_nil] at hbn
      have hdef : ∀ w, w ∈ ([] : List (Name × Nat)).map Prod.snd ++
          lamVarsT s2 (substS x arg body) b2 →
          (lookupUId (enumVars 0 (lamVarsT s2 (substS x arg body) b2))
            (UId.varU w)).isSome = true := by
        intro w hw
        simp only [List.map_nil, List.nil_append] at hw
        exact enumVars_lookup_mem _ 0 w hw
      have hinj : ∀ w u, w ∈ ([] : List (Name × Nat)).map Prod.snd ++
          lamVarsT s2 (substS x arg body) b2 →
          u ∈ ([] : List (Name × Nat)).map Prod.snd ++
            lamVarsT s2 (substS x arg body) b2 →
          lookupUId (enumVars 0 (lamVarsT s2 (substS x arg body) b2)) (UId.varU w) =
            lookupUId (enumVars 0 (lamVarsT s2 (substS x arg body) b2)) (UId.varU u) →
          w = u := by
        intro w u hw hu heq
        simp only [List.map_nil, List.nil_append] at hw hu
        have h1 := enumVars_lookup_mem _ 0 w hw
        obtain ⟨m, hm⟩ := Option.isSome_iff_exists.mp h1
        exact enumVars_lookup_inj _ 0 w u m hNodupRes hm (heq ▸ hm)
      have hrb := (readback_spec_main (2 * sizeT (substS x arg body))).1
        (substS x arg body) b2 s2 []
        ⟨enumVars 0 (lamVarsT s2 (substS x arg body) b2)⟩ ⟨s2, ⟨[]⟩⟩
        (le_refl _) hrelRes rfl hdef hinj (by simpa using hNodupRes)
        (sizeT body + sizeT (substS x arg body)) (Nat.le_add_left _ _)
      obtain ⟨t', hrb1, hrb2⟩ := hrb
      refine ⟨t', ?_, by simpa using hrb2⟩
      simp only [betaReadback, hct, hred, readback, hbn, hrb1]
      rfl
    | var q => exact absurd hrlam (by simp [rel])
    | dpx q => exact absurd hrlam (by simp [rel])
    | sup q ll rr => exact absurd hrlam (by simp [rel])
    | app q1 q2 => exact absurd hrlam (by simp [rel])
    | ctr q1 q2 => exact absurd hrlam (by simp [rel])
    | fnc q1 q2 => exact absurd hrlam (by simp [rel])
    | num q => exact absurd hrlam (by simp [rel])
    | op2 q1 q2 q3 => exact absurd hrlam (by simp [rel])
  | var q => exact absurd hrel0 (by simp [rel])
  | dpx q => exact absurd hrel0 (by simp [rel])
  | sup q ll rr => exact absurd hrel0 (by simp [rel])
  | lam q => exact absurd hrel0 (by simp [rel])
  | ctr q1 q2 => exact absurd hrel0 (by simp [rel])
  | fnc q1 q2 => exact absurd hrel0 (by simp [rel])
  | num q => exact absurd hrel0 (by simp [rel])
  | op2 q1 q2 q3 => exact absurd hrel0 (by simp [rel])

theorem c6_witness :
    noDupC c6T = true ∧ nilFreeB c6T = true ∧ lexScoped [] c6T = true ∧
      (lamNames c6T).Nodup ∧ countOcc (.user 0) (.var (.user 0)) ≤ 1 ∧
      createTerm c6T = .ok (c6Root, c6Store) ∧
      ∃ t', betaReadback (sizeT (.var (.user 0)) +
          sizeT (substS (.user 0) c6Arg (.var (.user 0)))) c6T = some t' ∧
        toDB [] t' = toDB [] (substS (.user 0) c6Arg (.var (.user 0))) :=
  ⟨rfl, rfl, rfl, by decide, by decide, rfl,
    c6_beta_linear_subst (.user 0) (.var (.user 0)) c6Arg c6Root c6Store
      rfl rfl rfl (by decide) (by decide) rfl⟩

/-- C6 counterexample to the literal claim: on `c6T` the Beta step plus
readback yields `λ"x0". "x0"` — the bound variable renamed to the Namer's
display name — which is not the *same* Surface Term as the substitution
result `λ"x1". "x1"`; the round trip agrees with substitution only up to
the canonical renaming. -/
theorem c6_readback_renames :
    betaReadback 3 c6T = some (.lam (.xn 0) (.var (.xn 0))) ∧
      ¬(Term.lam (.xn 0) (.var (.xn 0)) = substS (.user 0) c6Arg (.var (.user 0))) :=
  ⟨rfl, by simp [substS, c6Arg]⟩
